import Mathlib

/-! # EarthFS meta-file ingestion (src/EFSMetaFile.c) and the pull writer (src/EFSPull.c)

A shallow embedding of the meta-file parser and index writer.

* Byte strings are lists of naturals (each below 256); a C string is the run of
  bytes before the first NUL.
* The key/value store is one ordered keyspace of tagged tuples; the store is
  kept as the list of rows in insertion order.
* `assert`/`assertf` failures abort the process; they are modelled by
  `Except.error`.
* The JSON tokenizer (yajl) and the full-text tokenizer (fts) are external:
  they enter as parameters.
-/

namespace EarthFS

/-! ## Bytes and C strings -/

abbrev Bytes := List Nat

def META_MAX : Nat := 1024 * 100

/-- From `#define URI_MAX 1024`. -/
def URI_MAX : Nat := 1024

/-- The byte of a carriage return. -/
def CR : Nat := 13

/-- The byte of a line feed. -/
def LF : Nat := 10

/-- The C string that starts at the head of `p`: the bytes before the first NUL. -/
def cstr (p : Bytes) : Bytes := p.takeWhile (fun b => b != 0)

/-- From libc: `strndup(s, n)` copies at most `n` bytes of `s`, stopping at a NUL. -/
def strndup (s : Bytes) (n : Nat) : Bytes := cstr (s.take n)

/-- The key the JSON callback compares the current field with: the bytes of the word fulltext. -/
def fulltextField : Bytes := [102, 117, 108, 108, 116, 101, 120, 116]

/-! ## The key/value store -/

/-- The table tags with their key tuples (the index schema). -/
inductive Key where
  | EFSMetaFileByID (metaFileID : Nat)
  | EFSFileIDAndMetaFileID (fileID metaFileID : Nat)
  | EFSTargetURIAndMetaFileID (targetURI : Bytes) (metaFileID : Nat)
  | EFSMetaFileIDFieldAndValue (metaFileID : Nat) (field value : Bytes)
  | EFSFieldValueAndMetaFileID (field value : Bytes) (metaFileID : Nat)
  | EFSTermMetaFileIDAndPosition (term : Bytes) (metaFileID position : Nat)
deriving DecidableEq, Repr

/-- A stored value: `none` is the empty value `{ 0, NULL }`, `some (fileID, targetURI)` the
value of a primary meta-file row. -/
abbrev Val := Option (Nat × Bytes)

/-- The store seen by one transaction: its rows, in insertion order. -/
abbrev DB := List (Key × Val)

instance instDecidableEqRow : DecidableEq (Key × Val) := instDecidableEqProd

instance instDecidableEqDB : DecidableEq DB := instDecidableEqList

/-- Return codes of `db_put`. -/
inductive DBrc where
  | DB_SUCCESS
  | DB_KEYEXIST
deriving DecidableEq, Repr

/-- Modelled from the spec: `db_put` in mode `DB_NOOVERWRITE_FAST` (the KV adapter is not among
the sources). "Mode NoOverwrite fails with KeyExists if the key is present"; otherwise the row
is added. -/
def db_put (db : DB) (key : Key) (val : Val) : DB × DBrc :=
  if key ∈ db.map Prod.fst then (db, DBrc.DB_KEYEXIST) else (db ++ [(key, val)], DBrc.DB_SUCCESS)

/-- The keys of the primary table `EFSMetaFileByID` present in the store. -/
def metaFileIDs (db : DB) : List Nat :=
  db.filterMap (fun r => match r.1 with
    | Key.EFSMetaFileByID id => some id
    | _ => none)

/-- The largest key of the primary table (0 when the table is empty). -/
def maxMetaFileID (db : DB) : Nat := (metaFileIDs db).foldr max 0

/-- Modelled from the spec: `db_next_id(txn, EFSMetaFileByID)` (the KV adapter is not among the
sources). "Reads the largest existing key under the table tag and returns its value + 1", as a
`uint64_t`. -/
def db_next_id (db : DB) : Nat := (maxMetaFileID db + 1) % 2 ^ 64

/-- The meta-file id a key refers to. -/
def Key.metaFileID : Key → Nat
  | Key.EFSMetaFileByID id => id
  | Key.EFSFileIDAndMetaFileID _ id => id
  | Key.EFSTargetURIAndMetaFileID _ id => id
  | Key.EFSMetaFileIDFieldAndValue id _ _ => id
  | Key.EFSFieldValueAndMetaFileID _ _ id => id
  | Key.EFSTermMetaFileIDAndPosition _ id _ => id

/-! ## Aborts -/

/-- The assertions of the source that abort the process when they fail. -/
inductive Abort where
  | assertMetaFileID        -- assert(metaFileID) in add_metafile
  | assertPrimaryPut        -- assert(!rc) after the put of the primary row
  | assertFileIDPut         -- assert(!rc) after the put of the (fileID, metaFileID) row
  | assertTargetURIPut      -- assert(!rc) after the put of the (targetURI, metaFileID) row
  | alreadyParsingField     -- assertf(!context->field, "Already parsing field")
  | unexpectedMapKey        -- assertf(0, "Unexpected map key in state %d")
  | unexpectedMapEnd        -- assertf(0, "Unexpected map end in state %d")
  | unexpectedArrayEnd      -- assertf(0, "Unexpected array end in state %d")
  | nullField               -- strcmp on a NULL context->field
deriving DecidableEq, Repr

deriving instance DecidableEq for Except

/-! ## The index writer -/

/-- From `add_metafile`. -/
def add_metafile (db : DB) (fileID : Nat) (targetURI : Bytes) : Except Abort (DB × Nat) :=
  let metaFileID := db_next_id db
  if metaFileID = 0 then Except.error Abort.assertMetaFileID else
  let r1 := db_put db (Key.EFSMetaFileByID metaFileID) (some (fileID, targetURI))
  if r1.2 ≠ DBrc.DB_SUCCESS then Except.error Abort.assertPrimaryPut else
  let r2 := db_put r1.1 (Key.EFSFileIDAndMetaFileID fileID metaFileID) none
  if r2.2 ≠ DBrc.DB_SUCCESS then Except.error Abort.assertFileIDPut else
  let r3 := db_put r2.1 (Key.EFSTargetURIAndMetaFileID targetURI metaFileID) none
  if r3.2 ≠ DBrc.DB_SUCCESS then Except.error Abort.assertTargetURIPut else
  Except.ok (r3.1, metaFileID)

/-- From `add_metadata`: `field` is a C string, `value` the `vlen` bytes of the value. Both
assertions accept `DB_SUCCESS` and `DB_KEYEXIST`, the only results of `db_put`. -/
def add_metadata (db : DB) (metaFileID : Nat) (field value : Bytes) : DB :=
  if value.length = 0 then db else
  let r1 := db_put db (Key.EFSMetaFileIDFieldAndValue metaFileID field value) none
  let r2 := db_put r1.1 (Key.EFSFieldValueAndMetaFileID field value metaFileID) none
  r2.1

/-- From `add_fulltext`: one `db_cursor_put` per token that `xNext` yields, position 0. The
tokenizer `fts` gives the tokens of a text in order. -/
def add_fulltext (fts : Bytes → List Bytes) (db : DB) (metaFileID : Nat) (str : Bytes) : DB :=
  (fts str).foldl
    (fun d token => (db_put d (Key.EFSTermMetaFileIDAndPosition token metaFileID 0) none).1) db

/-! ## The JSON callbacks -/

inductive parser_state where
  | s_start
  | s_top
  | s_field_value
  | s_field_array
  | s_end
deriving DecidableEq, Repr

structure parser_context where
  metaFileID : Nat
  targetURI : Bytes
  state : parser_state
  field : Option Bytes
deriving DecidableEq, Repr

/-- The events a SAX JSON parser delivers, one per callback of the table `callbacks`. -/
inductive Event where
  | null
  | boolean (flag : Bool)
  | number (str : Bytes)
  | string (str : Bytes)
  | start_map
  | map_key (key : Bytes)
  | end_map
  | start_array
  | end_array
deriving DecidableEq, Repr

/-- What a callback leaves behind: its return value, the context and the store. -/
abbrev CallbackResult := Except Abort (Bool × parser_context × DB)

def yajl_null (context : parser_context) (db : DB) : CallbackResult :=
  Except.ok (false, context, db)

def yajl_boolean (context : parser_context) (db : DB) (_flag : Bool) : CallbackResult :=
  Except.ok (false, context, db)

def yajl_number (context : parser_context) (db : DB) (_str : Bytes) : CallbackResult :=
  Except.ok (false, context, db)

def yajl_string (fts : Bytes → List Bytes) (context : parser_context) (db : DB) (str : Bytes) :
    CallbackResult :=
  match context.state with
  | parser_state.s_field_value | parser_state.s_field_array =>
    match context.field with
    | none => Except.error Abort.nullField
    | some field =>
      let db1 :=
        if fulltextField = field then add_fulltext fts db context.metaFileID str
        else add_metadata db context.metaFileID field str
      if context.state = parser_state.s_field_value then
        Except.ok (true, { context with field := none, state := parser_state.s_top }, db1)
      else
        Except.ok (true, context, db1)
  | _ => Except.ok (false, context, db)

def yajl_start_map (context : parser_context) (db : DB) : CallbackResult :=
  match context.state with
  | parser_state.s_start => Except.ok (true, { context with state := parser_state.s_top }, db)
  | _ => Except.ok (false, context, db)

def yajl_map_key (context : parser_context) (db : DB) (key : Bytes) : CallbackResult :=
  match context.state with
  | parser_state.s_top =>
    if context.field.isSome then Except.error Abort.alreadyParsingField else
    Except.ok (true, { context with field := some (strndup key key.length),
                                    state := parser_state.s_field_value }, db)
  | _ => Except.error Abort.unexpectedMapKey

def yajl_end_map (context : parser_context) (db : DB) : CallbackResult :=
  match context.state with
  | parser_state.s_top => Except.ok (true, { context with state := parser_state.s_end }, db)
  | _ => Except.error Abort.unexpectedMapEnd

def yajl_start_array (context : parser_context) (db : DB) : CallbackResult :=
  match context.state with
  | parser_state.s_field_value =>
    Except.ok (true, { context with state := parser_state.s_field_array }, db)
  | _ => Except.ok (false, context, db)

def yajl_end_array (context : parser_context) (db : DB) : CallbackResult :=
  match context.state with
  | parser_state.s_field_array =>
    Except.ok (true, { context with field := none, state := parser_state.s_top }, db)
  | _ => Except.error Abort.unexpectedArrayEnd

/-- The callback table: which callback an event reaches. -/
def callbacks (fts : Bytes → List Bytes) (context : parser_context) (db : DB) :
    Event → CallbackResult
  | Event.null => yajl_null context db
  | Event.boolean flag => yajl_boolean context db flag
  | Event.number str => yajl_number context db str
  | Event.string str => yajl_string fts context db str
  | Event.start_map => yajl_start_map context db
  | Event.map_key key => yajl_map_key context db key
  | Event.end_map => yajl_end_map context db
  | Event.start_array => yajl_start_array context db
  | Event.end_array => yajl_end_array context db

/-! ## The JSON parser (external) -/

/-- What yajl makes of a byte range, callbacks apart: the events it would deliver, in order, and
whether it reaches the end of the range without a lexical or syntax error (partial values are
allowed). -/
structure YajlRun where
  events : List Event
  complete : Bool
deriving DecidableEq, Repr

/-- The delivery of events by `yajl_parse` and `yajl_complete_parse`: in order, stopping at the
first callback that returns false (the parse is then cancelled). The boolean of the result says
whether every callback returned true. -/
def yajl_deliver (fts : Bytes → List Bytes) :
    List Event → parser_context → DB → CallbackResult
  | [], context, db => Except.ok (true, context, db)
  | ev :: rest, context, db =>
    match callbacks fts context db ev with
    | Except.error a => Except.error a
    | Except.ok (false, context1, db1) => Except.ok (false, context1, db1)
    | Except.ok (true, context1, db1) => yajl_deliver fts rest context1 db1

/-! ## The meta-file object -/

/-- From `struct EFSMetaFile`: `buf` holds the `len` buffered bytes, so `len` is its length. -/
structure EFSMetaFile where
  buf : Bytes
  metaFileID : Nat
deriving DecidableEq, Repr

/-- A meta-file reference; `none` is the NULL pointer. -/
abbrev EFSMetaFileRef := Option EFSMetaFile

def EFSMetaFile.len (meta : EFSMetaFile) : Nat := meta.buf.length

/-- The three delimiter tests of the scan at offset `i`. -/
def isDelimiterAt (buf : Bytes) (i : Nat) : Bool :=
  let crlfcrlf :=
    buf[i + 0]? == some CR && buf[i + 1]? == some LF &&
    buf[i + 2]? == some CR && buf[i + 3]? == some LF
  let crcr := buf[i + 0]? == some CR && buf[i + 1]? == some CR
  let lflf := buf[i + 0]? == some LF && buf[i + 1]? == some LF
  crlfcrlf || crcr || lflf

/-- The scan loop of `EFSMetaFileStore`, `n` iterations left, at index `i`: the index at which
the loop meets a delimiter (and leaves), if any. -/
def scanLoop (buf : Bytes) : Nat → Nat → Option Nat
  | 0, _ => none
  | n + 1, i => if isDelimiterAt buf i then some i else scanLoop buf n (i + 1)

/-- What the scan extracts from an accepted body. -/
structure Frame where
  buf : Bytes         -- meta->buf after the scan (a NUL written at the delimiter)
  targetURI : Bytes   -- the C string at meta->buf
  json : Bytes        -- the len bytes at buf, handed to the parser
deriving DecidableEq, Repr

/-- The framing part of `EFSMetaFileStore` (after the check `meta->len < 3`): the state of the
locals `buf`, `len`, `targetURI` after the loop, or `none` when they are left NULL. -/
def frame (metabuf : Bytes) : Option Frame :=
  match scanLoop metabuf (min (URI_MAX + 1) (metabuf.length - 3)) 0 with
  | none => none
  | some i =>
    if i < 8 then none else
    let buf1 := metabuf.set i 0
    some { buf := buf1, targetURI := cstr buf1, json := buf1.drop (i + 1) }

/-- From `EFSMetaFileStore`. The result is the meta-file object, the store and the returned
`err_t`. -/
def EFSMetaFileStore (yajl : Bytes → YajlRun) (fts : Bytes → List Bytes)
    (meta : EFSMetaFileRef) (fileID : Nat) (db : DB) :
    Except Abort (EFSMetaFileRef × DB × Int) :=
  match meta with
  | none => Except.ok (none, db, 0)
  | some m =>
    if m.len < 3 then Except.ok (meta, db, 0) else
    match frame m.buf with
    | none => Except.ok (meta, db, 0)
    | some f =>
      if f.json.length = 0 then Except.ok (some { m with buf := f.buf }, db, 0) else
      match add_metafile db fileID f.targetURI with
      | Except.error a => Except.error a
      | Except.ok (db1, metaFileID) =>
        let context : parser_context :=
          { metaFileID := metaFileID, targetURI := f.targetURI,
            state := parser_state.s_start, field := none }
        let run := yajl f.json
        match yajl_deliver fts run.events context db1 with
        | Except.error a => Except.error a
        | Except.ok (delivered, _, db2) =>
          let meta1 : EFSMetaFileRef := some { buf := f.buf, metaFileID := metaFileID }
          if delivered && run.complete then Except.ok (meta1, db2, 0)
          else Except.ok (meta1, db2, -1)

def EFSMetaFileGetID (meta : EFSMetaFileRef) : Nat :=
  match meta with
  | none => 0
  | some m => m.metaFileID

/-- From `EFSMetaFileCreate`: NULL unless the type is the meta-file media type (`isMetaType` is
the outcome of the `strcasecmp`); the new object is zeroed and its buffer empty. -/
def EFSMetaFileCreate (isMetaType : Bool) : EFSMetaFileRef :=
  if isMetaType then some { buf := [], metaFileID := 0 } else none

/-- From `EFSMetaFileWrite`; the returned `err_t` is 0 on every path. -/
def EFSMetaFileWrite (meta : EFSMetaFileRef) (buf : Bytes) : EFSMetaFileRef × Int :=
  match meta with
  | none => (none, 0)
  | some m =>
    if m.len ≥ META_MAX then (meta, 0) else
    let use := min (META_MAX - m.len) buf.length
    (some { m with buf := m.buf ++ buf.take use }, 0)

/-- A sequence of calls of `EFSMetaFileWrite` on one meta-file, one for each byte string in
turn: the meta-file after the calls and the values the calls returned. -/
def writeAll : EFSMetaFileRef → List Bytes → EFSMetaFileRef × List Int
  | meta, [] => (meta, [])
  | meta, b :: bs =>
    let r := EFSMetaFileWrite meta b
    let rs := writeAll r.1 bs
    (rs.1, r.2 :: rs.2)

/-! ## The memory accesses of the scan -/

/-- What the scan of `EFSMetaFileStore` does to the buffer and in `size_t` arithmetic. -/
inductive ScanEvent where
  | read (index : Nat)    -- a read of meta->buf[index]
  | write (index : Nat)   -- the write meta->buf[index] = 0
  | sub (a b : Nat)       -- an evaluation of the unsigned difference a - b
deriving DecidableEq, Repr

/-- Subtraction in `size_t`: the difference modulo 2^64. -/
def size_sub (a b : Nat) : Nat := (a + 2 ^ 64 - b) % 2 ^ 64

/-- The indices the three delimiter tests read at offset `i`, in the order of evaluation: each
of `crlfcrlf`, `crcr` and `lflf` is evaluated, and `&&` stops at its first false operand. -/
def delimiterReads (buf : Bytes) (i : Nat) : List Nat :=
  let crlfcrlf :=
    (i + 0) :: (if buf[i + 0]? == some CR then
      (i + 1) :: (if buf[i + 1]? == some LF then
        (i + 2) :: (if buf[i + 2]? == some CR then [i + 3] else []) else []) else [])
  let crcr := (i + 0) :: (if buf[i + 0]? == some CR then [i + 1] else [])
  let lflf := (i + 0) :: (if buf[i + 0]? == some LF then [i + 1] else [])
  crlfcrlf ++ crcr ++ lflf

/-- The events of the scan loop with `n` iterations left, at index `i`, for a buffer of `len`
bytes: each test of the loop condition evaluates `meta->len-3`; an iteration reads for the
three tests, and at a delimiter at offset 8 or more writes the NUL and evaluates
`meta->len - (i + 1)`. The loop follows `scanLoop`. -/
def scanEvents (buf : Bytes) (len : Nat) : Nat → Nat → List ScanEvent
  | 0, _ => [ScanEvent.sub len 3]
  | n + 1, i =>
    ScanEvent.sub len 3 :: ((delimiterReads buf i).map ScanEvent.read ++
      (if isDelimiterAt buf i then
        (if i < 8 then [] else [ScanEvent.write i, ScanEvent.sub len (i + 1)])
       else scanEvents buf len n (i + 1)))

/-- The events of the framing part of `EFSMetaFileStore`: none for a NULL meta-file or one of
fewer than 3 bytes (the function returns before the loop); otherwise those of the loop, whose
bound is `MIN(URI_MAX+1, meta->len-3)` in `size_t`. -/
def storeScanEvents (meta : EFSMetaFileRef) : List ScanEvent :=
  match meta with
  | none => []
  | some m =>
    if m.len < 3 then [] else
    scanEvents m.buf m.len (min (URI_MAX + 1) (size_sub m.len 3)) 0

/-! ## The pull writer's transaction -/

/-- A submission as far as the index goes: its meta-file and the id of the file it was stored
as. -/
structure EFSSubmission where
  meta : EFSMetaFileRef
  fileID : Nat
deriving DecidableEq, Repr

/-- Modelled from the spec: `EFSSubmissionStore` (not among the sources), as far as the meta-file
goes: "call store(submission)" hands the submission's meta-file to `EFSMetaFileStore` inside the
writer's transaction and passes its error on. -/
def EFSSubmissionStore (yajl : Bytes → YajlRun) (fts : Bytes → List Bytes)
    (sub : EFSSubmission) (db : DB) : Except Abort (EFSSubmission × DB × Int) :=
  match EFSMetaFileStore yajl fts sub.meta sub.fileID db with
  | Except.error a => Except.error a
  | Except.ok (meta1, db1, err) => Except.ok ({ sub with meta := meta1 }, db1, err)

/-- The loop `for(index_t i = 0; i < count; ++i)` of `writer`, at index `i` with the current
value of `err`: the queue after the loop, the store, the last `err` and the index at which the
loop ended. -/
def storeQueue {σ : Type} (store : σ → DB → Except Abort (σ × DB × Int)) :
    List σ → Nat → Int → DB → Except Abort (List σ × DB × Int × Nat)
  | [], i, err, db => Except.ok ([], db, err, i)
  | sub :: rest, i, _, db =>
    match store sub db with
    | Except.error a => Except.error a
    | Except.ok (sub1, db1, err) =>
      if err < 0 then Except.ok (sub1 :: rest, db1, err, i) else
      match storeQueue store rest (i + 1) err db1 with
      | Except.error a => Except.error a
      | Except.ok (rest1, db2, err1, j) => Except.ok (sub1 :: rest1, db2, err1, j)

/-- One round of the loop `for(;;)` of `writer` around the transaction: BEGIN, the stores,
then ROLLBACK when `err < 0` and COMMIT otherwise. The store of the result is the committed
one. -/
def writerTxn {σ : Type} (store : σ → DB → Except Abort (σ × DB × Int))
    (queue : List σ) (db : DB) : Except Abort (List σ × DB × Int × Nat) :=
  match storeQueue store queue 0 0 db with
  | Except.error a => Except.error a
  | Except.ok (queue1, db1, err, i) =>
    if err < 0 then Except.ok (queue1, db, err, i) else Except.ok (queue1, db1, err, i)

/-- A sequence of ingests in one store: `EFSMetaFileStore` for each meta-file in turn, whatever
each call returns. -/
def ingestAll (yajl : Bytes → YajlRun) (fts : Bytes → List Bytes) :
    List EFSSubmission → DB → Except Abort DB
  | [], db => Except.ok db
  | sub :: rest, db =>
    match EFSMetaFileStore yajl fts sub.meta sub.fileID db with
    | Except.error a => Except.error a
    | Except.ok (_, db1, _) => ingestAll yajl fts rest db1

/-! ## Well-formed JSON documents and SAX traces -/

/-- A value of a well-formed meta-file: a string or an array of strings. -/
inductive FieldValue where
  | string (value : Bytes)
  | array (values : List Bytes)
deriving DecidableEq, Repr

/-- The JSON object of a well-formed meta-file: its members in order. -/
abbrev MetaObject := List (Bytes × FieldValue)

def FieldValue.values : FieldValue → List Bytes
  | FieldValue.string v => [v]
  | FieldValue.array vs => vs

/-- The events of a value. -/
def FieldValue.events : FieldValue → List Event
  | FieldValue.string v => [Event.string v]
  | FieldValue.array vs => Event.start_array :: (vs.map Event.string ++ [Event.end_array])

/-- The events of the members of an object. -/
def memberEvents : MetaObject → List Event
  | [] => []
  | (k, v) :: rest => Event.map_key k :: (v.events ++ memberEvents rest)

/-- The events a SAX parser delivers for the object. -/
def MetaObject.events (o : MetaObject) : List Event :=
  Event.start_map :: (memberEvents o ++ [Event.end_map])

/-- The field set of the object: its (field, value) pairs, arrays flattened. -/
def fieldSet : MetaObject → List (Bytes × Bytes)
  | [] => []
  | (k, v) :: rest => v.values.map (fun x => (k, x)) ++ fieldSet rest

/-- What a SAX parser expects next at one level of nesting. -/
inductive SaxFrame where
  | top          -- the top-level value
  | map_key      -- inside an object: a key or the end of the object
  | map_value    -- inside an object, after a key: a value
  | array        -- inside an array: a value or the end of the array
deriving DecidableEq, Repr

/-- The frames after a value has been completed. -/
def saxValueDone : List SaxFrame → List SaxFrame
  | SaxFrame.top :: rest => rest
  | SaxFrame.map_value :: rest => SaxFrame.map_key :: rest
  | stack => stack

/-- Whether a value may start here. -/
def saxExpectsValue : List SaxFrame → Bool
  | SaxFrame.top :: _ => true
  | SaxFrame.map_value :: _ => true
  | SaxFrame.array :: _ => true
  | _ => false

/-- One event of a SAX parser: `none` when the parser cannot deliver the event here. -/
def saxStep (stack : List SaxFrame) : Event → Option (List SaxFrame)
  | Event.start_map => if saxExpectsValue stack then some (SaxFrame.map_key :: stack) else none
  | Event.start_array => if saxExpectsValue stack then some (SaxFrame.array :: stack) else none
  | Event.map_key _ =>
    match stack with
    | SaxFrame.map_key :: rest => some (SaxFrame.map_value :: rest)
    | _ => none
  | Event.end_map =>
    match stack with
    | SaxFrame.map_key :: rest => some (saxValueDone rest)
    | _ => none
  | Event.end_array =>
    match stack with
    | SaxFrame.array :: rest => some (saxValueDone rest)
    | _ => none
  | _ => if saxExpectsValue stack then some (saxValueDone stack) else none

/-- The event sequences a SAX parser can deliver from a nesting: well nested, keys only
directly inside objects, nothing after the top-level value. -/
def saxTrace : List SaxFrame → List Event → Bool
  | _, [] => true
  | stack, ev :: rest =>
    match saxStep stack ev with
    | none => false
    | some stack1 => saxTrace stack1 rest

/-- The JSON parser is a SAX parser: whatever the bytes, the events it delivers are well
nested. -/
def IsSaxParser (yajl : Bytes → YajlRun) : Prop :=
  ∀ json, saxTrace [SaxFrame.top] (yajl json).events = true

/-- What `yajl_string` writes for a value delivered while `field` is the current field. -/
def emitValue (fts : Bytes → List Bytes) (metaFileID : Nat) (field : Bytes) (db : DB)
    (value : Bytes) : DB :=
  if fulltextField = field then add_fulltext fts db metaFileID value
  else add_metadata db metaFileID field value

/-- What the callbacks write for a list of (key, value) pairs in order; the current field is
the copy `strndup(key, len)` that `yajl_map_key` makes. -/
def emitFields (fts : Bytes → List Bytes) (metaFileID : Nat) (db : DB)
    (pairs : List (Bytes × Bytes)) : DB :=
  pairs.foldl (fun d p => emitValue fts metaFileID (strndup p.1 p.1.length) d p.2) db

/-- The nesting of the SAX parser that goes with a parser context: the state, whether the
current field is set, and the frames of the parser. -/
def SaxRel (context : parser_context) (stack : List SaxFrame) : Prop :=
  (context.state = parser_state.s_start ∧ context.field = none ∧ stack = [SaxFrame.top]) ∨
  (context.state = parser_state.s_top ∧ context.field = none ∧
    stack = [SaxFrame.map_key, SaxFrame.top]) ∨
  (context.state = parser_state.s_field_value ∧ context.field.isSome = true ∧
    stack = [SaxFrame.map_value, SaxFrame.top]) ∨
  (context.state = parser_state.s_field_array ∧ context.field.isSome = true ∧
    stack = [SaxFrame.array, SaxFrame.map_value, SaxFrame.top]) ∨
  (context.state = parser_state.s_end ∧ context.field = none ∧ stack = [])

/-! ## Predicates on stores -/

/-- The store is sound: every row refers to a meta-file id that is at most the largest key of
the primary table, and that key fits 64 bits. -/
def StoreOK (db : DB) : Prop :=
  (∀ r ∈ db, r.1.metaFileID ≤ maxMetaFileID db) ∧ maxMetaFileID db < 2 ^ 64

/-- The keys of the primary table, in the order they were written, are strictly increasing
and none is zero. -/
def IdsIncreasing (db : DB) : Prop :=
  (metaFileIDs db).Pairwise (fun a b => a < b) ∧ ∀ id ∈ metaFileIDs db, id ≠ 0

/-- The three rows `add_metafile` writes for a meta-file. -/
def metaFileRows (metaFileID fileID : Nat) (targetURI : Bytes) : DB :=
  [(Key.EFSMetaFileByID metaFileID, some (fileID, targetURI)),
   (Key.EFSFileIDAndMetaFileID fileID metaFileID, none),
   (Key.EFSTargetURIAndMetaFileID targetURI metaFileID, none)]

/-- The keys present in the store. -/
def keys (db : DB) : List Key := db.map Prod.fst

/-- Forward/reverse consistency of the field indexes. -/
def FwdRevConsistent (db : DB) : Prop :=
  ∀ metaFileID field value,
    Key.EFSMetaFileIDFieldAndValue metaFileID field value ∈ keys db ↔
    Key.EFSFieldValueAndMetaFileID field value metaFileID ∈ keys db

/-- The delimiters of the framing: CRLF CRLF, CR CR, LF LF. -/
def delimiters : List Bytes := [[CR, LF, CR, LF], [CR, CR], [LF, LF]]

/-- A delimiter occurs in the body at offset `i`. -/
def DelimiterAt (body : Bytes) (i : Nat) : Prop :=
  ∃ d ∈ delimiters, d <+: body.drop i

/-- The events the state machine rejects as non-string values, by state: null, booleans and
numbers anywhere, an object anywhere but at the start, an array anywhere but as a field value,
a string anywhere but as a field value or array element. -/
def NonStringValue (state : parser_state) : Event → Prop
  | Event.null => True
  | Event.boolean _ => True
  | Event.number _ => True
  | Event.start_map => state ≠ parser_state.s_start
  | Event.start_array => state ≠ parser_state.s_field_value
  | Event.string _ => state ≠ parser_state.s_field_value ∧ state ≠ parser_state.s_field_array
  | _ => False

/-! ## The pull ring (src/EFSPull.c) -/

/-- From `#define QUEUE_SIZE 32`. -/
def QUEUE_SIZE : Nat := 32

/-- From `#define READER_COUNT 16`. -/
def READER_COUNT : Nat := 16

/-- An array with the entry at index `i` replaced: `a[i] = v`. -/
def setAt {α : Type} (a : Nat → α) (i : Nat) (v : α) : Nat → α :=
  fun j => if j = i then v else a j

/-- From `struct EFSPull`: the ring and `stop`. A NULL submission is `none`. The type
`count_t` is unsigned; `count` is kept as an integer, so that a decrement below zero would
show as a negative value. -/
structure EFSPull (σ : Type) where
  stop : Bool
  queue : Nat → Option σ
  filled : Nat → Bool
  cur : Nat
  count : Int

/-- From `EFSRepoCreatePull`: the ring after `calloc`. -/
def EFSRepoCreatePull (σ : Type) : EFSPull σ :=
  { stop := false, queue := fun _ => none, filled := fun _ => false, cur := 0, count := 0 }

/-- From `reader`, the reservation: once the loop `while(pull->count + 2 > QUEUE_SIZE)` is
passed, `pos` is taken and `count` raised by 2. `none` while the reader has to wait. -/
def reader_reserve {σ : Type} (pull : EFSPull σ) : Option (EFSPull σ × Nat) :=
  if pull.count + 2 > QUEUE_SIZE then none
  else some ({ pull with count := pull.count + 2 },
    (((pull.cur : Int) + pull.count) % QUEUE_SIZE).toNat)

/-- From `import`, the label `enqueue`: both reserved slots are written and marked filled;
the function returns 0. -/
def enqueue {σ : Type} (pull : EFSPull σ) (pos : Nat) (sub meta : Option σ) :
    EFSPull σ × Int :=
  let queue1 := setAt pull.queue ((pos + 0) % QUEUE_SIZE) sub
  let queue2 := setAt queue1 ((pos + 1) % QUEUE_SIZE) meta
  let filled1 := setAt pull.filled ((pos + 0) % QUEUE_SIZE) true
  let filled2 := setAt filled1 ((pos + 1) % QUEUE_SIZE) true
  ({ pull with queue := queue2, filled := filled2 }, 0)

/-- From `import`. `EFSParseURI` says whether the URI parses, `EFSSessionGetFileInfo` is the
lookup of the URI in the local repository (not negative when the file is known), and `fetch`
is the outcome of the request and of `EFSSubmissionCreatePair`: `none` when one of them
fails, else the pair of submissions. The result is the ring and the returned `err_t`. -/
def import_ {υ σ : Type} (EFSParseURI : υ → Bool) (EFSSessionGetFileInfo : υ → Int)
    (fetch : υ → Option (Option σ × Option σ)) (pull : EFSPull σ) (URI : Option υ)
    (pos : Nat) : EFSPull σ × Int :=
  match URI with
  | none => enqueue pull pos none none
  | some uri =>
    if !EFSParseURI uri then enqueue pull pos none none else
    if EFSSessionGetFileInfo uri ≥ 0 then enqueue pull pos none none else
    match fetch uri with
    | none => (pull, -1)
    | some (sub, meta) =>
      if pull.stop then (pull, -1) else enqueue pull pos sub meta

/-- From `writer`, one round of the loop that drains the ring, once `pull->filled[pos]`: the
submission at `cur` is taken (a NULL one is a bubble, counted in `skipped`), the slot cleared,
`cur` advanced and `count` lowered. `none` while the writer has to wait. -/
def writer_take {σ : Type} (pull : EFSPull σ) : Option (EFSPull σ × Option σ) :=
  let pos := pull.cur
  if !pull.filled pos then none
  else some ({ pull with
      queue := setAt pull.queue pos none,
      filled := setAt pull.filled pos false,
      cur := (pull.cur + 1) % QUEUE_SIZE,
      count := pull.count - 1 }, pull.queue pos)

/-- The locals of a reader that has reserved its slots and is in the loop around `import`:
the URI it read, its `pos`, and the number of the line in the upstream stream (kept for the
proofs). -/
structure ReaderLocal (υ : Type) where
  URI : υ
  pos : Nat
  line : Nat

/-- The pull with its fibers: the ring, the readers that are between reservation and
enqueue, the number of lines read so far from the upstream stream, what the writer has taken
out of the ring in order (over all its batches) and how many bubbles it skipped. For the
proofs: the number of slots the writer has consumed, and for each line what was enqueued
for it. -/
structure PullSystem (υ σ : Type) where
  pull : EFSPull σ
  readers : Nat → Option (ReaderLocal υ)
  next : Nat
  taken : List σ
  skipped : Nat
  advanced : Nat
  enqueued : Nat → Option (Option σ × Option σ)

/-- The pull at `EFSPullStart`. -/
def PullSystem.start (υ σ : Type) : PullSystem υ σ :=
  { pull := EFSRepoCreatePull σ, readers := fun _ => none, next := 0, taken := [],
    skipped := 0, advanced := 0, enqueued := fun _ => none }

/-- What a fiber does between two yields. -/
inductive Action (σ : Type) where
  | read (r : Nat)
  | call_import (r : Nat) (info : Int) (fetched : Option (Option σ × Option σ))
  | take

/-- One step of the pull. `read r`: reader `r`, at the top of its loop, reads the next line
under the connection lock and reserves two slots. `call_import r info fetched`: reader `r`
calls `import` once, the local lookup giving `info` and the network `fetched`; it leaves the
loop when the call returns 0. `take`: the writer takes the slot at `cur`. A fiber that cannot
go on (no line, ring full, slot not filled) yields and the state stays as it is. -/
def step {υ σ : Type} (stream : List υ) (EFSParseURI : υ → Bool) (s : PullSystem υ σ) :
    Action σ → PullSystem υ σ
  | Action.read r =>
    match s.readers r, stream[s.next]?, reader_reserve s.pull with
    | none, some uri, some (pull1, pos) =>
      { s with pull := pull1,
               readers := setAt s.readers r (some { URI := uri, pos := pos, line := s.next }),
               next := s.next + 1 }
    | _, _, _ => s
  | Action.call_import r info fetched =>
    match s.readers r with
    | none => s
    | some loc =>
      let res := import_ EFSParseURI (fun _ => info) (fun _ => fetched) s.pull (some loc.URI)
        loc.pos
      if res.2 ≥ 0 then
        { s with pull := res.1,
                 readers := setAt s.readers r none,
                 enqueued := setAt s.enqueued loc.line
                   (some (res.1.queue (loc.pos % QUEUE_SIZE),
                          res.1.queue ((loc.pos + 1) % QUEUE_SIZE))) }
      else { s with pull := res.1 }
  | Action.take =>
    match writer_take s.pull with
    | none => s
    | some (pull1, none) =>
      { s with pull := pull1, skipped := s.skipped + 1, advanced := s.advanced + 1 }
    | some (pull1, some sub) =>
      { s with pull := pull1, taken := s.taken ++ [sub], advanced := s.advanced + 1 }

/-- The pull after a schedule of steps, first step first, from its start. -/
def run {υ σ : Type} (stream : List υ) (EFSParseURI : υ → Bool)
    (schedule : List (Action σ)) : PullSystem υ σ :=
  schedule.foldl (step stream EFSParseURI) (PullSystem.start υ σ)

/-- The content of slot number `j` of the stream of reservations: line `j / 2` holds the
slots `2 * (j / 2)` (the file) and `2 * (j / 2) + 1` (the meta-file). -/
def slotOf {σ : Type} (enqueued : Nat → Option (Option σ × Option σ)) (j : Nat) : Option σ :=
  match enqueued (j / 2) with
  | none => none
  | some p => if j % 2 = 0 then p.1 else p.2

/-- The submissions of the first `n` lines of the stream, in the order of the stream: for
each line what was enqueued for it, the file before the meta-file, bubbles left out. -/
def streamOrder {σ : Type} (enqueued : Nat → Option (Option σ × Option σ)) : Nat → List σ
  | 0 => []
  | n + 1 =>
    streamOrder enqueued n ++
      (match enqueued n with
       | none => []
       | some p => p.1.toList ++ p.2.toList)

/-- A bubble: NULL in both slots. -/
def isBubble {σ : Type} (p : Option σ × Option σ) : Bool := p.1.isNone && p.2.isNone

/-- The number of bubbles among the first `n` lines of the stream. -/
def bubbleCount {σ : Type} (enqueued : Nat → Option (Option σ × Option σ)) : Nat → Nat
  | 0 => 0
  | n + 1 =>
    bubbleCount enqueued n +
      (match enqueued n with
       | none => 0
       | some p => if isBubble p then 1 else 0)

/-- The invariant of the pull. -/
structure PullInv {υ σ : Type} (stream : List υ) (s : PullSystem υ σ) : Prop where
  count_nonneg : 0 ≤ s.pull.count
  count_le : s.pull.count ≤ 32
  cur_eq : s.pull.cur = s.advanced % 32
  total : (s.advanced : Int) + s.pull.count = 2 * s.next
  next_le : s.next ≤ stream.length
  filled_in_window : ∀ slot, s.pull.filled slot = true →
    ∃ j, s.advanced ≤ j ∧ (j : Int) < s.advanced + s.pull.count ∧ slot = j % 32 ∧
      s.enqueued (j / 2) ≠ none ∧ s.pull.queue slot = slotOf s.enqueued j
  reader_ok : ∀ r loc, s.readers r = some loc →
    s.advanced ≤ 2 * loc.line ∧ ((2 * loc.line + 1 : Nat) : Int) < s.advanced + s.pull.count ∧
      loc.pos = (2 * loc.line) % 32 ∧ s.pull.filled (loc.pos % 32) = false ∧
      s.pull.filled ((loc.pos + 1) % 32) = false ∧ s.enqueued loc.line = none ∧
      stream[loc.line]? = some loc.URI
  reader_inj : ∀ r1 r2 loc1 loc2, s.readers r1 = some loc1 → s.readers r2 = some loc2 →
    loc1.line = loc2.line → r1 = r2
  line_done : ∀ l, l < s.next → s.enqueued l ≠ none ∨ ∃ r loc, s.readers r = some loc ∧ loc.line = l
  enqueued_lt : ∀ l, s.enqueued l ≠ none → l < s.next
  taken_eq : s.taken = ((List.range s.advanced).map (slotOf s.enqueued)).reduceOption
  skipped_eq : s.taken.length + s.skipped = s.advanced
  stop_false : s.pull.stop = false

/-! ## The tokenizer interface -/

/-- The bytes of the text hash://deadbeef. -/
def sampleURI : Bytes := [104, 97, 115, 104, 58, 47, 47, 100, 101, 97, 100, 98, 101, 101, 102]

/-- The bytes of the text title. -/
def sampleTitle : Bytes := [116, 105, 116, 108, 101]

/-- The bytes of the text hello. -/
def sampleHello : Bytes := [104, 101, 108, 108, 111]

/-- The bytes of the text tag. -/
def sampleTag : Bytes := [116, 97, 103]

/-- The bytes of the JSON text `{"title":"hello"}`. -/
def sampleTitleJson : Bytes :=
  [123, 34, 116, 105, 116, 108, 101, 34, 58, 34, 104, 101, 108, 108, 111, 34, 125]

/-- The bytes of the JSON text `{"tag":["a","b","a"]}`. -/
def sampleTagJson : Bytes :=
  [123, 34, 116, 97, 103, 34, 58, 91, 34, 97, 34, 44, 34, 98, 34, 44, 34, 97, 34, 93, 125]

/-- The bytes of the JSON text `{"fulltext":"x"}`. -/
def sampleFulltextJson : Bytes :=
  [123, 34, 102, 117, 108, 108, 116, 101, 120, 116, 34, 58, 34, 120, 34, 125]

/-- The bytes of the JSON text `{"a":{}}`. -/
def sampleNestedJson : Bytes := [123, 34, 97, 34, 58, 123, 125, 125]

/-- The bytes of the JSON text `{"a":null}`. -/
def sampleNullJson : Bytes := [123, 34, 97, 34, 58, 110, 117, 108, 108, 125]

/-- The bytes of the JSON text `{"a\u0000b":"x"}`: a key with an escaped NUL character. -/
def sampleNulKeyJson : Bytes :=
  [123, 34, 97, 92, 117, 48, 48, 48, 48, 98, 34, 58, 34, 120, 34, 125]

/-- The bytes of the JSON text `{}`. -/
def sampleEmptyJson : Bytes := [123, 125]

/-- JSON whitespace: space, tab, line feed, carriage return. -/
def isJsonSpace (b : Nat) : Bool := b == 32 || b == 9 || b == LF || b == CR

/-- The JSON parser on the sample texts: leading whitespace is skipped, each sample text gives
its events, anything else is a syntax error at the first byte. -/
def sampleYajl (json : Bytes) : YajlRun :=
  let text := json.dropWhile isJsonSpace
  if text = sampleTitleJson then
    { events := [Event.start_map, Event.map_key sampleTitle, Event.string sampleHello,
        Event.end_map], complete := true }
  else if text = sampleTagJson then
    { events := [Event.start_map, Event.map_key sampleTag, Event.start_array, Event.string [97],
        Event.string [98], Event.string [97], Event.end_array, Event.end_map], complete := true }
  else if text = sampleFulltextJson then
    { events := [Event.start_map, Event.map_key fulltextField, Event.string [120],
        Event.end_map], complete := true }
  else if text = sampleNestedJson then
    { events := [Event.start_map, Event.map_key [97], Event.start_map, Event.end_map,
        Event.end_map], complete := true }
  else if text = sampleNullJson then
    { events := [Event.start_map, Event.map_key [97], Event.null, Event.end_map],
      complete := true }
  else if text = sampleNulKeyJson then
    { events := [Event.start_map, Event.map_key [97, 0, 98], Event.string [120],
        Event.end_map], complete := true }
  else if text = sampleEmptyJson then
    { events := [Event.start_map, Event.end_map], complete := true }
  else { events := [], complete := false }

/-- The bytes of the JSON text `{"fulltext":["a b","b c"]}`. -/
def sampleFulltextArrayJson : Bytes :=
  [123, 34, 102, 117, 108, 108, 116, 101, 120, 116, 34, 58, 91, 34, 97, 32, 98, 34, 44, 34, 98,
   32, 99, 34, 93, 125]

/-- The bytes of the JSON text `{"fulltext":""}`. -/
def sampleFulltextEmptyJson : Bytes :=
  [123, 34, 102, 117, 108, 108, 116, 101, 120, 116, 34, 58, 34, 34, 125]

/-- The JSON parser on the two full-text sample texts (leading whitespace skipped); anything
else is a syntax error at the first byte. -/
def sampleYajlFulltext (json : Bytes) : YajlRun :=
  let text := json.dropWhile isJsonSpace
  if text = sampleFulltextArrayJson then
    { events := [Event.start_map, Event.map_key fulltextField, Event.start_array,
        Event.string [97, 32, 98], Event.string [98, 32, 99], Event.end_array, Event.end_map],
      complete := true }
  else if text = sampleFulltextEmptyJson then
    { events := [Event.start_map, Event.map_key fulltextField, Event.string [],
        Event.end_map], complete := true }
  else { events := [], complete := false }

/-- A tokenizer for the samples: the words between spaces, ASCII letters in lower case. The
second argument is the word read so far. -/
def sampleFtsFrom : Bytes → Bytes → List Bytes
  | [], word => if word = [] then [] else [word]
  | b :: rest, word =>
    if b = 32 then
      if word = [] then sampleFtsFrom rest [] else word :: sampleFtsFrom rest []
    else sampleFtsFrom rest (word ++ [if 65 ≤ b ∧ b ≤ 90 then b + 32 else b])

def sampleFts (str : Bytes) : List Bytes := sampleFtsFrom str []

/-- The store after one meta-file about the sample URI, written for file 7, with one field. -/
def sampleDB : DB :=
  metaFileRows 1 7 sampleURI ++
    [(Key.EFSMetaFileIDFieldAndValue 1 sampleTag [97], none),
     (Key.EFSFieldValueAndMetaFileID sampleTag [97] 1, none)]

/-- Four submissions: a well-formed meta-file, one whose JSON has a null value, one without a
delimiter, and a well-formed one with an array. -/
def sampleSubs : List EFSSubmission :=
  [{ meta := some { buf := sampleURI ++ [LF, LF] ++ sampleTitleJson, metaFileID := 0 },
     fileID := 100 },
   { meta := some { buf := sampleURI ++ [LF, LF] ++ sampleNullJson, metaFileID := 0 },
     fileID := 101 },
   { meta := some { buf := sampleURI, metaFileID := 0 }, fileID := 102 },
   { meta := some { buf := sampleURI ++ [LF, LF] ++ sampleTagJson, metaFileID := 0 },
     fileID := 103 }]

/-- An upstream stream of two URIs (the byte strings 1 and 2). -/
def sampleStream : List Bytes := [[1], [2]]

/-- A schedule for the two URIs with two readers: both lines are read; the fetch of the
second URI completes first, with the submissions 21 (file) and 22 (meta-file); the first URI
is found in the local repository. -/
def sampleFills : List (Action Nat) :=
  [Action.read 0, Action.read 1,
   Action.call_import 1 (-1) (some (some 21, some 22)),
   Action.call_import 0 0 none]

/-- The schedule `sampleFills`, then four takes of the writer. -/
def sampleSchedule : List (Action Nat) :=
  sampleFills ++ [Action.take, Action.take, Action.take, Action.take]

/-! ## The store: basic facts -/

theorem mem_keys_append (db extra : DB) (k : Key) :
    k ∈ keys (db ++ extra) ↔ k ∈ keys db ∨ k ∈ keys extra := by
  simp [keys, List.map_append]

theorem db_put_fresh (db : DB) (key : Key) (val : Val) (h : key ∉ keys db) :
    db_put db key val = (db ++ [(key, val)], DBrc.DB_SUCCESS) := by
  unfold db_put
  rw [if_neg]
  exact h

theorem db_put_present (db : DB) (key : Key) (val : Val) (h : key ∈ keys db) :
    db_put db key val = (db, DBrc.DB_KEYEXIST) := by
  unfold db_put
  rw [if_pos]
  exact h

theorem metaFileIDs_append (db extra : DB) :
    metaFileIDs (db ++ extra) = metaFileIDs db ++ metaFileIDs extra := by
  simp [metaFileIDs, List.filterMap_append]

theorem foldr_max_append (xs ys : List Nat) :
    (xs ++ ys).foldr max 0 = max (xs.foldr max 0) (ys.foldr max 0) := by
  induction xs with
  | nil => simp
  | cons x xs ih => simp [ih, max_assoc]

theorem maxMetaFileID_append (db extra : DB) :
    maxMetaFileID (db ++ extra) = max (maxMetaFileID db) (maxMetaFileID extra) := by
  unfold maxMetaFileID
  rw [metaFileIDs_append, foldr_max_append]

theorem le_foldr_max (xs : List Nat) (x : Nat) (h : x ∈ xs) : x ≤ xs.foldr max 0 := by
  induction xs with
  | nil => cases h
  | cons y ys ih =>
    rcases List.mem_cons.mp h with rfl | h
    · simp
    · have := ih h
      simp only [List.foldr_cons]
      exact le_trans this (le_max_right _ _)

theorem mem_metaFileIDs (db : DB) (id : Nat) :
    id ∈ metaFileIDs db ↔ Key.EFSMetaFileByID id ∈ keys db := by
  induction db with
  | nil => simp [metaFileIDs, keys]
  | cons r db ih =>
    obtain ⟨k, v⟩ := r
    have hcons : metaFileIDs ((k, v) :: db) = metaFileIDs [(k, v)] ++ metaFileIDs db := by
      rw [← metaFileIDs_append]; rfl
    rw [hcons, List.mem_append, ih]
    cases k <;> simp [metaFileIDs, keys]

theorem key_le_maxMetaFileID (db : DB) (id : Nat) (h : Key.EFSMetaFileByID id ∈ keys db) :
    id ≤ maxMetaFileID db :=
  le_foldr_max _ _ ((mem_metaFileIDs db id).mpr h)

theorem metaFileID_le_of_mem_keys (db : DB) (hok : StoreOK db) (k : Key) (h : k ∈ keys db) :
    k.metaFileID ≤ maxMetaFileID db := by
  obtain ⟨r, hr, rfl⟩ := List.mem_map.mp h
  exact hok.1 r hr

theorem not_mem_keys_of_lt (db : DB) (hok : StoreOK db) (k : Key)
    (h : maxMetaFileID db < k.metaFileID) : k ∉ keys db := by
  intro hk
  have := metaFileID_le_of_mem_keys db hok k hk
  omega

theorem db_next_id_eq (db : DB) (hid : maxMetaFileID db + 1 < 2 ^ 64) :
    db_next_id db = maxMetaFileID db + 1 := by
  unfold db_next_id
  exact Nat.mod_eq_of_lt hid

theorem add_metafile_eq (db : DB) (fileID : Nat) (targetURI : Bytes) (hok : StoreOK db)
    (hid : maxMetaFileID db + 1 < 2 ^ 64) :
    add_metafile db fileID targetURI =
      Except.ok (db ++ metaFileRows (db_next_id db) fileID targetURI, db_next_id db) := by
  have hnext := db_next_id_eq db hid
  have h1 : Key.EFSMetaFileByID (db_next_id db) ∉ keys db :=
    not_mem_keys_of_lt db hok _ (by simp [Key.metaFileID, hnext])
  have h2 : Key.EFSFileIDAndMetaFileID fileID (db_next_id db) ∉
      keys (db ++ [(Key.EFSMetaFileByID (db_next_id db), some (fileID, targetURI))]) := by
    rw [mem_keys_append]
    rintro (h | h)
    · exact not_mem_keys_of_lt db hok _ (by simp [Key.metaFileID, hnext]) h
    · simp [keys] at h
  have h3 : Key.EFSTargetURIAndMetaFileID targetURI (db_next_id db) ∉
      keys ((db ++ [(Key.EFSMetaFileByID (db_next_id db), some (fileID, targetURI))]) ++
        [(Key.EFSFileIDAndMetaFileID fileID (db_next_id db), none)]) := by
    rw [mem_keys_append, mem_keys_append]
    rintro ((h | h) | h)
    · exact not_mem_keys_of_lt db hok _ (by simp [Key.metaFileID, hnext]) h
    · simp [keys] at h
    · simp [keys] at h
  have h0 : db_next_id db ≠ 0 := by omega
  unfold add_metafile
  simp only [h0, if_false, db_put_fresh _ _ _ h1, db_put_fresh _ _ _ h2, db_put_fresh _ _ _ h3]
  simp [metaFileRows]

/-! ## The framing scan -/

theorem isDelimiterAt_drop (buf : Bytes) (i : Nat) :
    isDelimiterAt buf i = isDelimiterAt (buf.drop i) 0 := by
  simp [isDelimiterAt, List.getElem?_drop]

theorem isDelimiterAt_zero_iff (l : Bytes) :
    isDelimiterAt l 0 = true ↔ ∃ d ∈ delimiters, d <+: l := by
  rcases l with _ | ⟨a, _ | ⟨b, _ | ⟨c, _ | ⟨e, l⟩⟩⟩⟩ <;>
    simp [isDelimiterAt, delimiters, List.prefix_iff_eq_take, CR, LF] <;> tauto

theorem isDelimiterAt_iff (buf : Bytes) (i : Nat) :
    isDelimiterAt buf i = true ↔ DelimiterAt buf i := by
  rw [isDelimiterAt_drop, isDelimiterAt_zero_iff]
  rfl

theorem scanLoop_some (buf : Bytes) (n i k : Nat) (h : scanLoop buf n i = some k) :
    i ≤ k ∧ k < i + n ∧ isDelimiterAt buf k = true ∧
      ∀ j, i ≤ j → j < k → isDelimiterAt buf j = false := by
  induction n generalizing i with
  | zero => simp [scanLoop] at h
  | succ n ih =>
    unfold scanLoop at h
    by_cases hd : isDelimiterAt buf i = true
    · rw [if_pos hd] at h
      cases h
      exact ⟨le_refl _, by omega, hd, fun j h1 h2 => by omega⟩
    · rw [if_neg hd] at h
      obtain ⟨h1, h2, h3, h4⟩ := ih (i + 1) h
      refine ⟨by omega, by omega, h3, fun j hj1 hj2 => ?_⟩
      by_cases hji : j = i
      · subst hji; simpa using hd
      · exact h4 j (by omega) hj2

theorem scanLoop_none (buf : Bytes) (n i : Nat) (h : scanLoop buf n i = none) :
    ∀ j, i ≤ j → j < i + n → isDelimiterAt buf j = false := by
  induction n generalizing i with
  | zero => intro j h1 h2; omega
  | succ n ih =>
    unfold scanLoop at h
    by_cases hd : isDelimiterAt buf i = true
    · rw [if_pos hd] at h; cases h
    · rw [if_neg hd] at h
      intro j h1 h2
      by_cases hji : j = i
      · subst hji; simpa using hd
      · exact ih (i + 1) h j (by omega) (by omega)

theorem scanLoop_first (buf : Bytes) (n i k : Nat) (hik : i ≤ k) (hkn : k < i + n)
    (hk : isDelimiterAt buf k = true) (hbefore : ∀ j, i ≤ j → j < k → isDelimiterAt buf j = false) :
    scanLoop buf n i = some k := by
  cases hres : scanLoop buf n i with
  | none =>
    have := scanLoop_none buf n i hres k hik hkn
    rw [hk] at this; cases this
  | some k1 =>
    obtain ⟨h1, h2, h3, h4⟩ := scanLoop_some buf n i k1 hres
    rcases Nat.lt_trichotomy k1 k with hlt | heq | hgt
    · have := hbefore k1 h1 hlt
      rw [h3] at this; cases this
    · rw [heq]
    · have := h4 k hik hgt
      rw [hk] at this; cases this

/-! ## The callbacks on SAX traces -/

theorem callbacks_sax_step (fts : Bytes → List Bytes) (context : parser_context) (db : DB)
    (stack stack1 : List SaxFrame) (ev : Event) (hrel : SaxRel context stack)
    (hstep : saxStep stack ev = some stack1) :
    (callbacks fts context db ev = Except.ok (false, context, db)) ∨
    (∃ context1 db1, callbacks fts context db ev = Except.ok (true, context1, db1) ∧
      SaxRel context1 stack1) := by
  obtain ⟨mid, uri, state, field⟩ := context
  rcases hrel with ⟨h1, h2, h3⟩ | ⟨h1, h2, h3⟩ | ⟨h1, h2, h3⟩ | ⟨h1, h2, h3⟩ | ⟨h1, h2, h3⟩ <;>
    simp only at h1 h2 <;> subst h1 <;> subst h3
  · subst h2
    cases ev <;>
      simp_all [callbacks, yajl_null, yajl_boolean, yajl_number, yajl_string, yajl_start_map,
        yajl_map_key, yajl_end_map, yajl_start_array, yajl_end_array, saxStep, saxExpectsValue,
        saxValueDone, SaxRel]
  · subst h2
    cases ev <;>
      simp_all [callbacks, yajl_null, yajl_boolean, yajl_number, yajl_string, yajl_start_map,
        yajl_map_key, yajl_end_map, yajl_start_array, yajl_end_array, saxStep, saxExpectsValue,
        saxValueDone, SaxRel]
  · obtain ⟨f, rfl⟩ := Option.isSome_iff_exists.mp h2
    cases ev <;>
      simp_all [callbacks, yajl_null, yajl_boolean, yajl_number, yajl_string, yajl_start_map,
        yajl_map_key, yajl_end_map, yajl_start_array, yajl_end_array, saxStep, saxExpectsValue,
        saxValueDone, SaxRel]
  · obtain ⟨f, rfl⟩ := Option.isSome_iff_exists.mp h2
    cases ev <;>
      simp_all [callbacks, yajl_null, yajl_boolean, yajl_number, yajl_string, yajl_start_map,
        yajl_map_key, yajl_end_map, yajl_start_array, yajl_end_array, saxStep, saxExpectsValue,
        saxValueDone, SaxRel]
  · subst h2
    cases ev <;>
      simp_all [callbacks, yajl_null, yajl_boolean, yajl_number, yajl_string, yajl_start_map,
        yajl_map_key, yajl_end_map, yajl_start_array, yajl_end_array, saxStep, saxExpectsValue,
        saxValueDone, SaxRel]

theorem yajl_deliver_sax (fts : Bytes → List Bytes) (events : List Event)
    (context : parser_context) (db : DB) (stack : List SaxFrame) (hrel : SaxRel context stack)
    (htrace : saxTrace stack events = true) :
    ∃ r, yajl_deliver fts events context db = Except.ok r := by
  induction events generalizing context db stack with
  | nil => exact ⟨_, rfl⟩
  | cons ev rest ih =>
    unfold saxTrace at htrace
    cases hstep : saxStep stack ev with
    | none => rw [hstep] at htrace; cases htrace
    | some stack1 =>
      rw [hstep] at htrace
      rcases callbacks_sax_step fts context db stack stack1 ev hrel hstep with h | ⟨c1, d1, h, hr⟩
      · exact ⟨_, by unfold yajl_deliver; rw [h]⟩
      · obtain ⟨r, hr2⟩ := ih c1 d1 stack1 hr htrace
        exact ⟨r, by unfold yajl_deliver; rw [h]; exact hr2⟩

/-! ## What the callbacks write -/

theorem db_put_extends (db : DB) (key : Key) (val : Val) :
    ∃ extra, (db_put db key val).1 = db ++ extra ∧ ∀ r ∈ extra, r.1 = key := by
  unfold db_put
  by_cases h : key ∈ List.map Prod.fst db
  · rw [if_pos h]; exact ⟨[], by simp, by simp⟩
  · rw [if_neg h]; exact ⟨[(key, val)], rfl, by simp⟩

theorem add_metadata_extends (db : DB) (metaFileID : Nat) (field value : Bytes) :
    ∃ extra, add_metadata db metaFileID field value = db ++ extra ∧
      ∀ r ∈ extra, r.1.metaFileID = metaFileID ∧ ∀ id, r.1 ≠ Key.EFSMetaFileByID id := by
  unfold add_metadata
  by_cases hv : value.length = 0
  · rw [if_pos hv]; exact ⟨[], by simp, by simp⟩
  · rw [if_neg hv]
    obtain ⟨e1, h1, h1r⟩ :=
      db_put_extends db (Key.EFSMetaFileIDFieldAndValue metaFileID field value) none
    obtain ⟨e2, h2, h2r⟩ := db_put_extends
      (db_put db (Key.EFSMetaFileIDFieldAndValue metaFileID field value) none).1
      (Key.EFSFieldValueAndMetaFileID field value metaFileID) none
    refine ⟨e1 ++ e2, ?_, ?_⟩
    · show (db_put (db_put db _ none).1 _ none).1 = _
      rw [h2, h1, List.append_assoc]
    · intro r hr
      rcases List.mem_append.mp hr with h | h
      · rw [h1r r h]; simp [Key.metaFileID]
      · rw [h2r r h]; simp [Key.metaFileID]

theorem foldl_put_terms_extends (tokens : List Bytes) (db : DB) (metaFileID : Nat) :
    ∃ extra, tokens.foldl
        (fun d token => (db_put d (Key.EFSTermMetaFileIDAndPosition token metaFileID 0) none).1)
        db = db ++ extra ∧
      ∀ r ∈ extra, r.1.metaFileID = metaFileID ∧ ∀ id, r.1 ≠ Key.EFSMetaFileByID id := by
  induction tokens generalizing db with
  | nil => exact ⟨[], by simp, by simp⟩
  | cons t ts ih =>
    obtain ⟨e1, h1, h1r⟩ := db_put_extends db (Key.EFSTermMetaFileIDAndPosition t metaFileID 0) none
    obtain ⟨e2, h2, h2r⟩ := ih (db_put db (Key.EFSTermMetaFileIDAndPosition t metaFileID 0) none).1
    refine ⟨e1 ++ e2, ?_, ?_⟩
    · rw [List.foldl_cons, h2, h1, List.append_assoc]
    · intro r hr
      rcases List.mem_append.mp hr with h | h
      · rw [h1r r h]; simp [Key.metaFileID]
      · exact h2r r h

theorem add_fulltext_extends (fts : Bytes → List Bytes) (db : DB) (metaFileID : Nat)
    (str : Bytes) :
    ∃ extra, add_fulltext fts db metaFileID str = db ++ extra ∧
      ∀ r ∈ extra, r.1.metaFileID = metaFileID ∧ ∀ id, r.1 ≠ Key.EFSMetaFileByID id :=
  foldl_put_terms_extends (fts str) db metaFileID

theorem callbacks_extends (fts : Bytes → List Bytes) (context context1 : parser_context)
    (db db1 : DB) (ev : Event) (b : Bool)
    (h : callbacks fts context db ev = Except.ok (b, context1, db1)) :
    context1.metaFileID = context.metaFileID ∧ context1.targetURI = context.targetURI ∧
    ∃ extra, db1 = db ++ extra ∧
      ∀ r ∈ extra, r.1.metaFileID = context.metaFileID ∧ ∀ id, r.1 ≠ Key.EFSMetaFileByID id := by
  have hnil : ∃ extra : DB, db = db ++ extra ∧
      ∀ r ∈ extra, r.1.metaFileID = context.metaFileID ∧ ∀ id, r.1 ≠ Key.EFSMetaFileByID id :=
    ⟨[], by simp, by simp⟩
  obtain ⟨mid, uri, state, field⟩ := context
  cases ev with
  | string str =>
    simp only [callbacks, yajl_string] at h
    cases state <;> simp only at h
    case s_field_value | s_field_array =>
      cases field with
      | none => simp at h
      | some f =>
        simp only [Except.ok.injEq, Prod.mk.injEq, if_true, reduceCtorEq, if_false] at h
        obtain ⟨-, rfl, rfl⟩ := h
        refine ⟨rfl, rfl, ?_⟩
        by_cases hf : fulltextField = f
        · rw [if_pos hf]; exact add_fulltext_extends fts db mid str
        · rw [if_neg hf]; exact add_metadata_extends db mid f str
    all_goals
      simp only [Except.ok.injEq, Prod.mk.injEq] at h
      obtain ⟨-, rfl, rfl⟩ := h
      exact ⟨rfl, rfl, hnil⟩
  | _ =>
    simp only [callbacks, yajl_null, yajl_boolean, yajl_number, yajl_start_map, yajl_map_key,
      yajl_end_map, yajl_start_array, yajl_end_array] at h
    cases state <;> cases field <;> simp at h <;>
      (obtain ⟨-, rfl, rfl⟩ := h; exact ⟨rfl, rfl, hnil⟩)

theorem yajl_deliver_extends (fts : Bytes → List Bytes) (events : List Event)
    (context context1 : parser_context) (db db1 : DB) (b : Bool)
    (h : yajl_deliver fts events context db = Except.ok (b, context1, db1)) :
    context1.metaFileID = context.metaFileID ∧
    ∃ extra, db1 = db ++ extra ∧
      ∀ r ∈ extra, r.1.metaFileID = context.metaFileID ∧ ∀ id, r.1 ≠ Key.EFSMetaFileByID id := by
  induction events generalizing context db with
  | nil =>
    simp only [yajl_deliver, Except.ok.injEq, Prod.mk.injEq] at h
    obtain ⟨-, rfl, rfl⟩ := h
    exact ⟨rfl, [], by simp, by simp⟩
  | cons ev rest ih =>
    unfold yajl_deliver at h
    cases hcb : callbacks fts context db ev with
    | error a => rw [hcb] at h; cases h
    | ok r =>
      obtain ⟨b1, c1, d1⟩ := r
      obtain ⟨hm, -, e1, he1, hr1⟩ := callbacks_extends fts context c1 db d1 ev b1 hcb
      rw [hcb] at h
      cases b1 with
      | false =>
        simp only [Except.ok.injEq, Prod.mk.injEq] at h
        obtain ⟨-, rfl, rfl⟩ := h
        exact ⟨hm, e1, he1, hr1⟩
      | true =>
        simp only at h
        obtain ⟨hm2, e2, he2, hr2⟩ := ih c1 d1 h
        refine ⟨hm2.trans hm, e1 ++ e2, ?_, ?_⟩
        · rw [he2, he1, List.append_assoc]
        · intro r hr
          rcases List.mem_append.mp hr with h' | h'
          · exact hr1 r h'
          · have := hr2 r h'
            rw [hm] at this
            exact this

/-! ## The framing -/

theorem cstr_append_nul (a b : Bytes) : cstr (a ++ 0 :: b) = cstr a := by
  induction a with
  | nil => simp [cstr]
  | cons x xs ih =>
    unfold cstr at ih ⊢
    by_cases hx : x = 0
    · simp [hx]
    · simp [List.takeWhile_cons, hx, ih]

theorem cstr_of_no_nul (a : Bytes) (h : ∀ b ∈ a, b ≠ 0) : cstr a = a := by
  unfold cstr
  rw [List.takeWhile_eq_self_iff]
  intro b hb
  simpa using h b hb

theorem cstr_set_nul (buf : Bytes) (i : Nat) (hi : i < buf.length) :
    cstr (buf.set i 0) = cstr (buf.take i) := by
  rw [List.set_eq_take_append_cons_drop, if_pos hi, cstr_append_nul]

theorem frame_some (buf : Bytes) (f : Frame) (h : frame buf = some f) :
    ∃ i, 8 ≤ i ∧ i < min (URI_MAX + 1) (buf.length - 3) ∧ isDelimiterAt buf i = true ∧
      (∀ j, j < i → isDelimiterAt buf j = false) ∧
      f = { buf := buf.set i 0, targetURI := cstr (buf.take i), json := buf.drop (i + 1) } := by
  unfold frame at h
  cases hs : scanLoop buf (min (URI_MAX + 1) (buf.length - 3)) 0 with
  | none => rw [hs] at h; cases h
  | some i =>
    rw [hs] at h
    obtain ⟨-, h2, h3, h4⟩ := scanLoop_some _ _ _ _ hs
    by_cases h8 : i < 8
    · simp [h8] at h
    · simp only [h8, if_false, Option.some.injEq] at h
      have hi : i < buf.length := by
        have := lt_of_lt_of_le h2 (by simp : 0 + min (URI_MAX + 1) (buf.length - 3) ≤ buf.length - 3)
        omega
      refine ⟨i, by omega, by omega, h3, fun j hj => h4 j (Nat.zero_le _) hj, ?_⟩
      rw [← h, cstr_set_nul buf i hi, List.drop_set_of_lt _ _ (by omega)]

theorem frame_of_first (buf : Bytes) (i : Nat) (h8 : 8 ≤ i)
    (hi : i < min (URI_MAX + 1) (buf.length - 3)) (hd : isDelimiterAt buf i = true)
    (hfirst : ∀ j, j < i → isDelimiterAt buf j = false) :
    frame buf =
      some { buf := buf.set i 0, targetURI := cstr (buf.take i), json := buf.drop (i + 1) } := by
  have hs := scanLoop_first buf (min (URI_MAX + 1) (buf.length - 3)) 0 i (Nat.zero_le _)
    (by omega) hd (fun j _ hj => hfirst j hj)
  have hlen : i < buf.length := by
    have : min (URI_MAX + 1) (buf.length - 3) ≤ buf.length - 3 := min_le_right _ _
    omega
  unfold frame
  rw [hs]
  simp only [Nat.not_lt.mpr h8, if_false]
  rw [cstr_set_nul buf i hlen, List.drop_set_of_lt _ _ (by omega)]

theorem frame_none_of_early (buf : Bytes) (i : Nat) (h8 : i < 8)
    (hd : isDelimiterAt buf i = true) : frame buf = none := by
  unfold frame
  cases hs : scanLoop buf (min (URI_MAX + 1) (buf.length - 3)) 0 with
  | none => rfl
  | some k =>
    obtain ⟨-, -, -, h4⟩ := scanLoop_some _ _ _ _ hs
    have hk : k < 8 := by
      by_contra hk
      have := h4 i (Nat.zero_le _) (by omega)
      rw [hd] at this; cases this
    simp [hk]

theorem frame_none_of_no_delimiter (buf : Bytes)
    (h : ∀ i, i < min (URI_MAX + 1) (buf.length - 3) → isDelimiterAt buf i = false) :
    frame buf = none := by
  unfold frame
  cases hs : scanLoop buf (min (URI_MAX + 1) (buf.length - 3)) 0 with
  | none => rfl
  | some k =>
    obtain ⟨-, h2, h3, -⟩ := scanLoop_some _ _ _ _ hs
    have := h k (by omega)
    rw [h3] at this; cases this

theorem frame_json_length (buf : Bytes) (f : Frame) (h : frame buf = some f) :
    3 ≤ f.json.length := by
  obtain ⟨i, -, hi, -, -, rfl⟩ := frame_some buf f h
  have : min (URI_MAX + 1) (buf.length - 3) ≤ buf.length - 3 := min_le_right _ _
  simp only [List.length_drop]
  omega

/-! ## The two outcomes of the framing in `EFSMetaFileStore` -/

theorem EFSMetaFileStore_reject (yajl : Bytes → YajlRun) (fts : Bytes → List Bytes)
    (m : EFSMetaFile) (fileID : Nat) (db : DB) (h : m.len < 3 ∨ frame m.buf = none) :
    EFSMetaFileStore yajl fts (some m) fileID db = Except.ok (some m, db, 0) := by
  unfold EFSMetaFileStore
  by_cases hlen : m.len < 3
  · simp [hlen]
  · rcases h with h | h
    · exact absurd h hlen
    · simp [hlen, h]

theorem EFSMetaFileStore_accept (yajl : Bytes → YajlRun) (fts : Bytes → List Bytes)
    (m : EFSMetaFile) (f : Frame) (fileID : Nat) (db : DB) (hf : frame m.buf = some f)
    (hok : StoreOK db) (hid : maxMetaFileID db + 1 < 2 ^ 64) :
    EFSMetaFileStore yajl fts (some m) fileID db =
      match yajl_deliver fts (yajl f.json).events
          { metaFileID := db_next_id db, targetURI := f.targetURI,
            state := parser_state.s_start, field := none }
          (db ++ metaFileRows (db_next_id db) fileID f.targetURI) with
      | Except.error a => Except.error a
      | Except.ok (delivered, _, db2) =>
        if delivered && (yajl f.json).complete then
          Except.ok (some { buf := f.buf, metaFileID := db_next_id db }, db2, 0)
        else Except.ok (some { buf := f.buf, metaFileID := db_next_id db }, db2, -1) := by
  have hjson := frame_json_length m.buf f hf
  have hlen : ¬ m.len < 3 := by
    obtain ⟨i, -, hi, -, -, -⟩ := frame_some m.buf f hf
    have : min (URI_MAX + 1) (m.buf.length - 3) ≤ m.buf.length - 3 := min_le_right _ _
    unfold EFSMetaFile.len
    omega
  have hj0 : ¬ f.json.length = 0 := by omega
  unfold EFSMetaFileStore
  simp only [hlen, if_false, hf, hj0, add_metafile_eq db fileID f.targetURI hok hid]

theorem EFSMetaFileStore_accept_ok (yajl : Bytes → YajlRun) (fts : Bytes → List Bytes)
    (hsax : IsSaxParser yajl) (m : EFSMetaFile) (f : Frame) (fileID : Nat) (db : DB)
    (hf : frame m.buf = some f) (hok : StoreOK db) (hid : maxMetaFileID db + 1 < 2 ^ 64) :
    ∃ extra err,
      EFSMetaFileStore yajl fts (some m) fileID db =
        Except.ok (some { buf := f.buf, metaFileID := db_next_id db },
          db ++ metaFileRows (db_next_id db) fileID f.targetURI ++ extra, err) ∧
      (err = 0 ∨ err = -1) ∧
      ∀ r ∈ extra, r.1.metaFileID = db_next_id db ∧ ∀ id, r.1 ≠ Key.EFSMetaFileByID id := by
  rw [EFSMetaFileStore_accept yajl fts m f fileID db hf hok hid]
  obtain ⟨r, hr⟩ := yajl_deliver_sax fts (yajl f.json).events
    { metaFileID := db_next_id db, targetURI := f.targetURI,
      state := parser_state.s_start, field := none }
    (db ++ metaFileRows (db_next_id db) fileID f.targetURI) [SaxFrame.top]
    (Or.inl ⟨rfl, rfl, rfl⟩) (hsax f.json)
  obtain ⟨b, c1, d1⟩ := r
  obtain ⟨-, extra, hextra, hrows⟩ := yajl_deliver_extends fts _ _ _ _ _ _ hr
  rw [hr]
  subst hextra
  by_cases hc : (b && (yajl f.json).complete) = true
  · exact ⟨extra, 0, by simp [hc], Or.inl rfl, hrows⟩
  · exact ⟨extra, -1, by simp [hc], Or.inr rfl, hrows⟩

/-! ## The samples -/

theorem sampleYajl_isSaxParser : IsSaxParser sampleYajl := by
  intro json
  unfold sampleYajl
  simp only
  split_ifs <;> decide

theorem storeOK_nil : StoreOK [] := ⟨by simp, by decide⟩

theorem storeOK_sampleDB : StoreOK sampleDB := ⟨by decide, by decide⟩

/-! ## The index writer: `add_metafile`, `add_metadata` -/

/-- C7: `add_metafile` on a sound store with an id left writes exactly the primary row, the
(fileID, id) row and the (targetURI, id) row after the rows of the store, which stay as they
are, and returns the id, the largest key of the primary table plus one. -/
theorem add_metafile_writes_three_rows (db : DB) (fileID : Nat) (targetURI : Bytes)
    (hok : StoreOK db) (hid : maxMetaFileID db + 1 < 2 ^ 64) :
    add_metafile db fileID targetURI =
      Except.ok
        (db ++ [(Key.EFSMetaFileByID (db_next_id db), some (fileID, targetURI)),
                (Key.EFSFileIDAndMetaFileID fileID (db_next_id db), none),
                (Key.EFSTargetURIAndMetaFileID targetURI (db_next_id db), none)],
         db_next_id db) ∧
    db_next_id db = maxMetaFileID db + 1 :=
  ⟨add_metafile_eq db fileID targetURI hok hid, db_next_id_eq db hid⟩

theorem add_metafile_writes_three_rows_witness :
    StoreOK sampleDB ∧ maxMetaFileID sampleDB + 1 < 2 ^ 64 ∧
    add_metafile sampleDB 100 sampleURI =
      Except.ok
        (sampleDB ++ [(Key.EFSMetaFileByID 2, some (100, sampleURI)),
                (Key.EFSFileIDAndMetaFileID 100 2, none),
                (Key.EFSTargetURIAndMetaFileID sampleURI 2, none)], 2) :=
  ⟨storeOK_sampleDB, by decide,
    (add_metafile_writes_three_rows sampleDB 100 sampleURI storeOK_sampleDB (by decide)).1⟩

theorem mem_keys_db_put (db : DB) (key : Key) (val : Val) :
    key ∈ keys (db_put db key val).1 := by
  unfold db_put
  by_cases h : key ∈ List.map Prod.fst db
  · rw [if_pos h]; exact h
  · rw [if_neg h]; simp [keys]

theorem mem_keys_db_put_of_mem (db : DB) (key k : Key) (val : Val) (h : k ∈ keys db) :
    k ∈ keys (db_put db key val).1 := by
  obtain ⟨extra, he, -⟩ := db_put_extends db key val
  rw [he, mem_keys_append]
  exact Or.inl h

theorem add_metadata_fresh (db : DB) (metaFileID : Nat) (field value : Bytes)
    (hv : value ≠ [])
    (hf : Key.EFSMetaFileIDFieldAndValue metaFileID field value ∉ keys db)
    (hr : Key.EFSFieldValueAndMetaFileID field value metaFileID ∉ keys db) :
    add_metadata db metaFileID field value =
      db ++ [(Key.EFSMetaFileIDFieldAndValue metaFileID field value, none),
             (Key.EFSFieldValueAndMetaFileID field value metaFileID, none)] := by
  have hv0 : ¬ value.length = 0 := by
    intro h; exact hv (List.length_eq_zero.mp h)
  have hr1 : Key.EFSFieldValueAndMetaFileID field value metaFileID ∉
      keys (db ++ [(Key.EFSMetaFileIDFieldAndValue metaFileID field value, none)]) := by
    rw [mem_keys_append]
    rintro (h | h)
    · exact hr h
    · simp [keys] at h
  unfold add_metadata
  simp only [hv0, if_false, db_put_fresh _ _ _ hf, db_put_fresh _ _ _ hr1]
  simp

theorem add_metadata_present (db : DB) (metaFileID : Nat) (field value : Bytes)
    (hf : Key.EFSMetaFileIDFieldAndValue metaFileID field value ∈ keys db)
    (hr : Key.EFSFieldValueAndMetaFileID field value metaFileID ∈ keys db) :
    add_metadata db metaFileID field value = db := by
  unfold add_metadata
  by_cases hv : value.length = 0
  · rw [if_pos hv]
  · simp only [hv, if_false, db_put_present _ _ _ hf, db_put_present _ _ _ hr]

theorem add_metadata_twice (db : DB) (metaFileID : Nat) (field value : Bytes) :
    add_metadata (add_metadata db metaFileID field value) metaFileID field value =
      add_metadata db metaFileID field value := by
  by_cases hv : value.length = 0
  · simp [add_metadata, hv]
  · apply add_metadata_present
    · unfold add_metadata
      rw [if_neg hv]
      exact mem_keys_db_put_of_mem _ _ _ _ (mem_keys_db_put _ _ _)
    · unfold add_metadata
      rw [if_neg hv]
      exact mem_keys_db_put _ _ _

/-- C9: forward/reverse consistency is kept by every call of `add_metadata`: whether the rows
are new, already there, or the value is empty. -/
theorem add_metadata_preserves_consistency (db : DB) (metaFileID : Nat) (field value : Bytes)
    (h : FwdRevConsistent db) : FwdRevConsistent (add_metadata db metaFileID field value) := by
  by_cases hv : value = []
  · subst hv; simpa [add_metadata] using h
  · by_cases hf : Key.EFSMetaFileIDFieldAndValue metaFileID field value ∈ keys db
    · rw [add_metadata_present db _ _ _ hf ((h _ _ _).mp hf)]
      exact h
    · have hr : Key.EFSFieldValueAndMetaFileID field value metaFileID ∉ keys db :=
        fun hr => hf ((h _ _ _).mpr hr)
      rw [add_metadata_fresh db _ _ _ hv hf hr]
      intro m f v
      rw [mem_keys_append, mem_keys_append, h m f v]
      simp only [keys, List.map_cons, List.map_nil, List.mem_cons, Key.EFSMetaFileIDFieldAndValue.injEq,
        Key.EFSFieldValueAndMetaFileID.injEq, reduceCtorEq, List.mem_nil_iff, or_false, false_or]
      tauto

theorem fwdRevConsistent_sampleDB : FwdRevConsistent sampleDB := by
  intro m f v
  simp only [sampleDB, metaFileRows, keys, List.map_cons, List.map_nil, List.cons_append,
    List.nil_append, List.mem_cons, Key.EFSMetaFileIDFieldAndValue.injEq,
    Key.EFSFieldValueAndMetaFileID.injEq, reduceCtorEq, List.mem_nil_iff, or_false, false_or]
  tauto

theorem add_metadata_preserves_consistency_witness :
    FwdRevConsistent sampleDB ∧ FwdRevConsistent (add_metadata sampleDB 1 sampleTag [98]) :=
  ⟨fwdRevConsistent_sampleDB,
    add_metadata_preserves_consistency sampleDB 1 sampleTag [98] fwdRevConsistent_sampleDB⟩

theorem field_key_fresh (db : DB) (hok : StoreOK db) (hid : maxMetaFileID db + 1 < 2 ^ 64)
    (fileID : Nat) (targetURI : Bytes) (k : Key) (hk : k.metaFileID = db_next_id db)
    (hnot : k ∉ keys (metaFileRows (db_next_id db) fileID targetURI)) :
    k ∉ keys (db ++ metaFileRows (db_next_id db) fileID targetURI) := by
  rw [mem_keys_append]
  rintro (h | h)
  · exact not_mem_keys_of_lt db hok k (by rw [hk, db_next_id_eq db hid]; omega) h
  · exact hnot h

/-- C10: `add_metadata` applied twice gives the store of one application; and a meta-file
whose JSON is the object with the one member tag, an array of a, b, a, adds after the three
meta-file rows exactly the forward and reverse rows of (tag, a) and of (tag, b). -/
theorem duplicate_pairs_idempotent :
    (∀ (db : DB) (metaFileID : Nat) (field value : Bytes),
      add_metadata (add_metadata db metaFileID field value) metaFileID field value =
        add_metadata db metaFileID field value) ∧
    (∀ (yajl : Bytes → YajlRun) (fts : Bytes → List Bytes) (m : EFSMetaFile) (f : Frame)
      (fileID : Nat) (db : DB),
      frame m.buf = some f →
      yajl f.json =
        { events := [Event.start_map, Event.map_key sampleTag, Event.start_array,
            Event.string [97], Event.string [98], Event.string [97], Event.end_array,
            Event.end_map], complete := true } →
      StoreOK db → maxMetaFileID db + 1 < 2 ^ 64 →
      EFSMetaFileStore yajl fts (some m) fileID db =
        Except.ok (some { buf := f.buf, metaFileID := db_next_id db },
          db ++ metaFileRows (db_next_id db) fileID f.targetURI ++
            [(Key.EFSMetaFileIDFieldAndValue (db_next_id db) sampleTag [97], none),
             (Key.EFSFieldValueAndMetaFileID sampleTag [97] (db_next_id db), none),
             (Key.EFSMetaFileIDFieldAndValue (db_next_id db) sampleTag [98], none),
             (Key.EFSFieldValueAndMetaFileID sampleTag [98] (db_next_id db), none)], 0)) := by
  refine ⟨add_metadata_twice, ?_⟩
  intro yajl fts m f fileID db hf hy hok hid
  rw [EFSMetaFileStore_accept yajl fts m f fileID db hf hok hid, hy]
  have hfield : strndup sampleTag sampleTag.length = sampleTag := by decide
  have hne : ¬ fulltextField = sampleTag := by decide
  have ha1 := add_metadata_fresh (db ++ metaFileRows (db_next_id db) fileID f.targetURI)
    (db_next_id db) sampleTag [97] (by simp)
    (field_key_fresh db hok hid fileID f.targetURI _ rfl (by simp [keys, metaFileRows]))
    (field_key_fresh db hok hid fileID f.targetURI _ rfl (by simp [keys, metaFileRows]))
  have hb1 := add_metadata_fresh
    (db ++ metaFileRows (db_next_id db) fileID f.targetURI ++
      [(Key.EFSMetaFileIDFieldAndValue (db_next_id db) sampleTag [97], none),
       (Key.EFSFieldValueAndMetaFileID sampleTag [97] (db_next_id db), none)])
    (db_next_id db) sampleTag [98] (by simp)
    (by
      rw [mem_keys_append]
      rintro (h | h)
      · exact field_key_fresh db hok hid fileID f.targetURI
          (Key.EFSMetaFileIDFieldAndValue (db_next_id db) sampleTag [98]) rfl
          (by simp [keys, metaFileRows]) h
      · simp [keys] at h)
    (by
      rw [mem_keys_append]
      rintro (h | h)
      · exact field_key_fresh db hok hid fileID f.targetURI
          (Key.EFSFieldValueAndMetaFileID sampleTag [98] (db_next_id db)) rfl
          (by simp [keys, metaFileRows]) h
      · simp [keys] at h)
  have ha2 := add_metadata_present
    (db ++ metaFileRows (db_next_id db) fileID f.targetURI ++
      [(Key.EFSMetaFileIDFieldAndValue (db_next_id db) sampleTag [97], none),
       (Key.EFSFieldValueAndMetaFileID sampleTag [97] (db_next_id db), none)] ++
      [(Key.EFSMetaFileIDFieldAndValue (db_next_id db) sampleTag [98], none),
       (Key.EFSFieldValueAndMetaFileID sampleTag [98] (db_next_id db), none)])
    (db_next_id db) sampleTag [97]
    (by simp [keys]) (by simp [keys])
  simp only [yajl_deliver, callbacks, yajl_start_map, yajl_map_key, yajl_start_array,
    yajl_string, yajl_end_array, yajl_end_map, Option.isSome_none, Bool.false_eq_true,
    if_false, hfield, hne, reduceCtorEq, ha1, hb1, ha2, Bool.and_self, if_true]
  simp

theorem duplicate_pairs_idempotent_witness :
    frame (sampleURI ++ [CR, LF, CR, LF] ++ sampleTagJson) =
      some { buf := sampleURI ++ [0, LF, CR, LF] ++ sampleTagJson, targetURI := sampleURI,
             json := [LF, CR, LF] ++ sampleTagJson } ∧
    StoreOK [] ∧ maxMetaFileID [] + 1 < 2 ^ 64 ∧
    EFSMetaFileStore sampleYajl sampleFts
        (some { buf := sampleURI ++ [CR, LF, CR, LF] ++ sampleTagJson, metaFileID := 0 }) 100 [] =
      Except.ok (some { buf := sampleURI ++ [0, LF, CR, LF] ++ sampleTagJson, metaFileID := 1 },
        [(Key.EFSMetaFileByID 1, some (100, sampleURI)),
         (Key.EFSFileIDAndMetaFileID 100 1, none),
         (Key.EFSTargetURIAndMetaFileID sampleURI 1, none),
         (Key.EFSMetaFileIDFieldAndValue 1 sampleTag [97], none),
         (Key.EFSFieldValueAndMetaFileID sampleTag [97] 1, none),
         (Key.EFSMetaFileIDFieldAndValue 1 sampleTag [98], none),
         (Key.EFSFieldValueAndMetaFileID sampleTag [98] 1, none)], 0) :=
  ⟨by decide, storeOK_nil, by decide,
    duplicate_pairs_idempotent.2 sampleYajl sampleFts
      { buf := sampleURI ++ [CR, LF, CR, LF] ++ sampleTagJson, metaFileID := 0 }
      { buf := sampleURI ++ [0, LF, CR, LF] ++ sampleTagJson, targetURI := sampleURI,
        json := [LF, CR, LF] ++ sampleTagJson }
      100 [] (by decide) (by decide) storeOK_nil (by decide)⟩

/-! ## The framing of `EFSMetaFileStore` -/

/-- C5: a body shorter than 3 bytes, or with no delimiter in the scanned range, or whose first
delimiter starts before offset 8, makes `EFSMetaFileStore` return 0 and leave the store and the
meta-file object as they were, so that `EFSMetaFileGetID` of a meta-file that had no id still
returns 0. -/
theorem malformed_framing_writes_nothing (yajl : Bytes → YajlRun) (fts : Bytes → List Bytes)
    (m : EFSMetaFile) (fileID : Nat) (db : DB) (hfresh : m.metaFileID = 0)
    (hbad : m.len < 3 ∨
      (∀ i, i < min (URI_MAX + 1) (m.len - 3) → ¬ DelimiterAt m.buf i) ∨
      (∃ i, i < 8 ∧ DelimiterAt m.buf i ∧ ∀ j, j < i → ¬ DelimiterAt m.buf j)) :
    ∃ meta1, EFSMetaFileStore yajl fts (some m) fileID db = Except.ok (meta1, db, 0) ∧
      meta1 = some m ∧ EFSMetaFileGetID meta1 = 0 := by
  refine ⟨some m, EFSMetaFileStore_reject yajl fts m fileID db ?_, rfl, hfresh⟩
  rcases hbad with h | h | ⟨i, hi, hd, -⟩
  · exact Or.inl h
  · refine Or.inr (frame_none_of_no_delimiter m.buf (fun i hi => ?_))
    have := h i hi
    rw [← isDelimiterAt_iff] at this
    simpa using this
  · exact Or.inr (frame_none_of_early m.buf i hi ((isDelimiterAt_iff _ _).mpr hd))

theorem malformed_framing_writes_nothing_witness :
    (∀ i, i < min (URI_MAX + 1) (sampleURI.length - 3) → ¬ DelimiterAt sampleURI i) ∧
    ∃ meta1, EFSMetaFileStore sampleYajl sampleFts (some { buf := sampleURI, metaFileID := 0 })
        100 sampleDB = Except.ok (meta1, sampleDB, 0) ∧
      meta1 = some { buf := sampleURI, metaFileID := 0 } ∧ EFSMetaFileGetID meta1 = 0 :=
  ⟨by
      intro i hi
      rw [← isDelimiterAt_iff]
      have hi12 : i < 12 := by simpa [URI_MAX, sampleURI] using hi
      interval_cases i <;> decide,
    malformed_framing_writes_nothing sampleYajl sampleFts { buf := sampleURI, metaFileID := 0 }
      100 sampleDB rfl
      (Or.inr (Or.inl (by
        intro i hi
        rw [← isDelimiterAt_iff]
        have hi12 : i < 12 := by simpa [URI_MAX, sampleURI, EFSMetaFile.len] using hi
        interval_cases i <;> decide)))⟩

theorem cstr_length_of_prefix (a : Bytes) (n : Nat) (hn : n ≤ a.length)
    (h : ∀ b ∈ a.take n, b ≠ 0) : n ≤ (cstr a).length := by
  have hp : ∀ b ∈ a.take n, (fun b => b != 0) b = true := by
    intro b hb
    simpa using h b hb
  have hsplit : cstr a = a.take n ++ cstr (a.drop n) := by
    unfold cstr
    rw [← List.takeWhile_append_of_pos hp, List.take_append_drop]
  rw [hsplit, List.length_append, List.length_take]
  omega

/-- C3 (amended): for every accepted body the bytes handed to the JSON parser are the body from
one byte past the first occurrence of a delimiter to the end; the extracted target URI is the
bytes before that occurrence when none of them is NUL; and when none of the first 8 bytes of
the body is NUL, it is the bytes before that occurrence up to their first NUL byte (a C
string), at least 8 bytes long. -/
theorem target_uri_extraction (body : Bytes) (f : Frame) (h : frame body = some f) :
    ∃ i, DelimiterAt body i ∧ (∀ j, j < i → ¬ DelimiterAt body j) ∧
      f.json = body.drop (i + 1) ∧
      ((∀ b ∈ body.take i, b ≠ 0) → f.targetURI = body.take i) ∧
      ((∀ b ∈ body.take 8, b ≠ 0) →
        f.targetURI = cstr (body.take i) ∧ 8 ≤ f.targetURI.length) := by
  obtain ⟨i, h8, hi, hd, hfirst, rfl⟩ := frame_some body f h
  refine ⟨i, (isDelimiterAt_iff _ _).mp hd, fun j hj hdj => ?_, rfl,
    fun hnul => cstr_of_no_nul _ hnul, fun hnul => ⟨rfl, ?_⟩⟩
  · have := hfirst j hj
    rw [(isDelimiterAt_iff _ _).mpr hdj] at this
    cases this
  · have hlen : 8 ≤ (body.take i).length := by
      rw [List.length_take]
      omega
    have htake : (body.take i).take 8 = body.take 8 := by
      rw [List.take_take, min_eq_left h8]
    exact cstr_length_of_prefix (body.take i) 8 hlen (by rw [htake]; exact hnul)

theorem target_uri_extraction_witness :
    frame (sampleURI ++ [LF, LF] ++ sampleEmptyJson) =
      some { buf := sampleURI ++ [0, LF] ++ sampleEmptyJson, targetURI := sampleURI,
             json := [LF] ++ sampleEmptyJson } ∧
    ∃ i, DelimiterAt (sampleURI ++ [LF, LF] ++ sampleEmptyJson) i ∧
      (∀ j, j < i → ¬ DelimiterAt (sampleURI ++ [LF, LF] ++ sampleEmptyJson) j) ∧
      [LF] ++ sampleEmptyJson = (sampleURI ++ [LF, LF] ++ sampleEmptyJson).drop (i + 1) ∧
      ((∀ b ∈ (sampleURI ++ [LF, LF] ++ sampleEmptyJson).take i, b ≠ 0) →
        sampleURI = (sampleURI ++ [LF, LF] ++ sampleEmptyJson).take i) ∧
      ((∀ b ∈ (sampleURI ++ [LF, LF] ++ sampleEmptyJson).take 8, b ≠ 0) →
        sampleURI = cstr ((sampleURI ++ [LF, LF] ++ sampleEmptyJson).take i) ∧
        8 ≤ sampleURI.length) :=
  ⟨by decide,
    target_uri_extraction (sampleURI ++ [LF, LF] ++ sampleEmptyJson)
      { buf := sampleURI ++ [0, LF] ++ sampleEmptyJson, targetURI := sampleURI,
        json := [LF] ++ sampleEmptyJson } (by decide)⟩

/-- C3 (counterexample): the body hash://d, NUL, ead, LF LF and an empty JSON object. The first
delimiter is at offset 12 and the body is accepted; the extracted target URI is the eight
bytes hash://d before the NUL, not the twelve bytes before the delimiter, and the meta-file
rows are written with it. -/
theorem target_uri_extraction_counterexample :
    DelimiterAt
      ([104, 97, 115, 104, 58, 47, 47, 100, 0, 101, 97, 100] ++ [LF, LF] ++ sampleEmptyJson)
      12 ∧
    (∀ j, j < 12 →
      ¬ DelimiterAt
        ([104, 97, 115, 104, 58, 47, 47, 100, 0, 101, 97, 100] ++ [LF, LF] ++ sampleEmptyJson)
        j) ∧
    frame
        ([104, 97, 115, 104, 58, 47, 47, 100, 0, 101, 97, 100] ++ [LF, LF] ++ sampleEmptyJson) =
      some { buf := [104, 97, 115, 104, 58, 47, 47, 100, 0, 101, 97, 100] ++ [0, LF] ++
               sampleEmptyJson,
             targetURI := [104, 97, 115, 104, 58, 47, 47, 100],
             json := [LF] ++ sampleEmptyJson } ∧
    [104, 97, 115, 104, 58, 47, 47, 100] ≠
      ([104, 97, 115, 104, 58, 47, 47, 100, 0, 101, 97, 100] ++ [LF, LF] ++
        sampleEmptyJson).take 12 ∧
    EFSMetaFileStore sampleYajl sampleFts
        (some { buf := [104, 97, 115, 104, 58, 47, 47, 100, 0, 101, 97, 100] ++ [LF, LF] ++
                  sampleEmptyJson,
                metaFileID := 0 }) 100 [] =
      Except.ok
        (some { buf := [104, 97, 115, 104, 58, 47, 47, 100, 0, 101, 97, 100] ++ [0, LF] ++
                  sampleEmptyJson,
                metaFileID := 1 },
         [(Key.EFSMetaFileByID 1, some (100, [104, 97, 115, 104, 58, 47, 47, 100])),
          (Key.EFSFileIDAndMetaFileID 100 1, none),
          (Key.EFSTargetURIAndMetaFileID [104, 97, 115, 104, 58, 47, 47, 100] 1, none)], 0) := by
  refine ⟨?_, ?_, by decide, by decide, by decide⟩
  · rw [← isDelimiterAt_iff]; decide
  · intro j hj
    rw [← isDelimiterAt_iff]
    interval_cases j <;> decide

theorem isDelimiterAt_head (buf : Bytes) (i : Nat) (h : isDelimiterAt buf i = true) :
    buf[i]? = some CR ∨ buf[i]? = some LF := by
  simp only [isDelimiterAt, Nat.add_zero, Bool.or_eq_true, Bool.and_eq_true, beq_iff_eq] at h
  tauto

theorem no_delimiter_in_uri (u rest : Bytes) (hu : ∀ b ∈ u, b ≠ CR ∧ b ≠ LF) (k : Nat)
    (hk : k < u.length) : isDelimiterAt (u ++ rest) k = false := by
  by_contra hd
  have hd1 : isDelimiterAt (u ++ rest) k = true := by simpa using hd
  have hget : (u ++ rest)[k]? = some u[k] := by
    rw [List.getElem?_append_left hk, List.getElem?_eq_getElem hk]
  have hmem : u[k] ∈ u := List.getElem_mem hk
  rcases isDelimiterAt_head _ _ hd1 with h | h
  · rw [hget] at h
    exact (hu _ hmem).1 (Option.some.inj h)
  · rw [hget] at h
    exact (hu _ hmem).2 (Option.some.inj h)

theorem delimiter_after_uri (u d j : Bytes) (hd : d ∈ delimiters) :
    isDelimiterAt (u ++ d ++ j) u.length = true := by
  rw [isDelimiterAt_iff]
  refine ⟨d, hd, ?_⟩
  rw [List.append_assoc, List.drop_left]
  exact List.prefix_append d j

theorem delimiter_length (d : Bytes) (hd : d ∈ delimiters) : 2 ≤ d.length := by
  simp only [delimiters, List.mem_cons, List.mem_nil_iff, or_false] at hd
  rcases hd with rfl | rfl | rfl <;> simp

theorem frame_of_body (u d j : Bytes) (hd : d ∈ delimiters) (hu : ∀ b ∈ u, b ≠ CR ∧ b ≠ LF)
    (hj : 2 ≤ j.length) :
    (8 ≤ u.length ∧ u.length ≤ URI_MAX →
      frame (u ++ d ++ j) =
        some { buf := (u ++ d ++ j).set u.length 0, targetURI := cstr u,
               json := d.drop 1 ++ j }) ∧
    (¬ (8 ≤ u.length ∧ u.length ≤ URI_MAX) → frame (u ++ d ++ j) = none) := by
  have hdl := delimiter_length d hd
  have hat := delimiter_after_uri u d j hd
  have hbefore : ∀ k, k < u.length → isDelimiterAt (u ++ d ++ j) k = false := by
    intro k hk
    rw [List.append_assoc]
    exact no_delimiter_in_uri u (d ++ j) hu k hk
  have hlen : (u ++ d ++ j).length = u.length + d.length + j.length := by
    simp only [List.length_append]
  constructor
  · rintro ⟨h8, hmax⟩
    have hi : u.length < min (URI_MAX + 1) ((u ++ d ++ j).length - 3) := by
      rw [hlen]
      apply lt_min <;> omega
    rw [frame_of_first (u ++ d ++ j) u.length h8 hi hat hbefore]
    have h1 : List.take u.length (u ++ d ++ j) = u := by
      rw [List.append_assoc, List.take_left]
    have h2 : List.drop (u.length + 1) (u ++ d ++ j) = d.drop 1 ++ j := by
      rw [List.append_assoc, ← List.drop_drop, List.drop_left]
      cases d with
      | nil => simp at hdl
      | cons x xs => simp
    rw [h1, h2]
  · intro hnot
    by_cases h8 : u.length < 8
    · exact frame_none_of_early _ u.length h8 hat
    · apply frame_none_of_no_delimiter
      intro i hi
      have : i < URI_MAX + 1 := lt_of_lt_of_le hi (min_le_left _ _)
      exact hbefore i (by omega)

/-- C2: for a body u ++ d ++ j with d one of the three delimiters, no CR or LF in u and at least
two bytes of JSON, stored in a sound store with an id left by a SAX parser, the primary
meta-file row is written if and only if u has at least 8 and at most `URI_MAX` = 1024 bytes;
outside these limits `EFSMetaFileStore` returns 0 and leaves the store as it was. -/
theorem framing_length_limits (yajl : Bytes → YajlRun) (fts : Bytes → List Bytes)
    (hsax : IsSaxParser yajl) (u d j : Bytes) (hd : d ∈ delimiters)
    (hu : ∀ b ∈ u, b ≠ CR ∧ b ≠ LF) (hj : 2 ≤ j.length)
    (m : EFSMetaFile) (hbody : m.buf = u ++ d ++ j) (fileID : Nat) (db : DB)
    (hok : StoreOK db) (hid : maxMetaFileID db + 1 < 2 ^ 64) :
    URI_MAX = 1024 ∧
    ((∃ meta1 db1 err,
        EFSMetaFileStore yajl fts (some m) fileID db = Except.ok (meta1, db1, err) ∧
        (Key.EFSMetaFileByID (db_next_id db), some (fileID, cstr u)) ∈ db1) ↔
      (8 ≤ u.length ∧ u.length ≤ URI_MAX)) ∧
    (¬ (8 ≤ u.length ∧ u.length ≤ URI_MAX) →
      EFSMetaFileStore yajl fts (some m) fileID db = Except.ok (some m, db, 0)) := by
  obtain ⟨hacc, hrej⟩ := frame_of_body u d j hd hu hj
  have hreject : ¬ (8 ≤ u.length ∧ u.length ≤ URI_MAX) →
      EFSMetaFileStore yajl fts (some m) fileID db = Except.ok (some m, db, 0) := by
    intro hnot
    exact EFSMetaFileStore_reject yajl fts m fileID db (Or.inr (by rw [hbody]; exact hrej hnot))
  refine ⟨rfl, ⟨?_, ?_⟩, hreject⟩
  · rintro ⟨meta1, db1, err, hres, hrow⟩
    by_contra hnot
    rw [hreject hnot] at hres
    simp only [Except.ok.injEq, Prod.mk.injEq] at hres
    obtain ⟨-, rfl, -⟩ := hres
    have hkey : Key.EFSMetaFileByID (db_next_id db) ∈ keys db :=
      List.mem_map.mpr ⟨_, hrow, rfl⟩
    exact not_mem_keys_of_lt db hok _
      (by simp [Key.metaFileID, db_next_id_eq db hid]) hkey
  · intro hlim
    have hf := hacc hlim
    rw [← hbody] at hf
    obtain ⟨extra, err, hres, -, -⟩ :=
      EFSMetaFileStore_accept_ok yajl fts hsax m _ fileID db hf hok hid
    refine ⟨_, _, _, hres, ?_⟩
    simp [metaFileRows]

theorem framing_length_limits_witness :
    IsSaxParser sampleYajl ∧ [LF, LF] ∈ delimiters ∧
    (∀ b ∈ ([104, 97, 115, 104, 58, 47, 47, 100] : Bytes), b ≠ CR ∧ b ≠ LF) ∧
    2 ≤ sampleEmptyJson.length ∧ StoreOK sampleDB ∧ maxMetaFileID sampleDB + 1 < 2 ^ 64 ∧
    ((∃ meta1 db1 err,
        EFSMetaFileStore sampleYajl sampleFts
          (some { buf := [104, 97, 115, 104, 58, 47, 47, 100] ++ [LF, LF] ++ sampleEmptyJson,
                  metaFileID := 0 }) 100 sampleDB = Except.ok (meta1, db1, err) ∧
        (Key.EFSMetaFileByID (db_next_id sampleDB),
          some (100, cstr [104, 97, 115, 104, 58, 47, 47, 100])) ∈ db1) ↔
      (8 ≤ ([104, 97, 115, 104, 58, 47, 47, 100] : Bytes).length ∧
        ([104, 97, 115, 104, 58, 47, 47, 100] : Bytes).length ≤ URI_MAX)) :=
  ⟨sampleYajl_isSaxParser, by decide, by decide, by decide, storeOK_sampleDB, by decide,
    (framing_length_limits sampleYajl sampleFts sampleYajl_isSaxParser
      [104, 97, 115, 104, 58, 47, 47, 100] [LF, LF] sampleEmptyJson (by decide) (by decide)
      (by decide)
      { buf := [104, 97, 115, 104, 58, 47, 47, 100] ++ [LF, LF] ++ sampleEmptyJson,
        metaFileID := 0 } rfl 100 sampleDB storeOK_sampleDB (by decide)).2.1⟩

/-! ## The JSON state machine -/

theorem callbacks_nonString (fts : Bytes → List Bytes) (context : parser_context) (db : DB)
    (ev : Event) (h : NonStringValue context.state ev) :
    callbacks fts context db ev = Except.ok (false, context, db) := by
  obtain ⟨mid, uri, state, field⟩ := context
  cases ev <;> cases state <;>
    simp_all [NonStringValue, callbacks, yajl_null, yajl_boolean, yajl_number, yajl_string,
      yajl_start_map, yajl_start_array]

theorem yajl_deliver_append_reject (fts : Bytes → List Bytes) (pre post : List Event)
    (ev : Event) (context context1 : parser_context) (db db1 : DB)
    (hpre : yajl_deliver fts pre context db = Except.ok (true, context1, db1))
    (hev : callbacks fts context1 db1 ev = Except.ok (false, context1, db1)) :
    yajl_deliver fts (pre ++ ev :: post) context db = Except.ok (false, context1, db1) := by
  induction pre generalizing context db with
  | nil =>
    simp only [yajl_deliver, Except.ok.injEq, Prod.mk.injEq, true_and] at hpre
    obtain ⟨rfl, rfl⟩ := hpre
    simp only [List.nil_append, yajl_deliver, hev]
  | cons e rest ih =>
    simp only [List.cons_append]
    unfold yajl_deliver at hpre ⊢
    cases hcb : callbacks fts context db e with
    | error a => rw [hcb] at hpre; cases hpre
    | ok r =>
      obtain ⟨b, c2, d2⟩ := r
      rw [hcb] at hpre
      cases b with
      | false => simp at hpre
      | true => exact ih c2 d2 hpre

/-- C4: the callbacks of null, boolean and number events return false in every state, and so do
those of an object start outside `s_start`, of an array start outside `s_field_value` and of a
string outside `s_field_value` and `s_field_array`, leaving context and store as they are; and
when the parser delivers such an event to an accepted meta-file (the events before it having
been taken), `EFSMetaFileStore` returns -1. -/
theorem non_string_values_rejected :
    (∀ (fts : Bytes → List Bytes) (context : parser_context) (db : DB) (ev : Event),
      NonStringValue context.state ev →
      callbacks fts context db ev = Except.ok (false, context, db)) ∧
    (∀ (yajl : Bytes → YajlRun) (fts : Bytes → List Bytes) (m : EFSMetaFile) (f : Frame)
      (fileID : Nat) (db db1 : DB) (pre post : List Event) (ev : Event)
      (context : parser_context),
      frame m.buf = some f → StoreOK db → maxMetaFileID db + 1 < 2 ^ 64 →
      (yajl f.json).events = pre ++ ev :: post →
      yajl_deliver fts pre
        { metaFileID := db_next_id db, targetURI := f.targetURI,
          state := parser_state.s_start, field := none }
        (db ++ metaFileRows (db_next_id db) fileID f.targetURI) =
          Except.ok (true, context, db1) →
      NonStringValue context.state ev →
      EFSMetaFileStore yajl fts (some m) fileID db =
        Except.ok (some { buf := f.buf, metaFileID := db_next_id db }, db1, -1)) := by
  refine ⟨callbacks_nonString, ?_⟩
  intro yajl fts m f fileID db db1 pre post ev context hf hok hid hev hpre hns
  rw [EFSMetaFileStore_accept yajl fts m f fileID db hf hok hid, hev,
    yajl_deliver_append_reject fts pre post ev _ context _ db1 hpre
      (callbacks_nonString fts context db1 ev hns)]
  simp

theorem non_string_values_rejected_witness :
    frame (sampleURI ++ [LF, LF] ++ sampleNestedJson) =
      some { buf := sampleURI ++ [0, LF] ++ sampleNestedJson, targetURI := sampleURI,
             json := [LF] ++ sampleNestedJson } ∧
    StoreOK [] ∧ maxMetaFileID [] + 1 < 2 ^ 64 ∧
    (sampleYajl ([LF] ++ sampleNestedJson)).events =
      [Event.start_map, Event.map_key [97]] ++ Event.start_map ::
        [Event.end_map, Event.end_map] ∧
    NonStringValue parser_state.s_field_value Event.start_map ∧
    EFSMetaFileStore sampleYajl sampleFts
        (some { buf := sampleURI ++ [LF, LF] ++ sampleNestedJson, metaFileID := 0 }) 100 [] =
      Except.ok (some { buf := sampleURI ++ [0, LF] ++ sampleNestedJson, metaFileID := 1 },
        metaFileRows 1 100 sampleURI, -1) :=
  ⟨by decide, storeOK_nil, by decide, by decide, by simp [NonStringValue],
    non_string_values_rejected.2 sampleYajl sampleFts
      { buf := sampleURI ++ [LF, LF] ++ sampleNestedJson, metaFileID := 0 }
      { buf := sampleURI ++ [0, LF] ++ sampleNestedJson, targetURI := sampleURI,
        json := [LF] ++ sampleNestedJson }
      100 [] (metaFileRows 1 100 sampleURI) [Event.start_map, Event.map_key [97]]
      [Event.end_map, Event.end_map] Event.start_map
      { metaFileID := 1, targetURI := sampleURI, state := parser_state.s_field_value,
        field := some [97] }
      (by decide) storeOK_nil (by decide) (by decide) (by decide)
      (by simp [NonStringValue])⟩

/-! ## The round trip of a well-formed meta-file -/

theorem mem_keys_db_put_iff (db : DB) (key k : Key) (val : Val) :
    k ∈ keys (db_put db key val).1 ↔ k ∈ keys db ∨ k = key := by
  unfold db_put
  by_cases h : key ∈ List.map Prod.fst db
  · rw [if_pos h]
    constructor
    · exact Or.inl
    · rintro (h1 | rfl)
      · exact h1
      · exact h
  · rw [if_neg h, mem_keys_append]
    simp [keys]

theorem mem_keys_add_metadata_iff (db : DB) (metaFileID : Nat) (field value : Bytes) (k : Key) :
    k ∈ keys (add_metadata db metaFileID field value) ↔
      k ∈ keys db ∨ (value ≠ [] ∧
        (k = Key.EFSMetaFileIDFieldAndValue metaFileID field value ∨
         k = Key.EFSFieldValueAndMetaFileID field value metaFileID)) := by
  unfold add_metadata
  by_cases hv : value.length = 0
  · rw [if_pos hv]
    have : value = [] := List.length_eq_zero.mp hv
    simp [this]
  · rw [if_neg hv]
    have : value ≠ [] := fun h => hv (by rw [h]; rfl)
    simp only [mem_keys_db_put_iff, this, ne_eq, not_false_eq_true, true_and]
    tauto

theorem mem_keys_foldl_terms_iff (tokens : List Bytes) (db : DB) (metaFileID : Nat) (k : Key) :
    k ∈ keys (tokens.foldl
        (fun d token => (db_put d (Key.EFSTermMetaFileIDAndPosition token metaFileID 0) none).1)
        db) ↔
      k ∈ keys db ∨ ∃ t ∈ tokens, k = Key.EFSTermMetaFileIDAndPosition t metaFileID 0 := by
  induction tokens generalizing db with
  | nil => simp
  | cons t ts ih =>
    rw [List.foldl_cons, ih, mem_keys_db_put_iff]
    simp only [List.mem_cons, exists_eq_or_imp]
    tauto

theorem mem_keys_add_fulltext_iff (fts : Bytes → List Bytes) (db : DB) (metaFileID : Nat)
    (str : Bytes) (k : Key) :
    k ∈ keys (add_fulltext fts db metaFileID str) ↔
      k ∈ keys db ∨ ∃ t ∈ fts str, k = Key.EFSTermMetaFileIDAndPosition t metaFileID 0 :=
  mem_keys_foldl_terms_iff (fts str) db metaFileID k

theorem fwd_mem_keys_emitFields_iff (fts : Bytes → List Bytes) (metaFileID : Nat)
    (pairs : List (Bytes × Bytes)) (db : DB) (mid : Nat) (field value : Bytes) :
    Key.EFSMetaFileIDFieldAndValue mid field value ∈ keys (emitFields fts metaFileID db pairs) ↔
      Key.EFSMetaFileIDFieldAndValue mid field value ∈ keys db ∨
      (mid = metaFileID ∧ ∃ k, (k, value) ∈ pairs ∧ field = strndup k k.length ∧
        field ≠ fulltextField ∧ value ≠ []) := by
  induction pairs generalizing db with
  | nil => simp [emitFields]
  | cons p ps ih =>
    obtain ⟨k, v⟩ := p
    have hcons : emitFields fts metaFileID db ((k, v) :: ps) =
        emitFields fts metaFileID (emitValue fts metaFileID (strndup k k.length) db v) ps := rfl
    rw [hcons, ih]
    unfold emitValue
    by_cases hft : fulltextField = strndup k k.length
    · rw [if_pos hft, mem_keys_add_fulltext_iff]
      simp only [reduceCtorEq, and_false, exists_false, or_false, List.mem_cons, Prod.mk.injEq]
      constructor
      · rintro (h | ⟨rfl, k1, hk1, h1, h2, h3⟩)
        · exact Or.inl h
        · exact Or.inr ⟨rfl, k1, Or.inr hk1, h1, h2, h3⟩
      · rintro (h | ⟨rfl, k1, (⟨rfl, rfl⟩ | hk1), h1, h2, h3⟩)
        · exact Or.inl h
        · exact absurd (h1.trans hft.symm) h2
        · exact Or.inr ⟨rfl, k1, hk1, h1, h2, h3⟩
    · rw [if_neg hft, mem_keys_add_metadata_iff]
      simp only [Key.EFSMetaFileIDFieldAndValue.injEq, reduceCtorEq, or_false, List.mem_cons,
        Prod.mk.injEq]
      constructor
      · rintro ((h | ⟨hv, rfl, rfl, rfl⟩) | ⟨rfl, k1, hk1, h1, h2, h3⟩)
        · exact Or.inl h
        · exact Or.inr ⟨rfl, k, Or.inl ⟨rfl, rfl⟩, rfl, fun h => hft h.symm, hv⟩
        · exact Or.inr ⟨rfl, k1, Or.inr hk1, h1, h2, h3⟩
      · rintro (h | ⟨rfl, k1, (⟨rfl, rfl⟩ | hk1), h1, h2, h3⟩)
        · exact Or.inl (Or.inl h)
        · exact Or.inl (Or.inr ⟨h3, rfl, h1, rfl⟩)
        · exact Or.inr ⟨rfl, k1, hk1, h1, h2, h3⟩

theorem rev_mem_keys_emitFields_iff (fts : Bytes → List Bytes) (metaFileID : Nat)
    (pairs : List (Bytes × Bytes)) (db : DB) (mid : Nat) (field value : Bytes) :
    Key.EFSFieldValueAndMetaFileID field value mid ∈ keys (emitFields fts metaFileID db pairs) ↔
      Key.EFSFieldValueAndMetaFileID field value mid ∈ keys db ∨
      (mid = metaFileID ∧ ∃ k, (k, value) ∈ pairs ∧ field = strndup k k.length ∧
        field ≠ fulltextField ∧ value ≠ []) := by
  induction pairs generalizing db with
  | nil => simp [emitFields]
  | cons p ps ih =>
    obtain ⟨k, v⟩ := p
    have hcons : emitFields fts metaFileID db ((k, v) :: ps) =
        emitFields fts metaFileID (emitValue fts metaFileID (strndup k k.length) db v) ps := rfl
    rw [hcons, ih]
    unfold emitValue
    by_cases hft : fulltextField = strndup k k.length
    · rw [if_pos hft, mem_keys_add_fulltext_iff]
      simp only [reduceCtorEq, and_false, exists_false, or_false, List.mem_cons, Prod.mk.injEq]
      constructor
      · rintro (h | ⟨rfl, k1, hk1, h1, h2, h3⟩)
        · exact Or.inl h
        · exact Or.inr ⟨rfl, k1, Or.inr hk1, h1, h2, h3⟩
      · rintro (h | ⟨rfl, k1, (⟨rfl, rfl⟩ | hk1), h1, h2, h3⟩)
        · exact Or.inl h
        · exact absurd (h1.trans hft.symm) h2
        · exact Or.inr ⟨rfl, k1, hk1, h1, h2, h3⟩
    · rw [if_neg hft, mem_keys_add_metadata_iff]
      simp only [Key.EFSFieldValueAndMetaFileID.injEq, reduceCtorEq, false_or, List.mem_cons,
        Prod.mk.injEq]
      constructor
      · rintro ((h | ⟨hv, rfl, rfl, rfl⟩) | ⟨rfl, k1, hk1, h1, h2, h3⟩)
        · exact Or.inl h
        · exact Or.inr ⟨rfl, k, Or.inl ⟨rfl, rfl⟩, rfl, fun h => hft h.symm, hv⟩
        · exact Or.inr ⟨rfl, k1, Or.inr hk1, h1, h2, h3⟩
      · rintro (h | ⟨rfl, k1, (⟨rfl, rfl⟩ | hk1), h1, h2, h3⟩)
        · exact Or.inl (Or.inl h)
        · exact Or.inl (Or.inr ⟨h3, h1, rfl, rfl⟩)
        · exact Or.inr ⟨rfl, k1, hk1, h1, h2, h3⟩

theorem yajl_deliver_array_values (fts : Bytes → List Bytes) (values : List Bytes)
    (rest : List Event) (mid : Nat) (uri field : Bytes) (db : DB) :
    yajl_deliver fts (values.map Event.string ++ rest)
        { metaFileID := mid, targetURI := uri, state := parser_state.s_field_array,
          field := some field } db =
      yajl_deliver fts rest
        { metaFileID := mid, targetURI := uri, state := parser_state.s_field_array,
          field := some field }
        (values.foldl (emitValue fts mid field) db) := by
  induction values generalizing db with
  | nil => rfl
  | cons v vs ih =>
    simp only [List.map_cons, List.cons_append, List.foldl_cons]
    rw [← ih]
    conv_lhs => unfold yajl_deliver
    simp only [callbacks, yajl_string, reduceCtorEq, if_false, emitValue]

theorem yajl_deliver_members (fts : Bytes → List Bytes) (o : MetaObject) (rest : List Event)
    (mid : Nat) (uri : Bytes) (db : DB) :
    yajl_deliver fts (memberEvents o ++ rest)
        { metaFileID := mid, targetURI := uri, state := parser_state.s_top, field := none } db =
      yajl_deliver fts rest
        { metaFileID := mid, targetURI := uri, state := parser_state.s_top, field := none }
        (emitFields fts mid db (fieldSet o)) := by
  induction o generalizing db with
  | nil => rfl
  | cons member members ih =>
    obtain ⟨k, v⟩ := member
    have hset : emitFields fts mid db (fieldSet ((k, v) :: members)) =
        emitFields fts mid (v.values.foldl (emitValue fts mid (strndup k k.length)) db)
          (fieldSet members) := by
      simp only [emitFields, fieldSet, List.foldl_append, List.foldl_map]
    rw [hset, ← ih]
    cases v with
    | string value =>
      simp only [memberEvents, FieldValue.events, FieldValue.values, List.cons_append,
        List.nil_append, List.foldl_cons, List.foldl_nil, List.append_assoc]
      conv_lhs => unfold yajl_deliver
      simp only [callbacks, yajl_map_key, Option.isSome_none, Bool.false_eq_true, if_false]
      conv_lhs => unfold yajl_deliver
      simp only [callbacks, yajl_string, if_true, emitValue]
    | array values =>
      simp only [memberEvents, FieldValue.events, FieldValue.values, List.cons_append,
        List.append_assoc]
      conv_lhs => unfold yajl_deliver
      simp only [callbacks, yajl_map_key, Option.isSome_none, Bool.false_eq_true, if_false]
      conv_lhs => unfold yajl_deliver
      simp only [callbacks, yajl_start_array]
      rw [yajl_deliver_array_values]
      conv_lhs => unfold yajl_deliver
      simp only [List.cons_append, List.nil_append, callbacks, yajl_end_array]

theorem yajl_deliver_object (fts : Bytes → List Bytes) (o : MetaObject) (mid : Nat)
    (uri : Bytes) (db : DB) :
    yajl_deliver fts o.events
        { metaFileID := mid, targetURI := uri, state := parser_state.s_start, field := none }
        db =
      Except.ok (true,
        { metaFileID := mid, targetURI := uri, state := parser_state.s_end, field := none },
        emitFields fts mid db (fieldSet o)) := by
  unfold MetaObject.events
  conv_lhs => unfold yajl_deliver
  simp only [callbacks, yajl_start_map]
  rw [yajl_deliver_members]
  simp only [yajl_deliver, callbacks, yajl_end_map]

/-- C1 (amended): a well-formed meta-file (accepted framing, JSON object of strings and arrays
of strings) with field set F, stored in a sound store with an id left, is given the next id
mid and `EFSMetaFileStore` returns 0; the forward rows of mid are then exactly the
(mid, k, v) and the reverse rows of mid exactly the (k, v, mid) with (k0, v) in F, k the field
name k0 as a C string (cut at its first NUL byte), k other than fulltext and v not empty. -/
theorem well_formed_roundtrip (yajl : Bytes → YajlRun) (fts : Bytes → List Bytes)
    (m : EFSMetaFile) (f : Frame) (fileID : Nat) (db : DB) (o : MetaObject)
    (hf : frame m.buf = some f)
    (hy : yajl f.json = { events := o.events, complete := true })
    (hok : StoreOK db) (hid : maxMetaFileID db + 1 < 2 ^ 64) :
    ∃ db1,
      EFSMetaFileStore yajl fts (some m) fileID db =
        Except.ok (some { buf := f.buf, metaFileID := db_next_id db }, db1, 0) ∧
      (∀ field value,
        Key.EFSMetaFileIDFieldAndValue (db_next_id db) field value ∈ keys db1 ↔
          ∃ k, (k, value) ∈ fieldSet o ∧ field = strndup k k.length ∧
            field ≠ fulltextField ∧ value ≠ []) ∧
      (∀ field value,
        Key.EFSFieldValueAndMetaFileID field value (db_next_id db) ∈ keys db1 ↔
          ∃ k, (k, value) ∈ fieldSet o ∧ field = strndup k k.length ∧
            field ≠ fulltextField ∧ value ≠ []) := by
  refine ⟨emitFields fts (db_next_id db)
    (db ++ metaFileRows (db_next_id db) fileID f.targetURI) (fieldSet o), ?_, ?_, ?_⟩
  · rw [EFSMetaFileStore_accept yajl fts m f fileID db hf hok hid, hy, yajl_deliver_object]
    simp
  · intro field value
    rw [fwd_mem_keys_emitFields_iff]
    have hfresh := field_key_fresh db hok hid fileID f.targetURI
      (Key.EFSMetaFileIDFieldAndValue (db_next_id db) field value) rfl
      (by simp [keys, metaFileRows])
    simp only [hfresh, false_or, true_and]
  · intro field value
    rw [rev_mem_keys_emitFields_iff]
    have hfresh := field_key_fresh db hok hid fileID f.targetURI
      (Key.EFSFieldValueAndMetaFileID field value (db_next_id db)) rfl
      (by simp [keys, metaFileRows])
    simp only [hfresh, false_or, true_and]

theorem well_formed_roundtrip_witness :
    frame (sampleURI ++ [CR, LF, CR, LF] ++ sampleTitleJson) =
      some { buf := sampleURI ++ [0, LF, CR, LF] ++ sampleTitleJson, targetURI := sampleURI,
             json := [LF, CR, LF] ++ sampleTitleJson } ∧
    sampleYajl ([LF, CR, LF] ++ sampleTitleJson) =
      { events := MetaObject.events [(sampleTitle, FieldValue.string sampleHello)],
        complete := true } ∧
    StoreOK [] ∧ maxMetaFileID [] + 1 < 2 ^ 64 ∧
    ∃ db1,
      EFSMetaFileStore sampleYajl sampleFts
          (some { buf := sampleURI ++ [CR, LF, CR, LF] ++ sampleTitleJson, metaFileID := 0 })
          100 [] =
        Except.ok (some { buf := sampleURI ++ [0, LF, CR, LF] ++ sampleTitleJson,
                          metaFileID := db_next_id [] }, db1, 0) ∧
      (∀ field value,
        Key.EFSMetaFileIDFieldAndValue (db_next_id []) field value ∈ keys db1 ↔
          ∃ k, (k, value) ∈ fieldSet [(sampleTitle, FieldValue.string sampleHello)] ∧
            field = strndup k k.length ∧ field ≠ fulltextField ∧ value ≠ []) ∧
      (∀ field value,
        Key.EFSFieldValueAndMetaFileID field value (db_next_id []) ∈ keys db1 ↔
          ∃ k, (k, value) ∈ fieldSet [(sampleTitle, FieldValue.string sampleHello)] ∧
            field = strndup k k.length ∧ field ≠ fulltextField ∧ value ≠ []) :=
  ⟨by decide, by decide, storeOK_nil, by decide,
    well_formed_roundtrip sampleYajl sampleFts
      { buf := sampleURI ++ [CR, LF, CR, LF] ++ sampleTitleJson, metaFileID := 0 }
      { buf := sampleURI ++ [0, LF, CR, LF] ++ sampleTitleJson, targetURI := sampleURI,
        json := [LF, CR, LF] ++ sampleTitleJson }
      100 [] [(sampleTitle, FieldValue.string sampleHello)]
      (by decide) (by decide) storeOK_nil (by decide)⟩

/-- C1 (counterexample): two well-formed meta-files stored in the empty store as meta-file 1.
The first has the JSON object with the member fulltext, value x: the pair (fulltext, x) is in
its field set and x is not empty, yet no forward row (1, fulltext, x) and no reverse row
(fulltext, x, 1) is written, only a term row. The second has one member whose key is a, NUL,
b, value x: the rows written are (1, a, x) and (a, x, 1), for a pair (a, x) that is not in the
field set, and the row for the key itself is missing. -/
theorem well_formed_roundtrip_counterexample :
    (sampleYajl ([LF] ++ sampleFulltextJson) =
        { events := MetaObject.events [(fulltextField, FieldValue.string [120])],
          complete := true } ∧
      (fulltextField, [120]) ∈ fieldSet [(fulltextField, FieldValue.string [120])] ∧
      EFSMetaFileStore sampleYajl sampleFts
          (some { buf := sampleURI ++ [LF, LF] ++ sampleFulltextJson, metaFileID := 0 })
          100 [] =
        Except.ok (some { buf := sampleURI ++ [0, LF] ++ sampleFulltextJson, metaFileID := 1 },
          metaFileRows 1 100 sampleURI ++
            [(Key.EFSTermMetaFileIDAndPosition [120] 1 0, none)], 0) ∧
      Key.EFSMetaFileIDFieldAndValue 1 fulltextField [120] ∉
        keys (metaFileRows 1 100 sampleURI ++
          [(Key.EFSTermMetaFileIDAndPosition [120] 1 0, none)]) ∧
      Key.EFSFieldValueAndMetaFileID fulltextField [120] 1 ∉
        keys (metaFileRows 1 100 sampleURI ++
          [(Key.EFSTermMetaFileIDAndPosition [120] 1 0, none)])) ∧
    (sampleYajl ([LF] ++ sampleNulKeyJson) =
        { events := MetaObject.events [([97, 0, 98], FieldValue.string [120])],
          complete := true } ∧
      (([97], [120]) : Bytes × Bytes) ∉ fieldSet [([97, 0, 98], FieldValue.string [120])] ∧
      EFSMetaFileStore sampleYajl sampleFts
          (some { buf := sampleURI ++ [LF, LF] ++ sampleNulKeyJson, metaFileID := 0 })
          100 [] =
        Except.ok (some { buf := sampleURI ++ [0, LF] ++ sampleNulKeyJson, metaFileID := 1 },
          metaFileRows 1 100 sampleURI ++
            [(Key.EFSMetaFileIDFieldAndValue 1 [97] [120], none),
             (Key.EFSFieldValueAndMetaFileID [97] [120] 1, none)], 0)) := by
  decide

/-! ## What one call of `EFSMetaFileStore` does to a sound store -/

theorem add_metafile_exhausted (db : DB) (fileID : Nat) (targetURI : Bytes) (hok : StoreOK db)
    (hid : ¬ maxMetaFileID db + 1 < 2 ^ 64) :
    add_metafile db fileID targetURI = Except.error Abort.assertMetaFileID := by
  have hmax := hok.2
  have h0 : db_next_id db = 0 := by
    unfold db_next_id
    have : maxMetaFileID db + 1 = 2 ^ 64 := by omega
    rw [this, Nat.mod_self]
  unfold add_metafile
  simp [h0]

theorem metaFileIDs_of_no_primary (extra : DB)
    (h : ∀ r ∈ extra, ∀ id, r.1 ≠ Key.EFSMetaFileByID id) : metaFileIDs extra = [] := by
  induction extra with
  | nil => rfl
  | cons r rs ih =>
    have hr := h r (List.mem_cons_self _ _)
    have hrs := ih (fun x hx => h x (List.mem_cons_of_mem _ hx))
    obtain ⟨k, v⟩ := r
    have hcons : metaFileIDs ((k, v) :: rs) = metaFileIDs [(k, v)] ++ metaFileIDs rs := by
      rw [← metaFileIDs_append]; rfl
    rw [hcons, hrs]
    cases k <;> simp_all [metaFileIDs]

theorem metaFileIDs_stored (db extra : DB) (id fileID : Nat) (uri : Bytes)
    (hextra : ∀ r ∈ extra, r.1.metaFileID = id ∧ ∀ id1, r.1 ≠ Key.EFSMetaFileByID id1) :
    metaFileIDs (db ++ metaFileRows id fileID uri ++ extra) = metaFileIDs db ++ [id] := by
  rw [metaFileIDs_append, metaFileIDs_append,
    metaFileIDs_of_no_primary extra (fun r hr => (hextra r hr).2)]
  simp [metaFileIDs, metaFileRows]

theorem maxMetaFileID_stored (db extra : DB) (id fileID : Nat) (uri : Bytes)
    (hextra : ∀ r ∈ extra, r.1.metaFileID = id ∧ ∀ id1, r.1 ≠ Key.EFSMetaFileByID id1)
    (hid : maxMetaFileID db ≤ id) :
    maxMetaFileID (db ++ metaFileRows id fileID uri ++ extra) = id := by
  unfold maxMetaFileID at hid ⊢
  rw [metaFileIDs_stored db extra id fileID uri hextra, foldr_max_append]
  simp only [List.foldr_cons, List.foldr_nil]
  omega

theorem storeOK_stored (db extra : DB) (id fileID : Nat) (uri : Bytes) (hok : StoreOK db)
    (hextra : ∀ r ∈ extra, r.1.metaFileID = id ∧ ∀ id1, r.1 ≠ Key.EFSMetaFileByID id1)
    (hid : maxMetaFileID db ≤ id) (hlt : id < 2 ^ 64) :
    StoreOK (db ++ metaFileRows id fileID uri ++ extra) := by
  have hmax := maxMetaFileID_stored db extra id fileID uri hextra hid
  refine ⟨fun r hr => ?_, by rw [hmax]; exact hlt⟩
  rw [hmax]
  rcases List.mem_append.mp hr with h | h
  · rcases List.mem_append.mp h with h | h
    · exact le_trans (hok.1 r h) hid
    · simp only [metaFileRows, List.mem_cons, List.mem_nil_iff, or_false] at h
      rcases h with rfl | rfl | rfl <;> simp [Key.metaFileID]
  · exact le_of_eq (hextra r h).1

theorem EFSMetaFileStore_result (yajl : Bytes → YajlRun) (fts : Bytes → List Bytes)
    (meta meta1 : EFSMetaFileRef) (fileID : Nat) (db db1 : DB) (err : Int) (hok : StoreOK db)
    (h : EFSMetaFileStore yajl fts meta fileID db = Except.ok (meta1, db1, err)) :
    (db1 = db ∧ err = 0) ∨
    (∃ uri extra,
      db1 = db ++ metaFileRows (maxMetaFileID db + 1) fileID uri ++ extra ∧
      (∀ r ∈ extra, r.1.metaFileID = maxMetaFileID db + 1 ∧
        ∀ id, r.1 ≠ Key.EFSMetaFileByID id) ∧
      maxMetaFileID db + 1 < 2 ^ 64 ∧
      EFSMetaFileGetID meta1 = maxMetaFileID db + 1 ∧ (err = 0 ∨ err = -1)) := by
  cases meta with
  | none =>
    simp only [EFSMetaFileStore, Except.ok.injEq, Prod.mk.injEq] at h
    exact Or.inl ⟨h.2.1.symm, h.2.2.symm⟩
  | some m =>
    cases hf : frame m.buf with
    | none =>
      rw [EFSMetaFileStore_reject yajl fts m fileID db (Or.inr hf)] at h
      simp only [Except.ok.injEq, Prod.mk.injEq] at h
      exact Or.inl ⟨h.2.1.symm, h.2.2.symm⟩
    | some f =>
      by_cases hid : maxMetaFileID db + 1 < 2 ^ 64
      · rw [EFSMetaFileStore_accept yajl fts m f fileID db hf hok hid] at h
        have hnext := db_next_id_eq db hid
        cases hrun : yajl_deliver fts (yajl f.json).events
            { metaFileID := db_next_id db, targetURI := f.targetURI,
              state := parser_state.s_start, field := none }
            (db ++ metaFileRows (db_next_id db) fileID f.targetURI) with
        | error a => rw [hrun] at h; cases h
        | ok r =>
          obtain ⟨b, c1, d1⟩ := r
          obtain ⟨-, extra, hextra, hrows⟩ := yajl_deliver_extends fts _ _ _ _ _ _ hrun
          rw [hrun] at h
          simp only at hrows
          rw [hnext] at hextra hrows
          refine Or.inr ⟨f.targetURI, extra, ?_, hrows, hid, ?_, ?_⟩
          · by_cases hc : (b && (yajl f.json).complete) = true
            · simp only [hc, if_true, Except.ok.injEq, Prod.mk.injEq] at h
              rw [← h.2.1, hextra]
            · simp only [hc, Bool.false_eq_true, if_false, Except.ok.injEq, Prod.mk.injEq] at h
              rw [← h.2.1, hextra]
          · by_cases hc : (b && (yajl f.json).complete) = true
            · simp only [hc, if_true, Except.ok.injEq, Prod.mk.injEq] at h
              rw [← h.1, ← hnext]; rfl
            · simp only [hc, Bool.false_eq_true, if_false, Except.ok.injEq, Prod.mk.injEq] at h
              rw [← h.1, ← hnext]; rfl
          · by_cases hc : (b && (yajl f.json).complete) = true
            · simp only [hc, if_true, Except.ok.injEq, Prod.mk.injEq] at h
              exact Or.inl h.2.2.symm
            · simp only [hc, Bool.false_eq_true, if_false, Except.ok.injEq, Prod.mk.injEq] at h
              exact Or.inr h.2.2.symm
      · exfalso
        have hjson := frame_json_length m.buf f hf
        have hlen : ¬ m.len < 3 := by
          obtain ⟨i, -, hi, -, -, -⟩ := frame_some m.buf f hf
          have : min (URI_MAX + 1) (m.buf.length - 3) ≤ m.buf.length - 3 := min_le_right _ _
          unfold EFSMetaFile.len
          omega
        have hj0 : ¬ f.json.length = 0 := by omega
        unfold EFSMetaFileStore at h
        simp only [hlen, if_false, hf, hj0,
          add_metafile_exhausted db fileID f.targetURI hok hid] at h
        cases h

theorem EFSMetaFileStore_sound (yajl : Bytes → YajlRun) (fts : Bytes → List Bytes)
    (meta meta1 : EFSMetaFileRef) (fileID : Nat) (db db1 : DB) (err : Int) (hok : StoreOK db)
    (h : EFSMetaFileStore yajl fts meta fileID db = Except.ok (meta1, db1, err)) :
    StoreOK db1 ∧ maxMetaFileID db ≤ maxMetaFileID db1 ∧
      (err < 0 → EFSMetaFileGetID meta1 = maxMetaFileID db + 1) := by
  rcases EFSMetaFileStore_result yajl fts meta meta1 fileID db db1 err hok h with
    ⟨rfl, rfl⟩ | ⟨uri, extra, rfl, hextra, hid, hget, -⟩
  · exact ⟨hok, le_refl _, fun h => absurd h (by decide)⟩
  · refine ⟨storeOK_stored db extra _ fileID uri hok hextra (by omega) hid, ?_, fun _ => hget⟩
    rw [maxMetaFileID_stored db extra _ fileID uri hextra (by omega)]
    omega

/-! ## The writer's transaction -/

theorem storeQueue_failed (yajl : Bytes → YajlRun) (fts : Bytes → List Bytes)
    (queue queue1 : List EFSSubmission) (i j : Nat) (err0 err : Int) (db db1 : DB)
    (hok : StoreOK db) (herr0 : ¬ err0 < 0)
    (h : storeQueue (EFSSubmissionStore yajl fts) queue i err0 db =
      Except.ok (queue1, db1, err, j))
    (herr : err < 0) :
    i ≤ j ∧ ∃ sub0 sub, queue[j - i]? = some sub0 ∧ queue1[j - i]? = some sub ∧
      sub.fileID = sub0.fileID ∧ maxMetaFileID db < EFSMetaFileGetID sub.meta := by
  induction queue generalizing queue1 i err0 db with
  | nil =>
    simp only [storeQueue, Except.ok.injEq, Prod.mk.injEq] at h
    exact absurd (h.2.2.1 ▸ herr) herr0
  | cons s rest ih =>
    unfold storeQueue at h
    cases hs : EFSSubmissionStore yajl fts s db with
    | error a => rw [hs] at h; cases h
    | ok r =>
      obtain ⟨s1, d1, e1⟩ := r
      rw [hs] at h
      have hstore : EFSMetaFileStore yajl fts s.meta s.fileID db =
          Except.ok (s1.meta, d1, e1) ∧ s1.fileID = s.fileID := by
        unfold EFSSubmissionStore at hs
        cases hm : EFSMetaFileStore yajl fts s.meta s.fileID db with
        | error a => rw [hm] at hs; cases hs
        | ok r1 =>
          obtain ⟨m1, d2, e2⟩ := r1
          rw [hm] at hs
          simp only [Except.ok.injEq, Prod.mk.injEq] at hs
          obtain ⟨rfl, rfl, rfl⟩ := hs
          exact ⟨rfl, rfl⟩
      obtain ⟨hok1, hmono, hget⟩ :=
        EFSMetaFileStore_sound yajl fts s.meta s1.meta s.fileID db d1 e1 hok hstore.1
      by_cases he1 : e1 < 0
      · simp only [he1, if_true, Except.ok.injEq, Prod.mk.injEq] at h
        obtain ⟨rfl, -, -, rfl⟩ := h
        refine ⟨le_refl _, s, s1, ?_, ?_, hstore.2, ?_⟩
        · simp
        · simp
        · rw [hget he1]; omega
      · simp only [he1, if_false] at h
        cases hrest : storeQueue (EFSSubmissionStore yajl fts) rest (i + 1) e1 d1 with
        | error a => rw [hrest] at h; cases h
        | ok r2 =>
          obtain ⟨q2, d2, e2, j2⟩ := r2
          rw [hrest] at h
          simp only [Except.ok.injEq, Prod.mk.injEq] at h
          obtain ⟨rfl, rfl, rfl, rfl⟩ := h
          obtain ⟨hij, sub0, sub, h0, h1, h2, h3⟩ := ih q2 (i + 1) e1 d1 hok1 he1 hrest
          have hidx : j2 - i = (j2 - (i + 1)) + 1 := by omega
          refine ⟨by omega, sub0, sub, ?_, ?_, h2, by omega⟩
          · rw [hidx, List.getElem?_cons_succ]; exact h0
          · rw [hidx, List.getElem?_cons_succ]; exact h1

/-- C6: when a round of the writer's transaction ends with a negative error, the loop having
stopped at submission i, the committed store is the store the transaction began with (the
writer rolls back), and in it no row of any table refers to the meta-file id that was allocated
for the failed submission. -/
theorem ingest_atomicity (yajl : Bytes → YajlRun) (fts : Bytes → List Bytes)
    (queue queue1 : List EFSSubmission) (db db1 : DB) (err : Int) (i : Nat)
    (hok : StoreOK db)
    (hrun : writerTxn (EFSSubmissionStore yajl fts) queue db = Except.ok (queue1, db1, err, i))
    (herr : err < 0) :
    db1 = db ∧
    ∃ sub0 sub, queue[i]? = some sub0 ∧ queue1[i]? = some sub ∧ sub.fileID = sub0.fileID ∧
      ∀ r ∈ db1, r.1.metaFileID ≠ EFSMetaFileGetID sub.meta := by
  unfold writerTxn at hrun
  cases hq : storeQueue (EFSSubmissionStore yajl fts) queue 0 0 db with
  | error a => rw [hq] at hrun; cases hrun
  | ok r =>
    obtain ⟨q1, d1, e1, j⟩ := r
    rw [hq] at hrun
    by_cases he1 : e1 < 0
    · simp only [he1, if_true, Except.ok.injEq, Prod.mk.injEq] at hrun
      obtain ⟨rfl, rfl, rfl, rfl⟩ := hrun
      obtain ⟨-, sub0, sub, h0, h1, h2, h3⟩ :=
        storeQueue_failed yajl fts queue q1 0 j 0 e1 db d1 hok (by decide) hq he1
      refine ⟨rfl, sub0, sub, h0, h1, h2, fun r hr heq => ?_⟩
      have := hok.1 r hr
      omega
    · simp only [he1, if_false, Except.ok.injEq, Prod.mk.injEq] at hrun
      obtain ⟨-, -, rfl, -⟩ := hrun
      exact absurd herr he1

theorem ingest_atomicity_witness :
    StoreOK sampleDB ∧
    writerTxn (EFSSubmissionStore sampleYajl sampleFts)
        [{ meta := some { buf := sampleURI ++ [LF, LF] ++ sampleTitleJson, metaFileID := 0 },
           fileID := 100 },
         { meta := some { buf := sampleURI ++ [LF, LF] ++ sampleNullJson, metaFileID := 0 },
           fileID := 101 }] sampleDB =
      Except.ok
        ([{ meta := some { buf := sampleURI ++ [0, LF] ++ sampleTitleJson, metaFileID := 2 },
            fileID := 100 },
          { meta := some { buf := sampleURI ++ [0, LF] ++ sampleNullJson, metaFileID := 3 },
            fileID := 101 }], sampleDB, -1, 1) ∧
    (sampleDB = sampleDB ∧
      ∃ sub0 sub,
        [({ meta := some { buf := sampleURI ++ [LF, LF] ++ sampleTitleJson, metaFileID := 0 },
            fileID := 100 } : EFSSubmission),
         { meta := some { buf := sampleURI ++ [LF, LF] ++ sampleNullJson, metaFileID := 0 },
           fileID := 101 }][1]? = some sub0 ∧
        [({ meta := some { buf := sampleURI ++ [0, LF] ++ sampleTitleJson, metaFileID := 2 },
            fileID := 100 } : EFSSubmission),
         { meta := some { buf := sampleURI ++ [0, LF] ++ sampleNullJson, metaFileID := 3 },
           fileID := 101 }][1]? = some sub ∧
        sub.fileID = sub0.fileID ∧
        ∀ r ∈ sampleDB, r.1.metaFileID ≠ EFSMetaFileGetID sub.meta) :=
  ⟨storeOK_sampleDB, by decide,
    ingest_atomicity sampleYajl sampleFts _ _ sampleDB sampleDB (-1) 1 storeOK_sampleDB
      (by decide) (by decide)⟩

/-! ## Sequences of ingests -/

theorem callbacks_error (fts : Bytes → List Bytes) (context : parser_context) (db : DB)
    (ev : Event) (a : Abort) (h : callbacks fts context db ev = Except.error a) :
    a ≠ Abort.assertPrimaryPut ∧ a ≠ Abort.assertFileIDPut ∧ a ≠ Abort.assertTargetURIPut := by
  obtain ⟨mid, uri, state, field⟩ := context
  cases ev <;> cases state <;> cases field <;>
    simp [callbacks, yajl_null, yajl_boolean, yajl_number, yajl_string, yajl_start_map,
      yajl_map_key, yajl_end_map, yajl_start_array, yajl_end_array] at h <;>
    subst h <;> decide

theorem yajl_deliver_error (fts : Bytes → List Bytes) (events : List Event)
    (context : parser_context) (db : DB) (a : Abort)
    (h : yajl_deliver fts events context db = Except.error a) :
    a ≠ Abort.assertPrimaryPut ∧ a ≠ Abort.assertFileIDPut ∧ a ≠ Abort.assertTargetURIPut := by
  induction events generalizing context db with
  | nil => simp [yajl_deliver] at h
  | cons ev rest ih =>
    unfold yajl_deliver at h
    cases hcb : callbacks fts context db ev with
    | error a1 =>
      rw [hcb] at h
      simp only [Except.error.injEq] at h
      subst h
      exact callbacks_error fts context db ev a1 hcb
    | ok r =>
      obtain ⟨b, c1, d1⟩ := r
      rw [hcb] at h
      cases b with
      | false => simp at h
      | true => exact ih c1 d1 h

theorem EFSMetaFileStore_error (yajl : Bytes → YajlRun) (fts : Bytes → List Bytes)
    (meta : EFSMetaFileRef) (fileID : Nat) (db : DB) (a : Abort) (hok : StoreOK db)
    (h : EFSMetaFileStore yajl fts meta fileID db = Except.error a) :
    a ≠ Abort.assertPrimaryPut ∧ a ≠ Abort.assertFileIDPut ∧ a ≠ Abort.assertTargetURIPut := by
  cases meta with
  | none => simp [EFSMetaFileStore] at h
  | some m =>
    cases hf : frame m.buf with
    | none =>
      rw [EFSMetaFileStore_reject yajl fts m fileID db (Or.inr hf)] at h
      cases h
    | some f =>
      by_cases hid : maxMetaFileID db + 1 < 2 ^ 64
      · rw [EFSMetaFileStore_accept yajl fts m f fileID db hf hok hid] at h
        cases hrun : yajl_deliver fts (yajl f.json).events
            { metaFileID := db_next_id db, targetURI := f.targetURI,
              state := parser_state.s_start, field := none }
            (db ++ metaFileRows (db_next_id db) fileID f.targetURI) with
        | error a1 =>
          rw [hrun] at h
          simp only [Except.error.injEq] at h
          subst h
          exact yajl_deliver_error fts _ _ _ a1 hrun
        | ok r =>
          obtain ⟨b, c1, d1⟩ := r
          rw [hrun] at h
          by_cases hc : (b && (yajl f.json).complete) = true
          · simp [hc] at h
          · simp [hc] at h
      · have hjson := frame_json_length m.buf f hf
        have hlen : ¬ m.len < 3 := by
          obtain ⟨i, -, hi, -, -, -⟩ := frame_some m.buf f hf
          have : min (URI_MAX + 1) (m.buf.length - 3) ≤ m.buf.length - 3 := min_le_right _ _
          unfold EFSMetaFile.len
          omega
        have hj0 : ¬ f.json.length = 0 := by omega
        unfold EFSMetaFileStore at h
        simp only [hlen, if_false, hf, hj0,
          add_metafile_exhausted db fileID f.targetURI hok hid, Except.error.injEq] at h
        subst h
        decide

theorem EFSMetaFileStore_total (yajl : Bytes → YajlRun) (fts : Bytes → List Bytes)
    (hsax : IsSaxParser yajl) (meta : EFSMetaFileRef) (fileID : Nat) (db : DB)
    (hok : StoreOK db) (hid : maxMetaFileID db + 1 < 2 ^ 64) :
    ∃ meta1 db1 err, EFSMetaFileStore yajl fts meta fileID db = Except.ok (meta1, db1, err) := by
  cases meta with
  | none => exact ⟨none, db, 0, rfl⟩
  | some m =>
    cases hf : frame m.buf with
    | none => exact ⟨_, _, _, EFSMetaFileStore_reject yajl fts m fileID db (Or.inr hf)⟩
    | some f =>
      obtain ⟨extra, err, h, -, -⟩ :=
        EFSMetaFileStore_accept_ok yajl fts hsax m f fileID db hf hok hid
      exact ⟨_, _, _, h⟩

theorem idsIncreasing_stored (db extra : DB) (fileID : Nat) (uri : Bytes)
    (hinc : IdsIncreasing db)
    (hextra : ∀ r ∈ extra, r.1.metaFileID = maxMetaFileID db + 1 ∧
      ∀ id1, r.1 ≠ Key.EFSMetaFileByID id1) :
    IdsIncreasing (db ++ metaFileRows (maxMetaFileID db + 1) fileID uri ++ extra) := by
  unfold IdsIncreasing
  rw [metaFileIDs_stored db extra _ fileID uri hextra]
  refine ⟨?_, ?_⟩
  · rw [List.pairwise_append]
    refine ⟨hinc.1, List.pairwise_singleton _ _, fun a ha b hb => ?_⟩
    have hle : a ≤ maxMetaFileID db := le_foldr_max _ _ ha
    simp only [List.mem_singleton] at hb
    omega
  · intro id hid
    rcases List.mem_append.mp hid with h | h
    · exact hinc.2 id h
    · simp only [List.mem_singleton] at h
      omega

theorem ingestAll_sound (yajl : Bytes → YajlRun) (fts : Bytes → List Bytes)
    (subs : List EFSSubmission) (db db1 : DB) (hok : StoreOK db) (hinc : IdsIncreasing db)
    (h : ingestAll yajl fts subs db = Except.ok db1) :
    ∃ written, metaFileIDs db1 = metaFileIDs db ++ written ∧ IdsIncreasing db1 := by
  induction subs generalizing db with
  | nil =>
    simp only [ingestAll, Except.ok.injEq] at h
    subst h
    exact ⟨[], by simp, hinc⟩
  | cons s rest ih =>
    unfold ingestAll at h
    cases hs : EFSMetaFileStore yajl fts s.meta s.fileID db with
    | error a => rw [hs] at h; cases h
    | ok r =>
      obtain ⟨m1, d1, e1⟩ := r
      rw [hs] at h
      simp only at h
      have hok1 := (EFSMetaFileStore_sound yajl fts _ _ _ _ _ _ hok hs).1
      rcases EFSMetaFileStore_result yajl fts _ _ _ _ _ _ hok hs with
        ⟨rfl, -⟩ | ⟨uri, extra, rfl, hextra, -, -, -⟩
      · exact ih d1 hok1 hinc h
      · obtain ⟨w, hw, hinc1⟩ :=
          ih _ hok1 (idsIncreasing_stored db extra s.fileID uri hinc hextra) h
        refine ⟨[maxMetaFileID db + 1] ++ w, ?_, hinc1⟩
        rw [hw, metaFileIDs_stored db extra _ s.fileID uri hextra, List.append_assoc]

theorem ingestAll_error (yajl : Bytes → YajlRun) (fts : Bytes → List Bytes)
    (subs : List EFSSubmission) (db : DB) (a : Abort) (hok : StoreOK db)
    (h : ingestAll yajl fts subs db = Except.error a) :
    a ≠ Abort.assertPrimaryPut ∧ a ≠ Abort.assertFileIDPut ∧ a ≠ Abort.assertTargetURIPut := by
  induction subs generalizing db with
  | nil => simp [ingestAll] at h
  | cons s rest ih =>
    unfold ingestAll at h
    cases hs : EFSMetaFileStore yajl fts s.meta s.fileID db with
    | error a1 =>
      rw [hs] at h
      simp only [Except.error.injEq] at h
      subst h
      exact EFSMetaFileStore_error yajl fts _ _ _ a1 hok hs
    | ok r =>
      obtain ⟨m1, d1, e1⟩ := r
      rw [hs] at h
      exact ih d1 (EFSMetaFileStore_sound yajl fts _ _ _ _ _ _ hok hs).1 h

theorem ingestAll_total (yajl : Bytes → YajlRun) (fts : Bytes → List Bytes)
    (hsax : IsSaxParser yajl) (subs : List EFSSubmission) (db : DB) (hok : StoreOK db)
    (hid : maxMetaFileID db + subs.length < 2 ^ 64) :
    ∃ db1, ingestAll yajl fts subs db = Except.ok db1 := by
  induction subs generalizing db with
  | nil => exact ⟨db, rfl⟩
  | cons s rest ih =>
    simp only [List.length_cons] at hid
    obtain ⟨m1, d1, e1, hs⟩ :=
      EFSMetaFileStore_total yajl fts hsax s.meta s.fileID db hok (by omega)
    have hok1 := (EFSMetaFileStore_sound yajl fts _ _ _ _ _ _ hok hs).1
    have hmax : maxMetaFileID d1 ≤ maxMetaFileID db + 1 := by
      rcases EFSMetaFileStore_result yajl fts _ _ _ _ _ _ hok hs with
        ⟨rfl, -⟩ | ⟨uri, extra, rfl, hextra, -, -, -⟩
      · omega
      · rw [maxMetaFileID_stored db extra _ s.fileID uri hextra (by omega)]
    obtain ⟨d2, h2⟩ := ih d1 hok1 (by omega)
    exact ⟨d2, by unfold ingestAll; rw [hs]; exact h2⟩

/-- C8: in a sound store whose primary keys were written in increasing order, none zero, any
sequence of ingests, failed ones included, keeps the keys written before and appends keys that
are not zero and each greater than all before it; an abort, if any, is never the assertion on
the put of the primary row (nor on the two other puts of `add_metafile`); and with a SAX parser
and ids left the sequence runs to its end. -/
theorem id_monotonicity (yajl : Bytes → YajlRun) (fts : Bytes → List Bytes)
    (subs : List EFSSubmission) (db : DB) (hok : StoreOK db) (hinc : IdsIncreasing db) :
    (∀ a, ingestAll yajl fts subs db = Except.error a →
      a ≠ Abort.assertPrimaryPut ∧ a ≠ Abort.assertFileIDPut ∧
        a ≠ Abort.assertTargetURIPut) ∧
    (∀ db1, ingestAll yajl fts subs db = Except.ok db1 →
      ∃ written, metaFileIDs db1 = metaFileIDs db ++ written ∧
        (metaFileIDs db1).Pairwise (fun a b => a < b) ∧ ∀ id ∈ metaFileIDs db1, id ≠ 0) ∧
    (IsSaxParser yajl → maxMetaFileID db + subs.length < 2 ^ 64 →
      ∃ db1, ingestAll yajl fts subs db = Except.ok db1) := by
  refine ⟨fun a h => ingestAll_error yajl fts subs db a hok h, fun db1 h => ?_,
    fun hsax hid => ingestAll_total yajl fts hsax subs db hok hid⟩
  obtain ⟨w, hw, hinc1⟩ := ingestAll_sound yajl fts subs db db1 hok hinc h
  exact ⟨w, hw, hinc1.1, hinc1.2⟩

theorem idsIncreasing_sampleDB : IdsIncreasing sampleDB := by
  unfold IdsIncreasing
  have h : metaFileIDs sampleDB = [1] := by decide
  rw [h]
  simp

theorem id_monotonicity_witness :
    StoreOK sampleDB ∧ IdsIncreasing sampleDB ∧
    (ingestAll sampleYajl sampleFts sampleSubs sampleDB).toOption.map metaFileIDs =
      some [1, 2, 3, 4] ∧
    (∀ a, ingestAll sampleYajl sampleFts sampleSubs sampleDB = Except.error a →
      a ≠ Abort.assertPrimaryPut ∧ a ≠ Abort.assertFileIDPut ∧
        a ≠ Abort.assertTargetURIPut) ∧
    (∀ db1, ingestAll sampleYajl sampleFts sampleSubs sampleDB = Except.ok db1 →
      ∃ written, metaFileIDs db1 = metaFileIDs sampleDB ++ written ∧
        (metaFileIDs db1).Pairwise (fun a b => a < b) ∧ ∀ id ∈ metaFileIDs db1, id ≠ 0) ∧
    (IsSaxParser sampleYajl → maxMetaFileID sampleDB + sampleSubs.length < 2 ^ 64 →
      ∃ db1, ingestAll sampleYajl sampleFts sampleSubs sampleDB = Except.ok db1) :=
  ⟨storeOK_sampleDB, idsIncreasing_sampleDB, by decide,
    id_monotonicity sampleYajl sampleFts sampleSubs sampleDB storeOK_sampleDB
      idsIncreasing_sampleDB⟩

/-! ## Keys of the store are never duplicated -/

theorem keys_nodup_db_put (db : DB) (key : Key) (val : Val) (h : (keys db).Nodup) :
    (keys (db_put db key val).1).Nodup := by
  unfold db_put
  by_cases hk : key ∈ List.map Prod.fst db
  · rw [if_pos hk]; exact h
  · rw [if_neg hk]
    have : keys (db ++ [(key, val)]) = keys db ++ [key] := by simp [keys]
    rw [this]
    exact List.Nodup.append h (List.nodup_singleton key)
      (by
        intro a ha hb
        simp only [List.mem_singleton] at hb
        subst hb
        exact hk ha)

theorem keys_nodup_add_metafile (db db1 : DB) (fileID id : Nat) (targetURI : Bytes)
    (h : (keys db).Nodup) (hadd : add_metafile db fileID targetURI = Except.ok (db1, id)) :
    (keys db1).Nodup := by
  unfold add_metafile at hadd
  simp only at hadd
  split_ifs at hadd
  simp only [Except.ok.injEq, Prod.mk.injEq] at hadd
  rw [← hadd.1]
  exact keys_nodup_db_put _ _ _ (keys_nodup_db_put _ _ _ (keys_nodup_db_put _ _ _ h))

theorem keys_nodup_add_metadata (db : DB) (metaFileID : Nat) (field value : Bytes)
    (h : (keys db).Nodup) : (keys (add_metadata db metaFileID field value)).Nodup := by
  unfold add_metadata
  by_cases hv : value.length = 0
  · rw [if_pos hv]; exact h
  · rw [if_neg hv]
    exact keys_nodup_db_put _ _ _ (keys_nodup_db_put _ _ _ h)

theorem keys_nodup_add_fulltext (fts : Bytes → List Bytes) (db : DB) (metaFileID : Nat)
    (str : Bytes) (h : (keys db).Nodup) :
    (keys (add_fulltext fts db metaFileID str)).Nodup := by
  unfold add_fulltext
  generalize fts str = tokens
  induction tokens generalizing db with
  | nil => exact h
  | cons t ts ih =>
    rw [List.foldl_cons]
    exact ih _ (keys_nodup_db_put _ _ _ h)

theorem keys_nodup_callbacks (fts : Bytes → List Bytes) (context context1 : parser_context)
    (db db1 : DB) (ev : Event) (b : Bool) (h : (keys db).Nodup)
    (hcb : callbacks fts context db ev = Except.ok (b, context1, db1)) :
    (keys db1).Nodup := by
  obtain ⟨mid, uri, state, field⟩ := context
  cases ev with
  | string str =>
    simp only [callbacks, yajl_string] at hcb
    cases state <;> simp only at hcb
    case s_field_value | s_field_array =>
      cases field with
      | none => simp at hcb
      | some f =>
        simp only [Except.ok.injEq, Prod.mk.injEq, if_true, reduceCtorEq, if_false] at hcb
        obtain ⟨-, -, rfl⟩ := hcb
        by_cases hf : fulltextField = f
        · rw [if_pos hf]; exact keys_nodup_add_fulltext fts db mid str h
        · rw [if_neg hf]; exact keys_nodup_add_metadata db mid f str h
    all_goals
      simp only [Except.ok.injEq, Prod.mk.injEq] at hcb
      obtain ⟨-, -, rfl⟩ := hcb
      exact h
  | _ =>
    simp only [callbacks, yajl_null, yajl_boolean, yajl_number, yajl_start_map, yajl_map_key,
      yajl_end_map, yajl_start_array, yajl_end_array] at hcb
    cases state <;> cases field <;> simp at hcb <;>
      (obtain ⟨-, -, rfl⟩ := hcb; exact h)

theorem keys_nodup_yajl_deliver (fts : Bytes → List Bytes) (events : List Event)
    (context context1 : parser_context) (db db1 : DB) (b : Bool) (h : (keys db).Nodup)
    (hrun : yajl_deliver fts events context db = Except.ok (b, context1, db1)) :
    (keys db1).Nodup := by
  induction events generalizing context db with
  | nil =>
    simp only [yajl_deliver, Except.ok.injEq, Prod.mk.injEq] at hrun
    obtain ⟨-, -, rfl⟩ := hrun
    exact h
  | cons ev rest ih =>
    unfold yajl_deliver at hrun
    cases hcb : callbacks fts context db ev with
    | error a => rw [hcb] at hrun; cases hrun
    | ok r =>
      obtain ⟨b1, c1, d1⟩ := r
      have h1 := keys_nodup_callbacks fts context c1 db d1 ev b1 h hcb
      rw [hcb] at hrun
      cases b1 with
      | false =>
        simp only [Except.ok.injEq, Prod.mk.injEq] at hrun
        obtain ⟨-, -, rfl⟩ := hrun
        exact h1
      | true => exact ih c1 d1 h1 hrun

theorem keys_nodup_EFSMetaFileStore (yajl : Bytes → YajlRun) (fts : Bytes → List Bytes)
    (meta meta1 : EFSMetaFileRef) (fileID : Nat) (db db1 : DB) (err : Int)
    (h : (keys db).Nodup)
    (hrun : EFSMetaFileStore yajl fts meta fileID db = Except.ok (meta1, db1, err)) :
    (keys db1).Nodup := by
  unfold EFSMetaFileStore at hrun
  cases meta with
  | none =>
    simp only [Except.ok.injEq, Prod.mk.injEq] at hrun
    rw [← hrun.2.1]; exact h
  | some m =>
    simp only at hrun
    split at hrun
    · simp only [Except.ok.injEq, Prod.mk.injEq] at hrun
      rw [← hrun.2.1]; exact h
    · split at hrun
      · simp only [Except.ok.injEq, Prod.mk.injEq] at hrun
        rw [← hrun.2.1]; exact h
      · rename_i f hf
        split at hrun
        · simp only [Except.ok.injEq, Prod.mk.injEq] at hrun
          rw [← hrun.2.1]; exact h
        · split at hrun
          · cases hrun
          · rename_i d1 id hadd
            have h1 := keys_nodup_add_metafile db d1 fileID id f.targetURI h hadd
            split at hrun
            · cases hrun
            · rename_i b c d2 hdel
              have h2 := keys_nodup_yajl_deliver fts _ _ c d1 d2 b h1 hdel
              split at hrun <;>
                (simp only [Except.ok.injEq, Prod.mk.injEq] at hrun
                 rw [← hrun.2.1]; exact h2)

/-! ## Ingesting a meta-file again -/

/-- C11: the same accepted body, buffered in two meta-file objects and stored one after the
other in a sound store with two ids left, gives two primary rows with the distinct ids max+1
and max+2, and the keys of the store stay without duplicates: for each id, no reverse row
(field, value, id) occurs twice. -/
theorem reingest_distinct_ids (yajl : Bytes → YajlRun) (fts : Bytes → List Bytes)
    (hsax : IsSaxParser yajl) (m1 m2 : EFSMetaFile) (f : Frame) (fileID1 fileID2 : Nat)
    (db : DB) (hbody : m2.buf = m1.buf) (hf : frame m1.buf = some f) (hok : StoreOK db)
    (hnodup : (keys db).Nodup) (hid : maxMetaFileID db + 2 < 2 ^ 64) :
    ∃ meta1 db1 err1 meta2 db2 err2,
      EFSMetaFileStore yajl fts (some m1) fileID1 db = Except.ok (meta1, db1, err1) ∧
      EFSMetaFileStore yajl fts (some m2) fileID2 db1 = Except.ok (meta2, db2, err2) ∧
      EFSMetaFileGetID meta1 = maxMetaFileID db + 1 ∧
      EFSMetaFileGetID meta2 = maxMetaFileID db + 2 ∧
      (Key.EFSMetaFileByID (maxMetaFileID db + 1), some (fileID1, f.targetURI)) ∈ db2 ∧
      (Key.EFSMetaFileByID (maxMetaFileID db + 2), some (fileID2, f.targetURI)) ∈ db2 ∧
      ∀ field value id,
        (keys db2).count (Key.EFSFieldValueAndMetaFileID field value id) ≤ 1 := by
  have hid1 : maxMetaFileID db + 1 < 2 ^ 64 := by omega
  have hnext1 := db_next_id_eq db hid1
  obtain ⟨extra1, err1, hres1, -, hrows1⟩ :=
    EFSMetaFileStore_accept_ok yajl fts hsax m1 f fileID1 db hf hok hid1
  rw [hnext1] at hres1 hrows1
  have hok1 := storeOK_stored db extra1 _ fileID1 f.targetURI hok hrows1 (by omega) hid1
  have hmax1 := maxMetaFileID_stored db extra1 _ fileID1 f.targetURI hrows1 (by omega)
  have hid2 : maxMetaFileID (db ++ metaFileRows (maxMetaFileID db + 1) fileID1 f.targetURI ++
      extra1) + 1 < 2 ^ 64 := by rw [hmax1]; omega
  have hnext2 := db_next_id_eq _ hid2
  obtain ⟨extra2, err2, hres2, -, hrows2⟩ :=
    EFSMetaFileStore_accept_ok yajl fts hsax m2 f fileID2 _ (by rw [hbody]; exact hf) hok1 hid2
  rw [hnext2, hmax1] at hres2
  have hn1 := keys_nodup_EFSMetaFileStore yajl fts _ _ _ _ _ _ hnodup hres1
  have hn2 := keys_nodup_EFSMetaFileStore yajl fts _ _ _ _ _ _ hn1 hres2
  refine ⟨_, _, _, _, _, _, hres1, hres2, rfl, rfl, ?_, ?_, ?_⟩
  · simp [metaFileRows]
  · simp [metaFileRows]
  · intro field value id
    exact List.nodup_iff_count_le_one.mp hn2 _

theorem reingest_distinct_ids_witness :
    IsSaxParser sampleYajl ∧
    frame (sampleURI ++ [LF, LF] ++ sampleTagJson) =
      some { buf := sampleURI ++ [0, LF] ++ sampleTagJson, targetURI := sampleURI,
             json := [LF] ++ sampleTagJson } ∧
    StoreOK sampleDB ∧ (keys sampleDB).Nodup ∧ maxMetaFileID sampleDB + 2 < 2 ^ 64 ∧
    ∃ meta1 db1 err1 meta2 db2 err2,
      EFSMetaFileStore sampleYajl sampleFts
        (some { buf := sampleURI ++ [LF, LF] ++ sampleTagJson, metaFileID := 0 }) 100
        sampleDB = Except.ok (meta1, db1, err1) ∧
      EFSMetaFileStore sampleYajl sampleFts
        (some { buf := sampleURI ++ [LF, LF] ++ sampleTagJson, metaFileID := 0 }) 100
        db1 = Except.ok (meta2, db2, err2) ∧
      EFSMetaFileGetID meta1 = maxMetaFileID sampleDB + 1 ∧
      EFSMetaFileGetID meta2 = maxMetaFileID sampleDB + 2 ∧
      (Key.EFSMetaFileByID (maxMetaFileID sampleDB + 1), some (100, sampleURI)) ∈ db2 ∧
      (Key.EFSMetaFileByID (maxMetaFileID sampleDB + 2), some (100, sampleURI)) ∈ db2 ∧
      ∀ field value id,
        (keys db2).count (Key.EFSFieldValueAndMetaFileID field value id) ≤ 1 :=
  ⟨sampleYajl_isSaxParser, by decide, storeOK_sampleDB, by decide, by decide,
    reingest_distinct_ids sampleYajl sampleFts sampleYajl_isSaxParser
      { buf := sampleURI ++ [LF, LF] ++ sampleTagJson, metaFileID := 0 }
      { buf := sampleURI ++ [LF, LF] ++ sampleTagJson, metaFileID := 0 }
      { buf := sampleURI ++ [0, LF] ++ sampleTagJson, targetURI := sampleURI,
        json := [LF] ++ sampleTagJson }
      100 100 sampleDB rfl (by decide) storeOK_sampleDB (by decide) (by decide)⟩

/-! ## Full-text routing -/

theorem foldl_put_terms_exact (tokens : List Bytes) (db : DB) (metaFileID : Nat) :
    ∃ extra, tokens.foldl
        (fun d token => (db_put d (Key.EFSTermMetaFileIDAndPosition token metaFileID 0) none).1)
        db = db ++ extra ∧ extra.Nodup ∧
      ∀ row, row ∈ extra ↔ ∃ t ∈ tokens,
        row = (Key.EFSTermMetaFileIDAndPosition t metaFileID 0, none) ∧
        Key.EFSTermMetaFileIDAndPosition t metaFileID 0 ∉ keys db := by
  induction tokens generalizing db with
  | nil => exact ⟨[], by simp, List.nodup_nil, by simp⟩
  | cons t ts ih =>
    rw [List.foldl_cons]
    by_cases hk : Key.EFSTermMetaFileIDAndPosition t metaFileID 0 ∈ keys db
    · rw [db_put_present db _ none hk]
      obtain ⟨extra, he, hn, hrows⟩ := ih db
      refine ⟨extra, he, hn, fun row => ?_⟩
      rw [hrows row]
      constructor
      · rintro ⟨t1, ht1, h1, h2⟩
        exact ⟨t1, List.mem_cons_of_mem _ ht1, h1, h2⟩
      · rintro ⟨t1, ht1, h1, h2⟩
        rcases List.mem_cons.mp ht1 with rfl | ht1
        · exact absurd hk h2
        · exact ⟨t1, ht1, h1, h2⟩
    · rw [db_put_fresh db _ none hk]
      obtain ⟨extra, he, hn, hrows⟩ :=
        ih (db ++ [(Key.EFSTermMetaFileIDAndPosition t metaFileID 0, none)])
      refine ⟨(Key.EFSTermMetaFileIDAndPosition t metaFileID 0, none) :: extra, ?_, ?_, ?_⟩
      · rw [he, List.append_assoc]; rfl
      · refine List.nodup_cons.mpr ⟨fun hmem => ?_, hn⟩
        obtain ⟨t1, -, h1, h2⟩ := (hrows _).mp hmem
        apply h2
        rw [mem_keys_append]
        right
        rw [← (Prod.mk.inj h1).1]
        simp [keys]
      · intro row
        rw [List.mem_cons, hrows row]
        constructor
        · rintro (rfl | ⟨t1, ht1, h1, h2⟩)
          · exact ⟨t, List.mem_cons_self _ _, rfl, hk⟩
          · refine ⟨t1, List.mem_cons_of_mem _ ht1, h1, fun h => h2 ?_⟩
            rw [mem_keys_append]; exact Or.inl h
        · rintro ⟨t1, ht1, h1, h2⟩
          by_cases ht : t1 = t
          · left; rw [h1, ht]
          · right
            rcases List.mem_cons.mp ht1 with rfl | ht1
            · exact absurd rfl ht
            · refine ⟨t1, ht1, h1, fun h => ?_⟩
              rw [mem_keys_append] at h
              rcases h with h | h
              · exact h2 h
              · simp [keys] at h
                exact ht h

/-- C12 (amended): a string value v delivered while the state is `s_field_value` or
`s_field_array`. When the current field is fulltext, the callback returns true and adds, after
the rows of the store, exactly one row (t, mid, 0) for each token t of v whose row was not yet
in the store, and nothing else: the position is 0, a token met twice or already stored adds
nothing, and no forward or reverse row is added. When the current field is another name, the
store gains no term row. -/
theorem fulltext_routing (fts : Bytes → List Bytes) (context : parser_context) (db : DB)
    (v : Bytes)
    (hstate : context.state = parser_state.s_field_value ∨
      context.state = parser_state.s_field_array) :
    (context.field = some fulltextField →
      ∃ context1 extra,
        callbacks fts context db (Event.string v) = Except.ok (true, context1, db ++ extra) ∧
        extra.Nodup ∧
        ∀ row, row ∈ extra ↔ ∃ t ∈ fts v,
          row = (Key.EFSTermMetaFileIDAndPosition t context.metaFileID 0, none) ∧
          Key.EFSTermMetaFileIDAndPosition t context.metaFileID 0 ∉ keys db) ∧
    (∀ field, context.field = some field → field ≠ fulltextField →
      ∃ context1 db1,
        callbacks fts context db (Event.string v) = Except.ok (true, context1, db1) ∧
        ∀ t id p, Key.EFSTermMetaFileIDAndPosition t id p ∈ keys db1 ↔
          Key.EFSTermMetaFileIDAndPosition t id p ∈ keys db) := by
  obtain ⟨mid, uri, state, field⟩ := context
  simp only at hstate
  constructor
  · intro hfield
    simp only at hfield
    subst hfield
    obtain ⟨extra, he, hn, hrows⟩ := foldl_put_terms_exact (fts v) db mid
    rcases hstate with rfl | rfl
    · exact ⟨{ metaFileID := mid, targetURI := uri, state := parser_state.s_top,
                field := none }, extra,
        by simp only [callbacks, yajl_string, if_true, add_fulltext, he], hn, hrows⟩
    · exact ⟨{ metaFileID := mid, targetURI := uri, state := parser_state.s_field_array,
                field := some fulltextField }, extra,
        by simp only [callbacks, yajl_string, if_true, add_fulltext, he, reduceCtorEq, if_false],
        hn, hrows⟩
  · intro f hfield hne
    simp only at hfield
    subst hfield
    have hne1 : ¬ fulltextField = f := fun h => hne h.symm
    have hkeys : ∀ t id p,
        Key.EFSTermMetaFileIDAndPosition t id p ∈ keys (add_metadata db mid f v) ↔
          Key.EFSTermMetaFileIDAndPosition t id p ∈ keys db := by
      intro t id p
      rw [mem_keys_add_metadata_iff]
      simp
    rcases hstate with rfl | rfl
    · exact ⟨{ metaFileID := mid, targetURI := uri, state := parser_state.s_top,
                field := none }, add_metadata db mid f v,
        by simp only [callbacks, yajl_string, hne1, if_false, if_true], hkeys⟩
    · exact ⟨{ metaFileID := mid, targetURI := uri, state := parser_state.s_field_array,
                field := some f }, add_metadata db mid f v,
        by simp only [callbacks, yajl_string, hne1, if_false, reduceCtorEq], hkeys⟩

theorem fulltext_routing_witness :
    (parser_state.s_field_array = parser_state.s_field_value ∨
      parser_state.s_field_array = parser_state.s_field_array) ∧
    sampleFts [97, 32, 98] = [[97], [98]] ∧
    (∃ context1 extra,
        callbacks sampleFts
          { metaFileID := 1, targetURI := sampleURI, state := parser_state.s_field_array,
            field := some fulltextField } (metaFileRows 1 100 sampleURI)
          (Event.string [97, 32, 98]) =
            Except.ok (true, context1, metaFileRows 1 100 sampleURI ++ extra) ∧
        extra.Nodup ∧
        ∀ row, row ∈ extra ↔ ∃ t ∈ sampleFts [97, 32, 98],
          row = (Key.EFSTermMetaFileIDAndPosition t 1 0, none) ∧
          Key.EFSTermMetaFileIDAndPosition t 1 0 ∉ keys (metaFileRows 1 100 sampleURI)) :=
  ⟨Or.inr rfl, by decide,
    (fulltext_routing sampleFts
      { metaFileID := 1, targetURI := sampleURI, state := parser_state.s_field_array,
        field := some fulltextField } (metaFileRows 1 100 sampleURI) [97, 32, 98]
      (Or.inr rfl)).1 rfl⟩

/-- C12 (counterexample): the meta-file whose JSON is the object with the member fulltext, an
array of the two texts "a b" and "b c", stored in the empty store as meta-file 1 with the
sample tokenizer. The second text is delivered while the current field is fulltext and has the
two distinct tokens b and c, yet the store gains one row for it, (c, 1, 0): the row (b, 1, 0)
is there from the first text. The whole meta-file leaves three term rows, not four. -/
theorem fulltext_routing_counterexample :
    sampleFts [98, 32, 99] = [[98], [99]] ∧
    callbacks sampleFts
        { metaFileID := 1, targetURI := sampleURI, state := parser_state.s_field_array,
          field := some fulltextField }
        (metaFileRows 1 100 sampleURI ++
          [(Key.EFSTermMetaFileIDAndPosition [97] 1 0, none),
           (Key.EFSTermMetaFileIDAndPosition [98] 1 0, none)])
        (Event.string [98, 32, 99]) =
      Except.ok (true,
        { metaFileID := 1, targetURI := sampleURI, state := parser_state.s_field_array,
          field := some fulltextField },
        (metaFileRows 1 100 sampleURI ++
          [(Key.EFSTermMetaFileIDAndPosition [97] 1 0, none),
           (Key.EFSTermMetaFileIDAndPosition [98] 1 0, none)]) ++
          [(Key.EFSTermMetaFileIDAndPosition [99] 1 0, none)]) ∧
    EFSMetaFileStore sampleYajlFulltext sampleFts
        (some { buf := sampleURI ++ [LF, LF] ++ sampleFulltextArrayJson, metaFileID := 0 })
        100 [] =
      Except.ok
        (some { buf := sampleURI ++ [0, LF] ++ sampleFulltextArrayJson, metaFileID := 1 },
         metaFileRows 1 100 sampleURI ++
          [(Key.EFSTermMetaFileIDAndPosition [97] 1 0, none),
           (Key.EFSTermMetaFileIDAndPosition [98] 1 0, none),
           (Key.EFSTermMetaFileIDAndPosition [99] 1 0, none)], 0) := by
  decide

theorem take_take_append (l r : Bytes) (n : Nat) :
    (l.take n ++ r).take n = (l ++ r).take n := by
  by_cases h : n ≤ l.length
  · rw [List.take_append_of_le_length (by simp [h]), List.take_take, min_self,
      List.take_append_of_le_length h]
  · have hl : l.take n = l := List.take_of_length_le (by omega)
    rw [hl]

theorem EFSMetaFileWrite_eq (m : EFSMetaFile) (b : Bytes) (hlen : m.len ≤ META_MAX) :
    EFSMetaFileWrite (some m) b =
      (some { buf := (m.buf ++ b).take META_MAX, metaFileID := m.metaFileID }, 0) := by
  simp only [EFSMetaFileWrite]
  unfold EFSMetaFile.len at hlen ⊢
  by_cases hfull : m.buf.length ≥ META_MAX
  · rw [if_pos hfull]
    have : (m.buf ++ b).take META_MAX = m.buf := by
      rw [List.take_append_of_le_length hfull, List.take_of_length_le hlen]
    rw [this]
  · rw [if_neg hfull]
    have hbuf : m.buf.take META_MAX = m.buf := List.take_of_length_le (by omega)
    have : (m.buf ++ b).take META_MAX =
        m.buf ++ b.take (min (META_MAX - m.buf.length) b.length) := by
      rw [List.take_append_eq_append_take, hbuf]
      congr 1
      rw [← List.take_take, List.take_length]
    rw [this]

theorem writeAll_eq (bs : List Bytes) (m : EFSMetaFile) (hlen : m.len ≤ META_MAX) :
    writeAll (some m) bs =
      (some { buf := (m.buf ++ bs.flatten).take META_MAX, metaFileID := m.metaFileID },
       List.replicate bs.length 0) := by
  induction bs generalizing m with
  | nil =>
    have : (m.buf ++ ([] : List Bytes).flatten).take META_MAX = m.buf := by
      simp only [List.flatten_nil, List.append_nil]
      exact List.take_of_length_le hlen
    simp only [writeAll, this, List.length_nil, List.replicate_zero]
  | cons b rest ih =>
    unfold writeAll
    rw [EFSMetaFileWrite_eq m b hlen]
    simp only
    rw [ih _ (by simp [EFSMetaFile.len, List.length_take])]
    simp only [take_take_append, List.flatten_cons, List.append_assoc, List.length_cons,
      List.replicate_succ]

/-- C14: `EFSMetaFileWrite` caps the buffered body at `META_MAX` = 102400 bytes. After any
sequence of writes b1..bn to a new meta-file the buffer holds the first min(102400, total)
bytes of b1 ++ ... ++ bn, so its length never exceeds 102400; every call returns 0; and a
write to a full buffer changes nothing. -/
theorem write_caps_at_meta_max (bs : List Bytes) :
    META_MAX = 102400 ∧
    writeAll (EFSMetaFileCreate true) bs =
      (some { buf := bs.flatten.take (min 102400 bs.flatten.length), metaFileID := 0 },
       List.replicate bs.length 0) ∧
    (bs.flatten.take (min 102400 bs.flatten.length)).length = min 102400 bs.flatten.length ∧
    (bs.flatten.take (min 102400 bs.flatten.length)).length ≤ 102400 ∧
    (∀ (m : EFSMetaFile) (b : Bytes), m.len ≥ META_MAX →
      EFSMetaFileWrite (some m) b = (some m, 0)) := by
  have hmin : bs.flatten.take (min 102400 bs.flatten.length) = bs.flatten.take META_MAX := by
    rw [← List.take_take, List.take_length]
    rfl
  refine ⟨rfl, ?_, ?_, ?_, ?_⟩
  · have h := writeAll_eq bs { buf := [], metaFileID := 0 } (by simp [EFSMetaFile.len])
    simp only [List.nil_append] at h
    rw [hmin]
    exact h
  · simp [List.length_take]
  · simp [List.length_take]
  · intro m b hfull
    simp only [EFSMetaFileWrite]
    rw [if_pos hfull]

theorem full_buffer_len :
    ({ buf := List.replicate 102400 65, metaFileID := 0 } : EFSMetaFile).len ≥ META_MAX := by
  unfold EFSMetaFile.len META_MAX
  rw [List.length_replicate]

theorem write_caps_at_meta_max_witness :
    writeAll (EFSMetaFileCreate true) [[1, 2], [], [3]] =
      (some { buf := [1, 2, 3], metaFileID := 0 }, [0, 0, 0]) ∧
    ({ buf := List.replicate 102400 65, metaFileID := 0 } : EFSMetaFile).len ≥ META_MAX ∧
    EFSMetaFileWrite (some { buf := List.replicate 102400 65, metaFileID := 0 }) [66] =
      (some { buf := List.replicate 102400 65, metaFileID := 0 }, 0) :=
  ⟨(write_caps_at_meta_max [[1, 2], [], [3]]).2.1, full_buffer_len,
    (write_caps_at_meta_max []).2.2.2.2 { buf := List.replicate 102400 65, metaFileID := 0 }
      [66] full_buffer_len⟩

/-! ## The pull ring: the invariant -/

theorem import_cases {υ σ : Type} (EFSParseURI : υ → Bool) (EFSSessionGetFileInfo : υ → Int)
    (fetch : υ → Option (Option σ × Option σ)) (pull : EFSPull σ) (URI : Option υ)
    (pos : Nat) :
    import_ EFSParseURI EFSSessionGetFileInfo fetch pull URI pos = (pull, -1) ∨
    ∃ sub meta,
      import_ EFSParseURI EFSSessionGetFileInfo fetch pull URI pos =
        enqueue pull pos sub meta := by
  unfold import_
  cases URI with
  | none => exact Or.inr ⟨none, none, rfl⟩
  | some uri =>
    simp only
    by_cases h1 : (!EFSParseURI uri) = true
    · rw [if_pos h1]; exact Or.inr ⟨none, none, rfl⟩
    · rw [if_neg h1]
      by_cases h2 : EFSSessionGetFileInfo uri ≥ 0
      · rw [if_pos h2]; exact Or.inr ⟨none, none, rfl⟩
      · rw [if_neg h2]
        cases fetch uri with
        | none => exact Or.inl rfl
        | some p =>
          obtain ⟨sub, meta⟩ := p
          simp only
          by_cases h3 : pull.stop = true
          · rw [if_pos h3]; exact Or.inl rfl
          · rw [if_neg h3]; exact Or.inr ⟨sub, meta, rfl⟩

theorem pullInv_start {υ σ : Type} (stream : List υ) :
    PullInv stream (PullSystem.start υ σ) where
  count_nonneg := by simp [PullSystem.start, EFSRepoCreatePull]
  count_le := by simp [PullSystem.start, EFSRepoCreatePull]
  cur_eq := by simp [PullSystem.start, EFSRepoCreatePull]
  total := by simp [PullSystem.start, EFSRepoCreatePull]
  next_le := by simp [PullSystem.start]
  filled_in_window := by simp [PullSystem.start, EFSRepoCreatePull]
  reader_ok := by simp [PullSystem.start]
  reader_inj := by simp [PullSystem.start]
  line_done := by simp [PullSystem.start]
  enqueued_lt := by simp [PullSystem.start]
  taken_eq := by simp [PullSystem.start, List.reduceOption]
  skipped_eq := by simp [PullSystem.start]
  stop_false := by simp [PullSystem.start, EFSRepoCreatePull]

theorem pullInv_take {υ σ : Type} (stream : List υ) (EFSParseURI : υ → Bool)
    (s : PullSystem υ σ) (hinv : PullInv stream s) :
    PullInv stream (step stream EFSParseURI s Action.take) := by
  by_cases hf : s.pull.filled s.pull.cur = true
  swap
  · have : step stream EFSParseURI s Action.take = s := by
      simp [step, writer_take, hf]
    rw [this]; exact hinv
  obtain ⟨j, hj1, hj2, hj3, hj4, hj5⟩ := hinv.filled_in_window _ hf
  have hcur := hinv.cur_eq
  have hle := hinv.count_le
  have hge := hinv.count_nonneg
  have hjadv : j = s.advanced := by omega
  subst hjadv
  have hreader : ∀ r loc, s.readers r = some loc → s.advanced + 1 ≤ 2 * loc.line := by
    intro r loc hr
    obtain ⟨h1, h2, h3, h4, -⟩ := hinv.reader_ok r loc hr
    by_contra hlt
    have : loc.pos % 32 = s.pull.cur := by omega
    rw [this, hf] at h4
    cases h4
  have hwin : ∀ slot, (setAt s.pull.filled s.pull.cur false) slot = true →
      ∃ j, s.advanced + 1 ≤ j ∧ (j : Int) < s.advanced + s.pull.count ∧ slot = j % 32 ∧
        s.enqueued (j / 2) ≠ none ∧
        (setAt s.pull.queue s.pull.cur none) slot = slotOf s.enqueued j := by
    intro slot hslot
    unfold setAt at hslot ⊢
    by_cases hsc : slot = s.pull.cur
    · simp [hsc] at hslot
    · rw [if_neg hsc] at hslot ⊢
      obtain ⟨j, h1, h2, h3, h4, h5⟩ := hinv.filled_in_window slot hslot
      refine ⟨j, ?_, h2, h3, h4, h5⟩
      by_contra hlt
      have : j = s.advanced := by omega
      subst this
      exact hsc (by omega)
  have hreaders : ∀ r loc, s.readers r = some loc →
      s.advanced + 1 ≤ 2 * loc.line ∧
      ((2 * loc.line + 1 : Nat) : Int) < s.advanced + s.pull.count ∧
      loc.pos = (2 * loc.line) % 32 ∧
      (setAt s.pull.filled s.pull.cur false) (loc.pos % 32) = false ∧
      (setAt s.pull.filled s.pull.cur false) ((loc.pos + 1) % 32) = false ∧
      s.enqueued loc.line = none ∧ stream[loc.line]? = some loc.URI := by
    intro r loc hr
    obtain ⟨h1, h2, h3, h4, h5, h6, h7⟩ := hinv.reader_ok r loc hr
    refine ⟨hreader r loc hr, h2, h3, ?_, ?_, h6, h7⟩
    · unfold setAt; split_ifs
      · rfl
      · exact h4
    · unfold setAt; split_ifs
      · rfl
      · exact h5
  have hrange : ((List.range (s.advanced + 1)).map (slotOf s.enqueued)).reduceOption =
      s.taken ++ (s.pull.queue s.pull.cur).toList := by
    rw [List.range_succ, List.map_append, List.reduceOption_append, ← hinv.taken_eq, hj5]
    simp only [List.map_cons, List.map_nil]
    cases slotOf s.enqueued s.advanced <;> rfl
  cases hq : s.pull.queue s.pull.cur with
  | none =>
    have hstep : step stream EFSParseURI s Action.take =
        ⟨⟨s.pull.stop, setAt s.pull.queue s.pull.cur none,
            setAt s.pull.filled s.pull.cur false, (s.pull.cur + 1) % QUEUE_SIZE,
            s.pull.count - 1⟩,
          s.readers, s.next, s.taken, s.skipped + 1, s.advanced + 1, s.enqueued⟩ := by
      simp [step, writer_take, hf, hq]
    rw [hstep]
    rw [hq] at hrange
    exact {
      count_nonneg := by simp only; omega
      count_le := by simp only; omega
      cur_eq := by simp only [QUEUE_SIZE]; omega
      total := by have := hinv.total; simp only; push_cast; omega
      next_le := hinv.next_le
      filled_in_window := by
        intro slot hslot
        obtain ⟨j, h1, h2, h3, h4, h5⟩ := hwin slot hslot
        exact ⟨j, h1, by simp only; push_cast; omega, h3, h4, h5⟩
      reader_ok := by
        intro r loc hr
        obtain ⟨h1, h2, h3, h4, h5, h6, h7⟩ := hreaders r loc hr
        exact ⟨h1, by simp only; push_cast; omega, h3, h4, h5, h6, h7⟩
      reader_inj := hinv.reader_inj
      line_done := hinv.line_done
      enqueued_lt := hinv.enqueued_lt
      taken_eq := by simp only; rw [hrange]; simp
      skipped_eq := by have := hinv.skipped_eq; simp only; omega
      stop_false := hinv.stop_false }
  | some sub =>
    have hstep : step stream EFSParseURI s Action.take =
        ⟨⟨s.pull.stop, setAt s.pull.queue s.pull.cur none,
            setAt s.pull.filled s.pull.cur false, (s.pull.cur + 1) % QUEUE_SIZE,
            s.pull.count - 1⟩,
          s.readers, s.next, s.taken ++ [sub], s.skipped, s.advanced + 1, s.enqueued⟩ := by
      simp [step, writer_take, hf, hq]
    rw [hstep]
    rw [hq] at hrange
    exact {
      count_nonneg := by simp only; omega
      count_le := by simp only; omega
      cur_eq := by simp only [QUEUE_SIZE]; omega
      total := by have := hinv.total; simp only; push_cast; omega
      next_le := hinv.next_le
      filled_in_window := by
        intro slot hslot
        obtain ⟨j, h1, h2, h3, h4, h5⟩ := hwin slot hslot
        exact ⟨j, h1, by simp only; push_cast; omega, h3, h4, h5⟩
      reader_ok := by
        intro r loc hr
        obtain ⟨h1, h2, h3, h4, h5, h6, h7⟩ := hreaders r loc hr
        exact ⟨h1, by simp only; push_cast; omega, h3, h4, h5, h6, h7⟩
      reader_inj := hinv.reader_inj
      line_done := hinv.line_done
      enqueued_lt := hinv.enqueued_lt
      taken_eq := by simp only; rw [hrange]; rfl
      skipped_eq := by
        have := hinv.skipped_eq
        simp only [List.length_append, List.length_singleton]; omega
      stop_false := hinv.stop_false }

theorem pullInv_read {υ σ : Type} (stream : List υ) (EFSParseURI : υ → Bool)
    (s : PullSystem υ σ) (hinv : PullInv stream s) (r : Nat) :
    PullInv stream (step stream EFSParseURI s (Action.read r : Action σ)) := by
  cases hr : s.readers r with
  | some loc =>
    have : step stream EFSParseURI s (Action.read r : Action σ) = s := by
      simp [step, hr]
    rw [this]; exact hinv
  | none =>
    cases hline : stream[s.next]? with
    | none =>
      have : step stream EFSParseURI s (Action.read r : Action σ) = s := by
        simp [step, hr, hline]
      rw [this]; exact hinv
    | some uri =>
      by_cases hfull : s.pull.count + 2 > (QUEUE_SIZE : Int)
      · have : step stream EFSParseURI s (Action.read r : Action σ) = s := by
          simp [step, hr, hline, reader_reserve, hfull]
        rw [this]; exact hinv
      · have hstep : step stream EFSParseURI s (Action.read r : Action σ) =
            ⟨⟨s.pull.stop, s.pull.queue, s.pull.filled, s.pull.cur, s.pull.count + 2⟩,
              setAt s.readers r (some ⟨uri,
                (((s.pull.cur : Int) + s.pull.count) % QUEUE_SIZE).toNat, s.next⟩),
              s.next + 1, s.taken, s.skipped, s.advanced, s.enqueued⟩ := by
          simp [step, hr, hline, reader_reserve, hfull]
        rw [hstep]
        have hge := hinv.count_nonneg
        have hcur := hinv.cur_eq
        have htotal := hinv.total
        have hq : (QUEUE_SIZE : Int) = 32 := rfl
        rw [hq] at hfull
        have hnext : s.next < stream.length := by
          by_contra hlt
          rw [List.getElem?_eq_none (by omega)] at hline
          cases hline
        have hpos : (((s.pull.cur : Int) + s.pull.count) % QUEUE_SIZE).toNat =
            (2 * s.next) % 32 := by
          rw [hq]; omega
        have hlines : ∀ r1 loc1, s.readers r1 = some loc1 → loc1.line < s.next := by
          intro r1 loc1 h1
          obtain ⟨-, h2, -⟩ := hinv.reader_ok r1 loc1 h1
          push_cast at h2
          omega
        exact {
          count_nonneg := by simp only; omega
          count_le := by simp only; omega
          cur_eq := hinv.cur_eq
          total := by simp only; push_cast; omega
          next_le := by simp only; omega
          filled_in_window := by
            intro slot hslot
            obtain ⟨j, h1, h2, h3, h4, h5⟩ := hinv.filled_in_window slot hslot
            exact ⟨j, h1, by simp only; omega, h3, h4, h5⟩
          reader_ok := by
            intro r1 loc1 h1
            simp only [setAt] at h1
            by_cases hr1 : r1 = r
            · rw [if_pos hr1] at h1
              cases h1
              simp only
              refine ⟨by omega, by push_cast; omega, hpos, ?_, ?_, ?_, hline⟩
              · by_contra hfilled
                have hfilled1 : s.pull.filled
                    ((((s.pull.cur : Int) + s.pull.count) % QUEUE_SIZE).toNat % 32) = true := by
                  simpa using hfilled
                obtain ⟨j, h2, h3, h4, -⟩ := hinv.filled_in_window _ hfilled1
                rw [hpos] at h4
                omega
              · by_contra hfilled
                have hfilled1 : s.pull.filled
                    (((((s.pull.cur : Int) + s.pull.count) % QUEUE_SIZE).toNat + 1) % 32) =
                      true := by
                  simpa using hfilled
                obtain ⟨j, h2, h3, h4, -⟩ := hinv.filled_in_window _ hfilled1
                rw [hpos] at h4
                omega
              · by_contra hne
                have := hinv.enqueued_lt s.next hne
                omega
            · rw [if_neg hr1] at h1
              obtain ⟨h2, h3, h4, h5, h6, h7, h8⟩ := hinv.reader_ok r1 loc1 h1
              exact ⟨h2, by simp only; omega, h4, h5, h6, h7, h8⟩
          reader_inj := by
            intro r1 r2 loc1 loc2 h1 h2 hl
            simp only [setAt] at h1 h2
            by_cases hr1 : r1 = r
            · by_cases hr2 : r2 = r
              · rw [hr1, hr2]
              · rw [if_pos hr1] at h1
                rw [if_neg hr2] at h2
                cases h1
                have := hlines r2 loc2 h2
                simp only at hl
                omega
            · by_cases hr2 : r2 = r
              · rw [if_neg hr1] at h1
                rw [if_pos hr2] at h2
                cases h2
                have := hlines r1 loc1 h1
                simp only at hl
                omega
              · rw [if_neg hr1] at h1
                rw [if_neg hr2] at h2
                exact hinv.reader_inj r1 r2 loc1 loc2 h1 h2 hl
          line_done := by
            intro l hl
            simp only at hl ⊢
            by_cases hln : l = s.next
            · right
              exact ⟨r, ⟨uri, (((s.pull.cur : Int) + s.pull.count) % QUEUE_SIZE).toNat,
                s.next⟩, by simp [setAt], hln.symm⟩
            · rcases hinv.line_done l (by omega) with h | ⟨r1, loc1, h1, h2⟩
              · exact Or.inl h
              · right
                refine ⟨r1, loc1, ?_, h2⟩
                have hr1 : r1 ≠ r := by
                  rintro rfl
                  rw [hr] at h1
                  cases h1
                simp [setAt, hr1, h1]
          enqueued_lt := by
            intro l hl
            have := hinv.enqueued_lt l hl
            simp only
            omega
          taken_eq := hinv.taken_eq
          skipped_eq := hinv.skipped_eq
          stop_false := hinv.stop_false }

theorem enqueue_queue {σ : Type} (pull : EFSPull σ) (pos : Nat) (sub meta : Option σ) :
    (enqueue pull pos sub meta).1.queue (pos % 32) = sub ∧
    (enqueue pull pos sub meta).1.queue ((pos + 1) % 32) = meta ∧
    (∀ slot, slot ≠ pos % 32 → slot ≠ (pos + 1) % 32 →
      (enqueue pull pos sub meta).1.queue slot = pull.queue slot) := by
  have hne : pos % 32 ≠ (pos + 1) % 32 := by omega
  refine ⟨?_, ?_, ?_⟩
  · simp [enqueue, setAt, QUEUE_SIZE, hne]
  · simp [enqueue, setAt, QUEUE_SIZE]
  · intro slot h0 h1
    simp [enqueue, setAt, QUEUE_SIZE, h0, h1]

theorem enqueue_filled {σ : Type} (pull : EFSPull σ) (pos : Nat) (sub meta : Option σ)
    (slot : Nat) :
    (enqueue pull pos sub meta).1.filled slot =
      if slot = pos % 32 ∨ slot = (pos + 1) % 32 then true else pull.filled slot := by
  simp only [enqueue, setAt, QUEUE_SIZE, Nat.add_zero]
  by_cases h1 : slot = (pos + 1) % 32
  · simp [h1]
  · by_cases h0 : slot = pos % 32
    · simp [h0]
    · simp [h0, h1]

theorem enqueue_rest {σ : Type} (pull : EFSPull σ) (pos : Nat) (sub meta : Option σ) :
    (enqueue pull pos sub meta).1.cur = pull.cur ∧
    (enqueue pull pos sub meta).1.count = pull.count ∧
    (enqueue pull pos sub meta).1.stop = pull.stop ∧ (enqueue pull pos sub meta).2 = 0 :=
  ⟨rfl, rfl, rfl, rfl⟩

theorem slotOf_setAt_of_ne {σ : Type} (enqueued : Nat → Option (Option σ × Option σ))
    (l j : Nat) (p : Option (Option σ × Option σ)) (h : j / 2 ≠ l) :
    slotOf (setAt enqueued l p) j = slotOf enqueued j := by
  simp [slotOf, setAt, h]

theorem pullInv_import {υ σ : Type} (stream : List υ) (EFSParseURI : υ → Bool)
    (s : PullSystem υ σ) (hinv : PullInv stream s) (r : Nat) (info : Int)
    (fetched : Option (Option σ × Option σ)) :
    PullInv stream (step stream EFSParseURI s (Action.call_import r info fetched)) := by
  cases hr : s.readers r with
  | none =>
    have : step stream EFSParseURI s (Action.call_import r info fetched) = s := by
      simp [step, hr]
    rw [this]; exact hinv
  | some loc =>
    rcases import_cases EFSParseURI (fun _ => info) (fun _ => fetched) s.pull (some loc.URI)
      loc.pos with hres | ⟨sub, meta, hres⟩
    · have : step stream EFSParseURI s (Action.call_import r info fetched) = s := by
        simp [step, hr, hres]
      rw [this]; exact hinv
    · obtain ⟨hq0, hq1, hqo⟩ := enqueue_queue s.pull loc.pos sub meta
      have hfl := enqueue_filled s.pull loc.pos sub meta
      obtain ⟨hcur', hcount', hstop', hret⟩ := enqueue_rest s.pull loc.pos sub meta
      have hstep : step stream EFSParseURI s (Action.call_import r info fetched) =
          ⟨(enqueue s.pull loc.pos sub meta).1, setAt s.readers r none, s.next, s.taken,
            s.skipped, s.advanced, setAt s.enqueued loc.line (some (sub, meta))⟩ := by
        simp only [step, hr, hres, hret, ge_iff_le, le_refl, if_true, QUEUE_SIZE, hq0, hq1]
      rw [hstep]
      obtain ⟨hl1, hl2, hl3, hl4, hl5, hl6, hl7⟩ := hinv.reader_ok r loc hr
      have hle := hinv.count_le
      have hge := hinv.count_nonneg
      push_cast at hl2
      exact {
        count_nonneg := by simp only [hcount']; exact hge
        count_le := by simp only [hcount']; exact hle
        cur_eq := by simp only [hcur']; exact hinv.cur_eq
        total := by simp only [hcount']; exact hinv.total
        next_le := hinv.next_le
        filled_in_window := by
          intro slot hslot
          simp only at hslot ⊢
          rw [hfl] at hslot
          rw [hcount']
          by_cases h0 : slot = loc.pos % 32
          · refine ⟨2 * loc.line, hl1, by omega, by omega, ?_, ?_⟩
            · have : 2 * loc.line / 2 = loc.line := by omega
              simp [setAt, this]
            · have h2 : 2 * loc.line / 2 = loc.line := by omega
              have h3 : 2 * loc.line % 2 = 0 := by omega
              rw [h0, hq0]
              simp [slotOf, setAt, h2, h3]
          · by_cases h1 : slot = (loc.pos + 1) % 32
            · refine ⟨2 * loc.line + 1, by omega, by push_cast; omega, by omega, ?_, ?_⟩
              · have : (2 * loc.line + 1) / 2 = loc.line := by omega
                simp [setAt, this]
              · have h2 : (2 * loc.line + 1) / 2 = loc.line := by omega
                have h3 : ¬ (2 * loc.line + 1) % 2 = 0 := by omega
                rw [h1, hq1]
                simp [slotOf, setAt, h2, h3]
            · simp only [h0, h1, or_self, if_false] at hslot
              obtain ⟨j, h2, h3, h4, h5, h6⟩ := hinv.filled_in_window slot hslot
              have hjl : j / 2 ≠ loc.line := by
                intro hjl
                rcases Nat.even_or_odd' j with ⟨k, hk | hk⟩
                · exact h0 (by omega)
                · exact h1 (by omega)
              refine ⟨j, h2, h3, h4, ?_, ?_⟩
              · simpa [setAt, hjl] using h5
              · rw [hqo slot h0 h1, slotOf_setAt_of_ne _ _ _ _ hjl]
                exact h6
        reader_ok := by
          intro r1 loc1 h1
          simp only [setAt] at h1
          by_cases hr1 : r1 = r
          · rw [if_pos hr1] at h1; cases h1
          · rw [if_neg hr1] at h1
            obtain ⟨h2, h3, h4, h5, h6, h7, h8⟩ := hinv.reader_ok r1 loc1 h1
            have hline : loc1.line ≠ loc.line := fun h =>
              hr1 (hinv.reader_inj r1 r loc1 loc h1 hr h)
            push_cast at h3
            simp only [hcount']
            refine ⟨h2, by push_cast; omega, h4, ?_, ?_, ?_, h8⟩
            · rw [hfl]
              have : ¬ (loc1.pos % 32 = loc.pos % 32 ∨ loc1.pos % 32 = (loc.pos + 1) % 32) := by
                omega
              rw [if_neg this]; exact h5
            · rw [hfl]
              have : ¬ ((loc1.pos + 1) % 32 = loc.pos % 32 ∨
                  (loc1.pos + 1) % 32 = (loc.pos + 1) % 32) := by
                omega
              rw [if_neg this]; exact h6
            · simp [setAt, hline, h7]
        reader_inj := by
          intro r1 r2 loc1 loc2 h1 h2 hl
          simp only [setAt] at h1 h2
          by_cases hr1 : r1 = r
          · rw [if_pos hr1] at h1; cases h1
          · by_cases hr2 : r2 = r
            · rw [if_pos hr2] at h2; cases h2
            · rw [if_neg hr1] at h1
              rw [if_neg hr2] at h2
              exact hinv.reader_inj r1 r2 loc1 loc2 h1 h2 hl
        line_done := by
          intro l hl
          simp only at hl ⊢
          by_cases hll : l = loc.line
          · left; simp [setAt, hll]
          · rcases hinv.line_done l hl with h | ⟨r1, loc1, h1, h2⟩
            · left; simpa [setAt, hll] using h
            · right
              have hr1 : r1 ≠ r := by
                rintro rfl
                rw [hr] at h1
                cases h1
                exact hll h2.symm
              exact ⟨r1, loc1, by simp [setAt, hr1, h1], h2⟩
        enqueued_lt := by
          intro l hl
          simp only [setAt] at hl ⊢
          by_cases hll : l = loc.line
          · have := hinv.total
            omega
          · rw [if_neg hll] at hl
            exact hinv.enqueued_lt l hl
        taken_eq := by
          simp only
          rw [hinv.taken_eq]
          congr 1
          apply List.map_congr_left
          intro j hj
          rw [List.mem_range] at hj
          exact (slotOf_setAt_of_ne _ _ _ _ (by omega)).symm
        skipped_eq := hinv.skipped_eq
        stop_false := by simp only [hstop']; exact hinv.stop_false }

theorem pullInv_step {υ σ : Type} (stream : List υ) (EFSParseURI : υ → Bool)
    (s : PullSystem υ σ) (hinv : PullInv stream s) (a : Action σ) :
    PullInv stream (step stream EFSParseURI s a) := by
  cases a with
  | read r => exact pullInv_read stream EFSParseURI s hinv r
  | call_import r info fetched => exact pullInv_import stream EFSParseURI s hinv r info fetched
  | take => exact pullInv_take stream EFSParseURI s hinv

theorem pullInv_foldl {υ σ : Type} (stream : List υ) (EFSParseURI : υ → Bool)
    (schedule : List (Action σ)) (s : PullSystem υ σ) (hinv : PullInv stream s) :
    PullInv stream (schedule.foldl (step stream EFSParseURI) s) := by
  induction schedule generalizing s with
  | nil => exact hinv
  | cons a rest ih => exact ih _ (pullInv_step stream EFSParseURI s hinv a)

theorem pullInv_run {υ σ : Type} (stream : List υ) (EFSParseURI : υ → Bool)
    (schedule : List (Action σ)) : PullInv stream (run stream EFSParseURI schedule) :=
  pullInv_foldl stream EFSParseURI schedule _ (pullInv_start stream)

/-! ## The pull ring: capacity, order, bubbles -/

theorem reduceOption_slots {σ : Type} (enqueued : Nat → Option (Option σ × Option σ))
    (n : Nat) :
    ((List.range (2 * n)).map (slotOf enqueued)).reduceOption = streamOrder enqueued n := by
  induction n with
  | zero => rfl
  | succ n ih =>
    have h2 : 2 * (n + 1) = 2 * n + 1 + 1 := by ring
    have hd0 : 2 * n / 2 = n := by omega
    have hd1 : (2 * n + 1) / 2 = n := by omega
    have hm0 : 2 * n % 2 = 0 := by omega
    have hm1 : ¬ (2 * n + 1) % 2 = 0 := by omega
    rw [h2, List.range_succ, List.range_succ, List.map_append, List.map_append,
      List.reduceOption_append, List.reduceOption_append, ih]
    simp only [streamOrder, List.append_assoc, List.map_cons, List.map_nil, slotOf, hd0, hd1,
      hm0, hm1, if_true, if_false]
    cases enqueued n with
    | none => rfl
    | some p =>
      obtain ⟨a, b⟩ := p
      cases a <;> cases b <;> rfl

theorem streamOrder_length {σ : Type} (enqueued : Nat → Option (Option σ × Option σ))
    (n : Nat)
    (h : ∀ l, l < n → ∃ p, enqueued l = some p ∧
      (isBubble p = true ∨ (p.1.isSome = true ∧ p.2.isSome = true))) :
    (streamOrder enqueued n).length + 2 * bubbleCount enqueued n = 2 * n := by
  induction n with
  | zero => rfl
  | succ n ih =>
    have ih1 := ih (fun l hl => h l (by omega))
    obtain ⟨p, hp, hcase⟩ := h n (by omega)
    obtain ⟨a, b⟩ := p
    simp only [streamOrder, bubbleCount, hp, List.length_append]
    rcases hcase with hb | ⟨ha, hb⟩
    · cases a <;> cases b <;> simp_all [isBubble]
      omega
    · cases a <;> cases b <;> simp_all [isBubble]
      omega

/-- C15: in every state the pull reaches from its start by reservations, calls of `import`
and takes of the writer, 0 ≤ count ≤ `QUEUE_SIZE`; every filled slot lies in the reserved
window, at (cur + k) mod `QUEUE_SIZE` for some k < count; and when the slot at `cur` is
filled, so that the writer can take it, count is at least 1: the decrement never goes below
zero. -/
theorem queue_capacity {υ σ : Type} (stream : List υ) (EFSParseURI : υ → Bool)
    (schedule : List (Action σ)) :
    0 ≤ (run stream EFSParseURI schedule).pull.count ∧
    (run stream EFSParseURI schedule).pull.count ≤ QUEUE_SIZE ∧
    (∀ slot, (run stream EFSParseURI schedule).pull.filled slot = true →
      ∃ k : Nat, (k : Int) < (run stream EFSParseURI schedule).pull.count ∧
        slot = ((run stream EFSParseURI schedule).pull.cur + k) % QUEUE_SIZE) ∧
    ((run stream EFSParseURI schedule).pull.filled
        (run stream EFSParseURI schedule).pull.cur = true →
      1 ≤ (run stream EFSParseURI schedule).pull.count) := by
  have hinv := pullInv_run stream EFSParseURI schedule
  have hwin : ∀ slot, (run stream EFSParseURI schedule).pull.filled slot = true →
      ∃ k : Nat, (k : Int) < (run stream EFSParseURI schedule).pull.count ∧
        slot = ((run stream EFSParseURI schedule).pull.cur + k) % QUEUE_SIZE := by
    intro slot hslot
    obtain ⟨j, h1, h2, h3, -⟩ := hinv.filled_in_window slot hslot
    have hcur := hinv.cur_eq
    refine ⟨j - (run stream EFSParseURI schedule).advanced, by omega, ?_⟩
    simp only [QUEUE_SIZE]
    omega
  refine ⟨hinv.count_nonneg, hinv.count_le, hwin, fun hf => ?_⟩
  obtain ⟨k, hk, -⟩ := hwin _ hf
  omega

/-- C18: when the URI is null, or does not parse, or the file is known locally, `import`
returns 0, writes NULL to the two slots at pos and pos + 1 modulo `QUEUE_SIZE`, sets their
filled flags, and leaves `cur`, `count`, `stop` and every other slot and flag as they were. -/
theorem import_enqueues_bubble {υ σ : Type} (EFSParseURI : υ → Bool)
    (EFSSessionGetFileInfo : υ → Int) (fetch : υ → Option (Option σ × Option σ))
    (pull : EFSPull σ) (URI : Option υ) (pos : Nat)
    (hbubble : URI = none ∨
      (∃ uri, URI = some uri ∧ EFSParseURI uri = false) ∨
      (∃ uri, URI = some uri ∧ EFSSessionGetFileInfo uri ≥ 0)) :
    (import_ EFSParseURI EFSSessionGetFileInfo fetch pull URI pos).2 = 0 ∧
    (import_ EFSParseURI EFSSessionGetFileInfo fetch pull URI pos).1.queue
      (pos % QUEUE_SIZE) = none ∧
    (import_ EFSParseURI EFSSessionGetFileInfo fetch pull URI pos).1.queue
      ((pos + 1) % QUEUE_SIZE) = none ∧
    (import_ EFSParseURI EFSSessionGetFileInfo fetch pull URI pos).1.filled
      (pos % QUEUE_SIZE) = true ∧
    (import_ EFSParseURI EFSSessionGetFileInfo fetch pull URI pos).1.filled
      ((pos + 1) % QUEUE_SIZE) = true ∧
    (import_ EFSParseURI EFSSessionGetFileInfo fetch pull URI pos).1.cur = pull.cur ∧
    (import_ EFSParseURI EFSSessionGetFileInfo fetch pull URI pos).1.count = pull.count ∧
    (import_ EFSParseURI EFSSessionGetFileInfo fetch pull URI pos).1.stop = pull.stop ∧
    (∀ slot, slot ≠ pos % QUEUE_SIZE → slot ≠ (pos + 1) % QUEUE_SIZE →
      (import_ EFSParseURI EFSSessionGetFileInfo fetch pull URI pos).1.queue slot =
        pull.queue slot ∧
      (import_ EFSParseURI EFSSessionGetFileInfo fetch pull URI pos).1.filled slot =
        pull.filled slot) := by
  have himp : import_ EFSParseURI EFSSessionGetFileInfo fetch pull URI pos =
      enqueue pull pos none none := by
    unfold import_
    rcases hbubble with rfl | ⟨uri, rfl, hparse⟩ | ⟨uri, rfl, hknown⟩
    · rfl
    · simp [hparse]
    · by_cases hparse : EFSParseURI uri = true
      · simp [hparse, hknown]
      · simp [hparse]
  rw [himp]
  obtain ⟨hq0, hq1, hqo⟩ := enqueue_queue pull pos (none : Option σ) none
  have hfl := enqueue_filled pull pos (none : Option σ) none
  refine ⟨rfl, hq0, hq1, ?_, ?_, rfl, rfl, rfl, fun slot h0 h1 => ⟨hqo slot h0 h1, ?_⟩⟩
  · show (enqueue pull pos none none).1.filled (pos % 32) = true
    rw [hfl]; simp
  · show (enqueue pull pos none none).1.filled ((pos + 1) % 32) = true
    rw [hfl]; simp
  · rw [hfl]
    have h0' : slot ≠ pos % 32 := h0
    have h1' : slot ≠ (pos + 1) % 32 := h1
    simp [h0', h1']

theorem queue_capacity_witness :
    (run sampleStream (fun _ => true) sampleFills).pull.filled
        (run sampleStream (fun _ => true) sampleFills).pull.cur = true ∧
    (run sampleStream (fun _ => true) sampleFills).pull.count = 4 ∧
    1 ≤ (run sampleStream (fun _ => true) sampleFills).pull.count :=
  ⟨by decide, by decide,
    (queue_capacity sampleStream (fun _ => true) sampleFills).2.2.2 (by decide)⟩

theorem import_enqueues_bubble_witness :
    (import_ (fun _ => true) (fun _ => 0) (fun _ => some (some 21, some 22))
      (EFSRepoCreatePull Nat) (some [1]) 30).2 = 0 ∧
    (import_ (fun _ => true) (fun _ => 0) (fun _ => some (some 21, some 22))
      (EFSRepoCreatePull Nat) (some [1]) 30).1.queue 30 = none ∧
    (import_ (fun _ => true) (fun _ => 0) (fun _ => some (some 21, some 22))
      (EFSRepoCreatePull Nat) (some [1]) 30).1.filled 31 = true :=
  ⟨(import_enqueues_bubble (fun _ => true) (fun _ => 0) (fun _ => some (some 21, some 22))
      (EFSRepoCreatePull Nat) (some [1]) 30 (Or.inr (Or.inr ⟨[1], rfl, by decide⟩))).1,
   (import_enqueues_bubble (fun _ => true) (fun _ => 0) (fun _ => some (some 21, some 22))
      (EFSRepoCreatePull Nat) (some [1]) 30 (Or.inr (Or.inr ⟨[1], rfl, by decide⟩))).2.1,
   (import_enqueues_bubble (fun _ => true) (fun _ => 0) (fun _ => some (some 21, some 22))
      (EFSRepoCreatePull Nat) (some [1]) 30
      (Or.inr (Or.inr ⟨[1], rfl, by decide⟩))).2.2.2.2.1⟩

/-- C16: whatever the schedule of reservations, calls of `import` and takes, the submissions
the writer has taken are, in order, the non-bubble contents of the first slots of the stream
of reservations (slot 2l the file and slot 2l + 1 the meta-file of line l), as many slots as
the writer has consumed; so they are a subsequence, in the same relative order, of the
submissions of the lines u1..un in stream order, and only lines of the stream are enqueued. -/
theorem pull_ordering {υ σ : Type} (stream : List υ) (EFSParseURI : υ → Bool)
    (schedule : List (Action σ)) :
    (run stream EFSParseURI schedule).taken =
      ((List.range (run stream EFSParseURI schedule).advanced).map
        (slotOf (run stream EFSParseURI schedule).enqueued)).reduceOption ∧
    (run stream EFSParseURI schedule).advanced ≤ 2 * stream.length ∧
    List.Sublist (run stream EFSParseURI schedule).taken
      (streamOrder (run stream EFSParseURI schedule).enqueued stream.length) ∧
    (∀ l, (run stream EFSParseURI schedule).enqueued l ≠ none → l < stream.length) := by
  have hinv := pullInv_run stream EFSParseURI schedule
  have hadv : (run stream EFSParseURI schedule).advanced ≤ 2 * stream.length := by
    have h1 := hinv.total
    have h2 := hinv.count_nonneg
    have h3 := hinv.next_le
    omega
  refine ⟨hinv.taken_eq, hadv, ?_, fun l hl => ?_⟩
  · rw [← reduceOption_slots, hinv.taken_eq]
    exact ((List.range_sublist.mpr hadv).map _).filterMap _
  · have := hinv.enqueued_lt l hl
    have := hinv.next_le
    omega

theorem pull_ordering_witness :
    (run sampleStream (fun _ => true) sampleSchedule).taken = [21, 22] ∧
    (run sampleStream (fun _ => true) sampleSchedule).enqueued 1 ≠ none ∧
    1 < sampleStream.length :=
  ⟨by decide, by decide,
    (pull_ordering sampleStream (fun _ => true) sampleSchedule).2.2.2 1 (by decide)⟩

/-- C17 (amended): once the n lines of the stream have been read, every reserved slot has
been filled and the ring is drained, the writer has advanced the ring by exactly 2n slots,
two for each URI; what it has taken is the list of the submissions of the n lines in stream
order; and when each URI that is not a bubble gave both a file and a meta-file submission, it
has emitted exactly 2(n - k) submissions, n - k pairs, and skipped 2k slots, k being the
number of bubbles. -/
theorem bubble_preservation {υ σ : Type} (stream : List υ) (EFSParseURI : υ → Bool)
    (schedule : List (Action σ))
    (hread : (run stream EFSParseURI schedule).next = stream.length)
    (hidle : ∀ r, (run stream EFSParseURI schedule).readers r = none)
    (hdrained : (run stream EFSParseURI schedule).pull.count = 0)
    (hpairs : ∀ l p, (run stream EFSParseURI schedule).enqueued l = some p →
      isBubble p = true ∨ (p.1.isSome = true ∧ p.2.isSome = true)) :
    (run stream EFSParseURI schedule).advanced = 2 * stream.length ∧
    (run stream EFSParseURI schedule).taken =
      streamOrder (run stream EFSParseURI schedule).enqueued stream.length ∧
    (run stream EFSParseURI schedule).taken.length =
      2 * (stream.length -
        bubbleCount (run stream EFSParseURI schedule).enqueued stream.length) ∧
    (run stream EFSParseURI schedule).skipped =
      2 * bubbleCount (run stream EFSParseURI schedule).enqueued stream.length := by
  have hinv := pullInv_run stream EFSParseURI schedule
  have hadv : (run stream EFSParseURI schedule).advanced = 2 * stream.length := by
    have h1 := hinv.total
    omega
  have htaken : (run stream EFSParseURI schedule).taken =
      streamOrder (run stream EFSParseURI schedule).enqueued stream.length := by
    rw [hinv.taken_eq, hadv, reduceOption_slots]
  have hall : ∀ l, l < stream.length → ∃ p,
      (run stream EFSParseURI schedule).enqueued l = some p ∧
      (isBubble p = true ∨ (p.1.isSome = true ∧ p.2.isSome = true)) := by
    intro l hl
    rcases hinv.line_done l (by omega) with h | ⟨r, loc, h1, -⟩
    · obtain ⟨p, hp⟩ := Option.ne_none_iff_exists'.mp h
      exact ⟨p, hp, hpairs l p hp⟩
    · rw [hidle r] at h1
      cases h1
  have hlen := streamOrder_length _ stream.length hall
  have hsk := hinv.skipped_eq
  rw [← htaken] at hlen
  refine ⟨hadv, htaken, by omega, by omega⟩

theorem sample_readers_idle (r : Nat) :
    (run sampleStream (fun _ => true) sampleSchedule).readers r = none := by
  by_cases h0 : r = 0
  · subst h0; rfl
  · by_cases h1 : r = 1
    · subst h1; rfl
    · simp [run, sampleSchedule, sampleFills, sampleStream, step, reader_reserve, import_,
        enqueue, writer_take, setAt, PullSystem.start, EFSRepoCreatePull, QUEUE_SIZE, h0, h1]

theorem sample_pairs (l : Nat) (p : Option Nat × Option Nat)
    (h : (run sampleStream (fun _ => true) sampleSchedule).enqueued l = some p) :
    isBubble p = true ∨ (p.1.isSome = true ∧ p.2.isSome = true) := by
  by_cases h0 : l = 0
  · subst h0
    have : (run sampleStream (fun _ => true) sampleSchedule).enqueued 0 =
        some (none, none) := by decide
    rw [this] at h
    cases h
    exact Or.inl rfl
  · by_cases h1 : l = 1
    · subst h1
      have : (run sampleStream (fun _ => true) sampleSchedule).enqueued 1 =
          some (some 21, some 22) := by decide
      rw [this] at h
      cases h
      exact Or.inr ⟨rfl, rfl⟩
    · have hlt := (pullInv_run sampleStream (fun _ => true) sampleSchedule).enqueued_lt l
        (by rw [h]; simp)
      have hnext : (run sampleStream (fun _ => true) sampleSchedule).next = 2 := by decide
      omega

theorem bubble_preservation_witness :
    (run sampleStream (fun _ => true) sampleSchedule).next = sampleStream.length ∧
    (run sampleStream (fun _ => true) sampleSchedule).pull.count = 0 ∧
    bubbleCount (run sampleStream (fun _ => true) sampleSchedule).enqueued
      sampleStream.length = 1 ∧
    (run sampleStream (fun _ => true) sampleSchedule).advanced = 2 * sampleStream.length ∧
    (run sampleStream (fun _ => true) sampleSchedule).taken =
      streamOrder (run sampleStream (fun _ => true) sampleSchedule).enqueued
        sampleStream.length ∧
    (run sampleStream (fun _ => true) sampleSchedule).taken.length =
      2 * (sampleStream.length -
        bubbleCount (run sampleStream (fun _ => true) sampleSchedule).enqueued
          sampleStream.length) ∧
    (run sampleStream (fun _ => true) sampleSchedule).skipped =
      2 * bubbleCount (run sampleStream (fun _ => true) sampleSchedule).enqueued
        sampleStream.length :=
  ⟨by decide, by decide, by decide,
    bubble_preservation sampleStream (fun _ => true) sampleSchedule (by decide)
      sample_readers_idle (by decide) sample_pairs⟩

/-- C17 (counterexample): the stream of n = 2 URIs of which k = 1 is a bubble (the first is
known locally), both lines read, both reservations filled and the ring drained: the writer has
advanced the ring by 4 slots, not 2, and has emitted 2 submissions (the pair of the second
URI), not n - k = 1; `cur` is 4. -/
theorem bubble_preservation_counterexample :
    sampleStream.length = 2 ∧
    (run sampleStream (fun _ => true) sampleSchedule).next = 2 ∧
    (run sampleStream (fun _ => true) sampleSchedule).pull.count = 0 ∧
    (run sampleStream (fun _ => true) sampleSchedule).enqueued 0 = some (none, none) ∧
    (run sampleStream (fun _ => true) sampleSchedule).enqueued 1 =
      some (some 21, some 22) ∧
    (run sampleStream (fun _ => true) sampleSchedule).taken = [21, 22] ∧
    (run sampleStream (fun _ => true) sampleSchedule).taken.length ≠ 2 - 1 ∧
    (run sampleStream (fun _ => true) sampleSchedule).advanced = 4 ∧
    (run sampleStream (fun _ => true) sampleSchedule).advanced ≠ 2 ∧
    (run sampleStream (fun _ => true) sampleSchedule).pull.cur = 4 := by
  decide

/-! ## The target URI of a stored meta-file -/

/-- C19 (the code at the failing input): the body NUL, hash://d, LF LF, {} is accepted, the
delimiter being at offset 9, and `EFSMetaFileStore` writes the primary row and the
(targetURI, id) row with the empty target URI, of length 0. -/
theorem target_uri_empty_on_nul :
    EFSMetaFileStore sampleYajl sampleFts
        (some { buf := [0, 104, 97, 115, 104, 58, 47, 47, 100, LF, LF, 123, 125],
                metaFileID := 0 }) 100 [] =
      Except.ok
        (some { buf := [0, 104, 97, 115, 104, 58, 47, 47, 100, 0, LF, 123, 125],
                metaFileID := 1 },
         [(Key.EFSMetaFileByID 1, some (100, [])),
          (Key.EFSFileIDAndMetaFileID 100 1, none),
          (Key.EFSTargetURIAndMetaFileID [] 1, none)], 0) ∧
    ([] : Bytes).length = 0 := by
  decide

/-! ## The assertions of the callbacks -/

theorem saxTrace_append (stack : List SaxFrame) (pre post : List Event)
    (h : saxTrace stack (pre ++ post) = true) : saxTrace stack pre = true := by
  induction pre generalizing stack with
  | nil => rfl
  | cons ev rest ih =>
    simp only [List.cons_append] at h
    unfold saxTrace at h ⊢
    cases hstep : saxStep stack ev with
    | none => rw [hstep] at h; cases h
    | some stack1 =>
      rw [hstep] at h
      exact ih stack1 h

theorem yajl_deliver_sax_rel (fts : Bytes → List Bytes) (events : List Event)
    (context : parser_context) (db : DB) (stack : List SaxFrame) (hrel : SaxRel context stack)
    (htrace : saxTrace stack events = true) :
    ∃ b context1 db1 stack1,
      yajl_deliver fts events context db = Except.ok (b, context1, db1) ∧
      SaxRel context1 stack1 := by
  induction events generalizing context db stack with
  | nil => exact ⟨true, context, db, stack, rfl, hrel⟩
  | cons ev rest ih =>
    unfold saxTrace at htrace
    cases hstep : saxStep stack ev with
    | none => rw [hstep] at htrace; cases htrace
    | some stack1 =>
      rw [hstep] at htrace
      rcases callbacks_sax_step fts context db stack stack1 ev hrel hstep with h | ⟨c1, d1, h, hr⟩
      · exact ⟨false, context, db, stack, by unfold yajl_deliver; rw [h], hrel⟩
      · obtain ⟨b, c2, d2, st2, hr2, hrel2⟩ := ih c1 d1 stack1 hr htrace
        exact ⟨b, c2, d2, st2, by unfold yajl_deliver; rw [h]; exact hr2, hrel2⟩

theorem saxRel_field (context : parser_context) (stack : List SaxFrame)
    (h : SaxRel context stack) :
    context.field.isSome = true ↔
      (context.state = parser_state.s_field_value ∨
       context.state = parser_state.s_field_array) := by
  rcases h with ⟨h1, h2, -⟩ | ⟨h1, h2, -⟩ | ⟨h1, h2, -⟩ | ⟨h1, h2, -⟩ | ⟨h1, h2, -⟩ <;>
    simp [h1, h2]

/-- C20: for every event sequence a SAX parser can emit (well nested, keys only directly inside
objects), delivered from the state `s_start` with no current field until a callback returns
false: after every prefix of the sequence the delivery has met no assertion (it has not
aborted), and the current field is set exactly when the state is `s_field_value` or
`s_field_array`. -/
theorem callbacks_assertions_unreachable (fts : Bytes → List Bytes) (events : List Event)
    (metaFileID : Nat) (targetURI : Bytes) (db : DB)
    (htrace : saxTrace [SaxFrame.top] events = true) :
    ∀ pre post, events = pre ++ post →
      ∃ b context1 db1,
        yajl_deliver fts pre
          { metaFileID := metaFileID, targetURI := targetURI,
            state := parser_state.s_start, field := none } db =
            Except.ok (b, context1, db1) ∧
        (context1.field.isSome = true ↔
          (context1.state = parser_state.s_field_value ∨
           context1.state = parser_state.s_field_array)) := by
  intro pre post hsplit
  subst hsplit
  obtain ⟨b, c1, d1, st1, hrun, hrel⟩ := yajl_deliver_sax_rel fts pre
    { metaFileID := metaFileID, targetURI := targetURI,
      state := parser_state.s_start, field := none } db [SaxFrame.top]
    (Or.inl ⟨rfl, rfl, rfl⟩) (saxTrace_append _ pre post htrace)
  exact ⟨b, c1, d1, hrun, saxRel_field c1 st1 hrel⟩

theorem callbacks_assertions_unreachable_witness :
    saxTrace [SaxFrame.top]
      [Event.start_map, Event.map_key sampleTag, Event.start_array, Event.string [97],
       Event.end_array, Event.map_key [97], Event.start_map, Event.end_map, Event.end_map] =
        true ∧
    ∃ b context1 db1,
      yajl_deliver sampleFts
        [Event.start_map, Event.map_key sampleTag, Event.start_array, Event.string [97]]
        { metaFileID := 1, targetURI := sampleURI, state := parser_state.s_start,
          field := none } [] = Except.ok (b, context1, db1) ∧
      (context1.field.isSome = true ↔
        (context1.state = parser_state.s_field_value ∨
         context1.state = parser_state.s_field_array)) :=
  ⟨by decide,
    callbacks_assertions_unreachable sampleFts
      [Event.start_map, Event.map_key sampleTag, Event.start_array, Event.string [97],
       Event.end_array, Event.map_key [97], Event.start_map, Event.end_map, Event.end_map]
      1 sampleURI [] (by decide)
      [Event.start_map, Event.map_key sampleTag, Event.start_array, Event.string [97]]
      [Event.end_array, Event.map_key [97], Event.start_map, Event.end_map, Event.end_map]
      rfl⟩

/-! ## The scan stays inside the buffered body -/

theorem delimiterReads_le (buf : Bytes) (i k : Nat) (h : k ∈ delimiterReads buf i) :
    k ≤ i + 3 := by
  unfold delimiterReads at h
  simp only [List.mem_append, List.mem_cons] at h
  rcases h with (h | h) | h
  · rcases h with h | h
    · omega
    · split at h
      · rcases List.mem_cons.mp h with h | h
        · omega
        · split at h
          · rcases List.mem_cons.mp h with h | h
            · omega
            · split at h
              · simp at h; omega
              · simp at h
          · simp at h
      · simp at h
  · rcases h with h | h
    · omega
    · split at h
      · simp at h; omega
      · simp at h
  · rcases h with h | h
    · omega
    · split at h
      · simp at h; omega
      · simp at h

theorem size_sub_eq (a b : Nat) (hb : b ≤ a) (ha : a < 2 ^ 64) : size_sub a b = a - b := by
  unfold size_sub
  omega

theorem scanEvents_bounds (buf : Bytes) (len n i : Nat) (h3 : i + n + 3 ≤ len) :
    ∀ e ∈ scanEvents buf len n i,
      match e with
      | ScanEvent.read k => k < len
      | ScanEvent.write k => k < len
      | ScanEvent.sub a b => b ≤ a := by
  induction n generalizing i with
  | zero =>
    intro e he
    simp only [scanEvents, List.mem_singleton] at he
    subst he
    show 3 ≤ len
    omega
  | succ n ih =>
    intro e he
    simp only [scanEvents, List.mem_cons, List.mem_append, List.mem_map] at he
    rcases he with he | ⟨k, hk, he⟩ | he
    · subst he
      show 3 ≤ len
      omega
    · subst he
      have := delimiterReads_le buf i k hk
      show k < len
      omega
    · split at he
      · split at he
        · simp at he
        · simp only [List.mem_cons, List.mem_singleton, List.not_mem_nil, or_false] at he
          rcases he with he | he
          · subst he
            show i < len
            omega
          · subst he
            show i + 1 ≤ len
            omega
      · exact ih (i + 1) (by omega) e he

theorem scanEvents_write (buf : Bytes) (len n i k : Nat)
    (h : ScanEvent.write k ∈ scanEvents buf len n i) :
    scanLoop buf n i = some k ∧ 8 ≤ k := by
  induction n generalizing i with
  | zero => simp [scanEvents] at h
  | succ n ih =>
    simp only [scanEvents, List.mem_cons, List.mem_append, List.mem_map] at h
    rcases h with h | ⟨j, -, h⟩ | h
    · cases h
    · cases h
    · unfold scanLoop
      split at h
      · rename_i hd
        rw [if_pos hd]
        split at h
        · simp at h
        · simp only [List.mem_cons, List.mem_singleton, List.not_mem_nil, or_false] at h
          rcases h with h | h
          · cases h
            exact ⟨rfl, by omega⟩
          · cases h
      · rename_i hd
        rw [if_neg hd]
        exact ih (i + 1) h

/-- C21: for every meta-file of at most `META_MAX` buffered bytes, every byte the delimiter
scan of `EFSMetaFileStore` reads is at an index below `len`; the write of the NUL is at an
index below `len`, at least 8, and is the one `frame` makes; every unsigned subtraction the
scan evaluates (`len - 3` and `len - (i + 1)`) has a subtrahend not above `len` and so does
not wrap; and for `len < 3` the scan does nothing: no read, no write, no subtraction. -/
theorem scan_within_bounds (m : EFSMetaFile) (hlen : m.len ≤ META_MAX) :
    (∀ k, ScanEvent.read k ∈ storeScanEvents (some m) → k < m.len) ∧
    (∀ k, ScanEvent.write k ∈ storeScanEvents (some m) →
      k < m.len ∧ 8 ≤ k ∧ (frame m.buf).map Frame.buf = some (m.buf.set k 0)) ∧
    (∀ a b, ScanEvent.sub a b ∈ storeScanEvents (some m) →
      a = m.len ∧ b ≤ a ∧ size_sub a b = a - b) ∧
    (m.len < 3 → storeScanEvents (some m) = []) := by
  have hmax : m.len < 2 ^ 64 := by
    unfold META_MAX at hlen
    omega
  by_cases h3 : m.len < 3
  · have hnil : storeScanEvents (some m) = [] := by
      simp only [storeScanEvents]
      rw [if_pos h3]
    rw [hnil]
    simp
  · have hev : storeScanEvents (some m) =
        scanEvents m.buf m.len (min (URI_MAX + 1) (m.len - 3)) 0 := by
      simp only [storeScanEvents]
      rw [if_neg h3, size_sub_eq m.len 3 (by omega) hmax]
    have hb := scanEvents_bounds m.buf m.len (min (URI_MAX + 1) (m.len - 3)) 0 (by omega)
    rw [hev]
    refine ⟨fun k hk => hb _ hk, fun k hk => ⟨hb _ hk, ?_⟩, fun a b hab => ?_, fun h => absurd h h3⟩
    · obtain ⟨hscan, h8⟩ := scanEvents_write _ _ _ _ _ hk
      refine ⟨h8, ?_⟩
      have hscan1 : scanLoop m.buf (min (URI_MAX + 1) (m.buf.length - 3)) 0 = some k := hscan
      unfold frame
      rw [hscan1]
      simp only [Option.map]
      rw [if_neg (by omega)]
    · have hle : b ≤ a := hb _ hab
      have ha : a = m.len := by
        clear hb hev
        generalize min (URI_MAX + 1) (m.len - 3) = n at hab
        generalize (0 : Nat) = i at hab
        induction n generalizing i with
        | zero =>
          simp only [scanEvents, List.mem_singleton] at hab
          cases hab
          rfl
        | succ n ih =>
          simp only [scanEvents, List.mem_cons, List.mem_append, List.mem_map] at hab
          rcases hab with hab | ⟨j, -, hab⟩ | hab
          · cases hab
            rfl
          · cases hab
          · split at hab
            · split at hab
              · simp at hab
              · simp only [List.mem_cons, List.mem_singleton, List.not_mem_nil, or_false] at hab
                rcases hab with hab | hab
                · cases hab
                · cases hab
                  rfl
            · exact ih (i + 1) hab
      exact ⟨ha, hle, size_sub_eq a b hle (by omega)⟩

theorem scan_within_bounds_witness :
    EFSMetaFile.len { buf := sampleURI ++ [LF, LF] ++ sampleTitleJson, metaFileID := 0 } ≤
      META_MAX ∧
    ScanEvent.read 16 ∈
      storeScanEvents (some { buf := sampleURI ++ [LF, LF] ++ sampleTitleJson, metaFileID := 0 }) ∧
    ScanEvent.write 15 ∈
      storeScanEvents (some { buf := sampleURI ++ [LF, LF] ++ sampleTitleJson, metaFileID := 0 }) ∧
    ((∀ k, ScanEvent.read k ∈
        storeScanEvents
          (some { buf := sampleURI ++ [LF, LF] ++ sampleTitleJson, metaFileID := 0 }) →
        k < EFSMetaFile.len
          { buf := sampleURI ++ [LF, LF] ++ sampleTitleJson, metaFileID := 0 }) ∧
    (∀ k, ScanEvent.write k ∈
        storeScanEvents
          (some { buf := sampleURI ++ [LF, LF] ++ sampleTitleJson, metaFileID := 0 }) →
      k < EFSMetaFile.len
          { buf := sampleURI ++ [LF, LF] ++ sampleTitleJson, metaFileID := 0 } ∧
      8 ≤ k ∧
      (frame (sampleURI ++ [LF, LF] ++ sampleTitleJson)).map Frame.buf =
        some ((sampleURI ++ [LF, LF] ++ sampleTitleJson).set k 0)) ∧
    (∀ a b, ScanEvent.sub a b ∈
        storeScanEvents
          (some { buf := sampleURI ++ [LF, LF] ++ sampleTitleJson, metaFileID := 0 }) →
      a = EFSMetaFile.len
          { buf := sampleURI ++ [LF, LF] ++ sampleTitleJson, metaFileID := 0 } ∧
      b ≤ a ∧ size_sub a b = a - b) ∧
    (EFSMetaFile.len { buf := sampleURI ++ [LF, LF] ++ sampleTitleJson, metaFileID := 0 } < 3 →
      storeScanEvents
        (some { buf := sampleURI ++ [LF, LF] ++ sampleTitleJson, metaFileID := 0 }) = [])) :=
  ⟨by decide, by decide, by decide,
    scan_within_bounds { buf := sampleURI ++ [LF, LF] ++ sampleTitleJson, metaFileID := 0 }
      (by decide)⟩

/-! ## A second store of the same meta-file object -/

theorem frame_changes_buf (buf : Bytes) (f : Frame) (h : frame buf = some f) : f.buf ≠ buf := by
  obtain ⟨i, -, hi, hd, -, hf⟩ := frame_some buf f h
  subst hf
  intro heq
  have hlt : i < buf.length := by omega
  have h0 : (buf.set i 0)[i]? = some 0 := by
    rw [List.getElem?_set_self hlt]
  have heq1 : buf.set i 0 = buf := heq
  rw [heq1] at h0
  simp only [isDelimiterAt, Nat.add_zero, h0, CR, LF] at hd
  simp at hd

/-- C22 (the code at the failing input): the meta-file with the body hash://deadbeef, LF LF,
`{"title":"hello"}`. The first call of `EFSMetaFileStore` writes the three meta-file rows and
the two field rows under id 1 and leaves a NUL at offset 15 of the buffer; in the writer, a
batch of this meta-file and one that fails is rolled back with the object so changed; the scan
of the changed buffer finds no delimiter, and a second call on the same object, in the store as
rolled back, returns 0, writes no row and leaves the id 1 of the first call in the object. -/
theorem second_store_writes_nothing :
    EFSMetaFileStore sampleYajl sampleFts
        (some { buf := sampleURI ++ [LF, LF] ++ sampleTitleJson, metaFileID := 0 }) 100 [] =
      Except.ok
        (some { buf := sampleURI ++ [0, LF] ++ sampleTitleJson, metaFileID := 1 },
         metaFileRows 1 100 sampleURI ++
           [(Key.EFSMetaFileIDFieldAndValue 1 sampleTitle sampleHello, none),
            (Key.EFSFieldValueAndMetaFileID sampleTitle sampleHello 1, none)], 0) ∧
    sampleURI ++ [0, LF] ++ sampleTitleJson ≠ sampleURI ++ [LF, LF] ++ sampleTitleJson ∧
    writerTxn (EFSSubmissionStore sampleYajl sampleFts) (sampleSubs.take 2) [] =
      Except.ok
        ([{ meta := some { buf := sampleURI ++ [0, LF] ++ sampleTitleJson, metaFileID := 1 },
            fileID := 100 },
          { meta := some { buf := sampleURI ++ [0, LF] ++ sampleNullJson, metaFileID := 2 },
            fileID := 101 }], [], -1, 1) ∧
    frame (sampleURI ++ [0, LF] ++ sampleTitleJson) = none ∧
    EFSMetaFileStore sampleYajl sampleFts
        (some { buf := sampleURI ++ [0, LF] ++ sampleTitleJson, metaFileID := 1 }) 100 [] =
      Except.ok
        (some { buf := sampleURI ++ [0, LF] ++ sampleTitleJson, metaFileID := 1 }, [], 0) := by
  decide

end EarthFS
